import Mathlib

/-!
# node-xmlrpc: the two XML-RPC decoders of `lib/xmlrpc-parser.js`

A shallow embedding of `parseMethodCall` and `parseMethodResponse` and of the
JavaScript values and built-ins they use.

* The tokenizer (`node-xml`) is external.  A parse is a list of `Event`s
  (start element, end element, characters) followed by one end-of-document.
  Each event goes to the listener registered at that moment; an event without
  a registered listener does nothing.
* JavaScript values are the type `JSVal`.  Objects are property lists; the
  frames `{name, values, inner_content}` of `parseMethodResponse` are objects
  like any other, so a decoded struct with a member called `name` is read by
  the later branches of the end-element handler exactly as the source reads it.
* A handler that throws ends the parse: the model returns `JSError.typeError`.
  Behaviour the embedding does not cover (an index or a `length` found on a
  replaced prototype, a prototype set to null, the external date decoder, ...) is
  reported as `JSError.unmodelled`, never guessed.
* The listeners that `parseMethodCall` re-registers on the tokenizer are
  closures; they are defunctionalised (`StartListener`, `EndListener`,
  `CharListener`, `Cont`) and the variables they capture by reference live in
  a heap of cells.
-/

namespace XmlRpc

/-! ## JavaScript values -/

/-- The Number values the decoders can produce from integer text: an integer
(held exactly), NaN, or an infinity.  `-0` is identified with `0`. -/
inductive JSNum
  | int (z : Int)
  | nan
  | inf (neg : Bool)
  deriving DecidableEq, Repr

/-- JavaScript values.  `double text` stands for the Number `parseFloat(text)`,
kept symbolic, so the embedding does not say which texts give the same Number;
`date text` stands for a Date.  An object is the list of its own properties,
keys unique, in insertion order. -/
inductive JSVal
  | undefined
  | null
  | bool (b : Bool)
  | num (n : JSNum)
  | double (text : String)
  | str (s : String)
  | date (text : String)
  | arr (items : List JSVal)
  | obj (props : List (String × JSVal))
  deriving Repr

mutual
/-- Equality of values is decidable. -/
def JSVal.decEq : (a b : JSVal) → Decidable (a = b)
  | .undefined, .undefined => isTrue rfl
  | .null, .null => isTrue rfl
  | .bool a, .bool b => if h : a = b then isTrue (by rw [h]) else isFalse (by simpa using h)
  | .num a, .num b => if h : a = b then isTrue (by rw [h]) else isFalse (by simpa using h)
  | .double a, .double b => if h : a = b then isTrue (by rw [h]) else isFalse (by simpa using h)
  | .str a, .str b => if h : a = b then isTrue (by rw [h]) else isFalse (by simpa using h)
  | .date a, .date b => if h : a = b then isTrue (by rw [h]) else isFalse (by simpa using h)
  | .arr a, .arr b =>
    match JSVal.decEqList a b with
    | isTrue h => isTrue (by rw [h])
    | isFalse h => isFalse (by simpa using h)
  | .obj a, .obj b =>
    match JSVal.decEqProps a b with
    | isTrue h => isTrue (by rw [h])
    | isFalse h => isFalse (by simpa using h)
  | .undefined, .null | .undefined, .bool _ | .undefined, .num _ | .undefined, .double _
  | .undefined, .str _ | .undefined, .date _ | .undefined, .arr _ | .undefined, .obj _ => isFalse nofun
  | .null, .undefined | .null, .bool _ | .null, .num _ | .null, .double _
  | .null, .str _ | .null, .date _ | .null, .arr _ | .null, .obj _ => isFalse nofun
  | .bool _, .undefined | .bool _, .null | .bool _, .num _ | .bool _, .double _
  | .bool _, .str _ | .bool _, .date _ | .bool _, .arr _ | .bool _, .obj _ => isFalse nofun
  | .num _, .undefined | .num _, .null | .num _, .bool _ | .num _, .double _
  | .num _, .str _ | .num _, .date _ | .num _, .arr _ | .num _, .obj _ => isFalse nofun
  | .double _, .undefined | .double _, .null | .double _, .bool _ | .double _, .num _
  | .double _, .str _ | .double _, .date _ | .double _, .arr _ | .double _, .obj _ => isFalse nofun
  | .str _, .undefined | .str _, .null | .str _, .bool _ | .str _, .num _
  | .str _, .double _ | .str _, .date _ | .str _, .arr _ | .str _, .obj _ => isFalse nofun
  | .date _, .undefined | .date _, .null | .date _, .bool _ | .date _, .num _
  | .date _, .double _ | .date _, .str _ | .date _, .arr _ | .date _, .obj _ => isFalse nofun
  | .arr _, .undefined | .arr _, .null | .arr _, .bool _ | .arr _, .num _
  | .arr _, .double _ | .arr _, .str _ | .arr _, .date _ | .arr _, .obj _ => isFalse nofun
  | .obj _, .undefined | .obj _, .null | .obj _, .bool _ | .obj _, .num _
  | .obj _, .double _ | .obj _, .str _ | .obj _, .date _ | .obj _, .arr _ => isFalse nofun
/-- Equality of lists of values is decidable. -/
def JSVal.decEqList : (a b : List JSVal) → Decidable (a = b)
  | [], [] => isTrue rfl
  | [], _ :: _ => isFalse nofun
  | _ :: _, [] => isFalse nofun
  | a :: as, b :: bs =>
    match JSVal.decEq a b, JSVal.decEqList as bs with
    | isTrue h, isTrue k => isTrue (by rw [h, k])
    | isFalse h, _ => isFalse (by simp [h])
    | _, isFalse k => isFalse (by simp [k])
/-- Equality of property lists is decidable. -/
def JSVal.decEqProps : (a b : List (String × JSVal)) → Decidable (a = b)
  | [], [] => isTrue rfl
  | [], _ :: _ => isFalse nofun
  | _ :: _, [] => isFalse nofun
  | (k, a) :: as, (l, b) :: bs =>
    if hk : k = l then
      match JSVal.decEq a b, JSVal.decEqProps as bs with
      | isTrue h, isTrue k => isTrue (by rw [hk, h, k])
      | isFalse h, _ => isFalse (by simp [h])
      | _, isFalse k => isFalse (by simp [k])
    else isFalse (by simp [hk])
end

instance : DecidableEq JSVal := JSVal.decEq

/-- How a handler can fail: a JavaScript TypeError is thrown, or the parse
leaves the part of JavaScript that the embedding covers. -/
inductive JSError
  | typeError
  | unmodelled
  deriving DecidableEq, Repr

/-- Results of code that may throw. -/
abbrev JS (α : Type) := Except JSError α

instance {ε α : Type} [DecidableEq ε] [DecidableEq α] : DecidableEq (Except ε α)
  | .ok a, .ok b => if h : a = b then isTrue (by rw [h]) else isFalse (by simpa using h)
  | .error a, .error b => if h : a = b then isTrue (by rw [h]) else isFalse (by simpa using h)
  | .ok _, .error _ => isFalse (by simp)
  | .error _, .ok _ => isFalse (by simp)

/-! ## Built-ins: `parseInt` -/

/-- White space that `parseInt` skips at the start of its input
(ECMAScript `StrWhiteSpaceChar`). -/
def isWhiteSpace (c : Char) : Bool :=
  let n := c.toNat
  (9 ≤ n && n ≤ 13) || n == 32 || n == 160 || n == 5760 || (8192 ≤ n && n ≤ 8202) ||
    n == 8232 || n == 8233 || n == 8239 || n == 8287 || n == 12288 || n == 65279

/-- Value of a character as a digit: `0`-`9`, then the letters in either case
from ten upwards. -/
def digitValue (c : Char) : Option Nat :=
  let n := c.toNat
  if 48 ≤ n ∧ n ≤ 57 then some (n - 48)
  else if 97 ≤ n ∧ n ≤ 122 then some (n - 87)
  else if 65 ≤ n ∧ n ≤ 90 then some (n - 55)
  else none

/-- The digit of `c` in radix `r`, if it is one. -/
def radixDigit (r : Nat) (c : Char) : Option Nat :=
  match digitValue c with
  | some d => if d < r then some d else none
  | none => none

/-- The longest prefix of radix-`r` digits, as digit values. -/
def takeDigits (r : Nat) : List Char → List Nat
  | [] => []
  | c :: cs =>
    match radixDigit r c with
    | some d => d :: takeDigits r cs
    | none => []

/-- The integer written by a list of digits in radix `r`. -/
def digitsValue (r : Nat) (ds : List Nat) : Nat :=
  ds.foldl (fun acc d => acc * r + d) 0

/-- How many times `m` must be halved to fall below `2 ^ 53`. -/
def excessBits : Nat → Nat → Nat
  | 0, _ => 0
  | fuel + 1, m => if m < 2 ^ 53 then 0 else excessBits fuel (m / 2) + 1

/-- The double nearest to the natural `m` (ties to even), `none` when it
rounds to Infinity.  With `e` the number of excess bits, `m` is cut to the 53
bits `q`, rounded on the remainder `r`, and scaled back; the result reaches
`2 ^ 1024` exactly when `e` is above 971, or is 971 and the rounding carried
into a 54th bit. -/
def roundToDouble (m : Nat) : Option Nat :=
  let e := excessBits m m
  let q := m / 2 ^ e
  let r := m % 2 ^ e
  let up := 2 ^ e < 2 * r ∨ (2 ^ e = 2 * r ∧ q % 2 = 1)
  let q := if up then q + 1 else q
  if 972 ≤ e ∨ (e = 971 ∧ q = 2 ^ 53) then none else some (q * 2 ^ e)

/-- The Number for the mathematical integer `sign * m`. -/
def toNumber (neg : Bool) (m : Nat) : JSNum :=
  match roundToDouble m with
  | some v => .int (if neg then -(v : Int) else (v : Int))
  | none => .inf neg

/-- Whether the text starts with `0x` or `0X`. -/
def hasHexStart : List Char → Bool
  | c :: d :: _ => c == '0' && (d == 'x' || d == 'X')
  | _ => false

/-- The steps of `parseInt` after the sign: a radix outside 2..36 gives NaN, a
`0x` or `0X` start selects radix 16 when the radix is absent (0) or 16, and the
longest run of digits is the value; no digit gives NaN. -/
def parseUnsigned (neg : Bool) (cs : List Char) (radix : Nat) : JSNum :=
  if radix ≠ 0 ∧ (radix < 2 ∨ 36 < radix) then .nan
  else
    let hex := (decide (radix = 0 ∨ radix = 16)) && hasHexStart cs
    let r := if hex then 16 else if radix = 0 then 10 else radix
    match takeDigits r (if hex then cs.drop 2 else cs) with
    | [] => .nan
    | d :: ds => toNumber neg (digitsValue r (d :: ds))

/-- The built-in `parseInt(string, radix)`, for a string argument; `radix = 0`
is the call without a radix.  Leading white space is skipped and a sign is
read; `parseUnsigned` does the rest. -/
def parseInt (s : String) (radix : Nat) : JSNum :=
  match s.toList.dropWhile isWhiteSpace with
  | [] => parseUnsigned false [] radix
  | c :: cs =>
    if c = '-' then parseUnsigned true cs radix
    else if c = '+' then parseUnsigned false cs radix
    else parseUnsigned false (c :: cs) radix

/-- Whether the text, after leading white space and a sign, starts with `0x`
or `0X`: the texts for which `parseInt` without a radix reads hexadecimal. -/
def hexText (t : String) : Bool :=
  match t.toList.dropWhile isWhiteSpace with
  | [] => false
  | c :: cs => if c = '-' ∨ c = '+' then hasHexStart cs else hasHexStart (c :: cs)

/-! ## Built-ins: property reads and writes -/

/-- Modelled from the spec: `dateFormatter.decodeIso8601` of
`lib/date-formatter.js`, which is not among the sources.  The spec treats it as
an external function that returns a date value for well-formed ISO-8601 text
and fails on malformed text, the error ending the parse; it does not say which
texts are well formed.  The embedding therefore does not follow the call: on
every text the outcome is `JSError.unmodelled`, neither a Date nor a throw of
its own choosing. -/
def decodeIso8601 (_text : String) : JS JSVal := .error .unmodelled

/-- The built-in `parseFloat`, kept symbolic. -/
def parseFloat (text : String) : JSVal := .double text

/-- Whether the value is an object in the sense of the `__proto__` setter: a
plain object or an array. -/
def JSVal.isObject (v : JSVal) : Bool :=
  match v with
  | .obj _ => true
  | .arr _ => true
  | _ => false

/-- Whether the object with the entries `props` has had its prototype replaced:
the entry `__proto__` of an object stands for the prototype an assignment to
`__proto__` gave it (see `setProp`). -/
def hasProto (props : List (String × JSVal)) : Bool :=
  props.any (fun p => p.1 = "__proto__" && p.2.isObject)

mutual
/-- The read `v.key` for the properties the decoders read by name (`name`,
`values`, `inner_content`).  Reading from undefined or null throws; an object
gives its own property, else what its replaced prototype gives, else undefined;
strings, numbers, booleans and dates have no such property; an array has none
either, except `values`, which newer engines define on the array prototype. -/
def JSVal.getField (v : JSVal) (key : String) : JS JSVal :=
  match v with
  | .undefined => .error .typeError
  | .null => .error .typeError
  | .obj props =>
    match props.lookup key with
    | some x => .ok x
    | none => protoField props key
  | .arr _ => if key = "values" then .error .unmodelled else .ok .undefined
  | _ => .ok .undefined
/-- The read of `key` along the prototype chain of the object with the entries
`props`, whose own properties do not have it. -/
def protoField (props : List (String × JSVal)) (key : String) : JS JSVal :=
  match props with
  | [] => .ok .undefined
  | p :: rest =>
    if p.1 = "__proto__" then
      (if p.2.isObject then p.2.getField key else .ok .undefined)
    else protoField rest key
end

/-- The read `v[i]`.  A string gives its `i`-th UTF-16 unit, which the model
covers while the characters up to there are in the basic plane.  An index an
object does not have itself is not looked up on a replaced prototype. -/
def JSVal.getIndex (v : JSVal) (i : Nat) : JS JSVal :=
  match v with
  | .undefined => .error .typeError
  | .null => .error .typeError
  | .arr items => .ok (items.getD i .undefined)
  | .obj props =>
    match props.lookup (toString i) with
    | some x => .ok x
    | none => if hasProto props then .error .unmodelled else .ok .undefined
  | .str s =>
    if (s.toList.take (i + 1)).all (fun c => c.toNat < 65536) then
      .ok (match s.toList[i]? with
        | some c => .str (String.singleton c)
        | none => .undefined)
    else .error .unmodelled
  | _ => .ok .undefined

/-- The elements `v[0]`, ..., `v[v.length - 1]` that a loop
`for (i = 0; i < v.length; i++)` visits.  Without a `length` (numbers,
booleans, dates, objects with no such property) the loop body never runs. -/
def JSVal.elements (v : JSVal) : JS (List JSVal) :=
  match v with
  | .undefined => .error .typeError
  | .null => .error .typeError
  | .arr items => .ok items
  | .str s =>
    if s.toList.all (fun c => c.toNat < 65536) then
      .ok (s.toList.map (fun c => .str (String.singleton c)))
    else .error .unmodelled
  | .obj props =>
    match props.lookup "length" with
    | none => if hasProto props then .error .unmodelled else .ok []
    | some _ => .error .unmodelled
  | _ => .ok []

/-- One step of `join`: the text of an element is appended; undefined and null
count as the empty text. -/
def joinStep (acc : String) (item : JSVal) : JS String :=
  match item with
  | .str s => .ok (acc ++ s)
  | .undefined => .ok acc
  | .null => .ok acc
  | _ => .error .unmodelled

/-- The call of `join` with the empty separator on `v`: defined on arrays, a
TypeError on anything else that has no `join`; an object with a replaced
prototype may have one. -/
def JSVal.joinEmpty (v : JSVal) : JS String :=
  match v with
  | .arr items => items.foldlM joinStep ""
  | .obj props => if hasProto props then .error .unmodelled else .error .typeError
  | _ => .error .typeError

/-- The test `v.name === n`. -/
def JSVal.nameIs (v : JSVal) (n : String) : JS Bool :=
  match v.getField "name" with
  | .ok x => .ok (decide (x = .str n))
  | .error e => .error e

/-- The property key a value used as `o[key]` denotes. -/
def propertyKey (v : JSVal) : JS String :=
  match v with
  | .str s => .ok s
  | .null => .ok "null"
  | .undefined => .ok "undefined"
  | _ => .error .unmodelled

/-- Own-property update: an existing key keeps its place, a new key goes last. -/
def assignProp (props : List (String × JSVal)) (key : String) (v : JSVal) :
    List (String × JSVal) :=
  if props.any (fun p => p.1 == key) then
    props.map (fun p => if p.1 = key then (key, v) else p)
  else props ++ [(key, v)]

/-- The assignment `o[key] = v` on an object created by `{}`.  The key
`__proto__` is the accessor of the object prototype: assigning a primitive to
it does nothing, and assigning an object or an array replaces the prototype,
which the entry `__proto__` of the object records.  A prototype set to null or
to a date is not followed. -/
def setProp (props : List (String × JSVal)) (key : String) (v : JSVal) :
    JS (List (String × JSVal)) :=
  if key = "__proto__" then
    match v with
    | .obj _ => .ok (assignProp props key v)
    | .arr _ => .ok (assignProp props key v)
    | .date _ => .error .unmodelled
    | .null => .error .unmodelled
    | _ => .ok props
  else .ok (assignProp props key v)

/-! ## The tokenizer events -/

/-- What the tokenizer delivers between the start and the end of a document.
The handlers read the local name of an element only. -/
inductive Event
  | startElement (name : String)
  | endElement (name : String)
  | characters (text : String)
  deriving DecidableEq, Repr

/-! ## `parseMethodResponse` -/

/-- A frame `{name, values, inner_content}` of the stack. -/
structure Frame where
  name : String
  values : List JSVal
  inner_content : List String
  deriving DecidableEq, Repr

/-- The frame as the JavaScript object it is. -/
def Frame.toVal (f : Frame) : JSVal :=
  .obj [("name", .str f.name), ("values", .arr f.values),
    ("inner_content", .arr (f.inner_content.map .str))]

/-- The variables of one `parseMethodResponse` call.  `stack` lists the
JavaScript array from its last element: the head is `stack[stack.length - 1]`.
`current_raw_value` is the index in the JavaScript array of the frame the
variable refers to. -/
structure ResponseState where
  stack : List Frame
  current_raw_value : Nat
  deriving DecidableEq, Repr

/-- Lines 45-51. -/
def ResponseState.init : ResponseState :=
  { stack := [{ name := "root", values := [], inner_content := [] }], current_raw_value := 0 }

namespace Response

/-- Lines 61-68. -/
def onStartElementNS (elem : String) (s : ResponseState) : ResponseState :=
  { stack := { name := elem, values := [], inner_content := [] } :: s.stack,
    current_raw_value := s.stack.length }

/-- Lines 166-168: the text is pushed on the frame `current_raw_value` refers
to.  A reference to a frame that has left the stack is not followed. -/
def onCharacters (chars : String) (s : ResponseState) : JS ResponseState :=
  if s.current_raw_value < s.stack.length then
    .ok { s with stack := (s.stack.modify
      (fun f => { f with inner_content := f.inner_content ++ [chars] })
      (s.stack.length - 1 - s.current_raw_value)) }
  else .error .unmodelled

/-- The text `last_element.inner_content` joined with the empty separator. -/
def innerText (last_element : JSVal) : JS String := do
  let content ← last_element.getField "inner_content"
  content.joinEmpty

/-- Lines 72-86: the scalar branches. -/
def scalarBranches (last_element : JSVal) : JS JSVal := do
  let last_element ←
    if ← last_element.nameIs "string" then pure (.str (← innerText last_element))
    else pure last_element
  let last_element ←
    if ← last_element.nameIs "boolean" then
      pure (.bool (decide ((← innerText last_element) = "1")))
    else pure last_element
  let last_element ←
    if (← last_element.nameIs "int") || (← last_element.nameIs "i4") then
      pure (.num (parseInt (← innerText last_element) 10))
    else pure last_element
  let last_element ←
    if ← last_element.nameIs "double" then pure (parseFloat (← innerText last_element))
    else pure last_element
  if ← last_element.nameIs "dateTime.iso8601" then
    decodeIso8601 (← innerText last_element)
  else pure last_element

/-- Lines 107-112 and 156-158: push `element.values[0]` when the element is
called `value`. -/
def pushValue (struct_values : List JSVal) (element : JSVal) : JS (List JSVal) := do
  if ← element.nameIs "value" then
    let values ← element.getField "values"
    pure (struct_values ++ [← values.getIndex 0])
  else pure struct_values

/-- Lines 103-113: the values of the `value` children of a `param`. -/
def pushParam (struct_values : List JSVal) (struct_element : JSVal) : JS (List JSVal) := do
  if ← struct_element.nameIs "param" then
    let struct_member_elements ← struct_element.getField "values"
    (← struct_member_elements.elements).foldlM pushValue struct_values
  else pure struct_values

/-- Lines 95-116. -/
def paramsBranch (last_element : JSVal) : JS JSVal := do
  if ← last_element.nameIs "params" then
    let struct_elements ← last_element.getField "values"
    pure (.arr (← (← struct_elements.elements).foldlM pushParam []))
  else pure last_element

/-- Lines 133-138: a child called `name` sets the member name, a child called
`value` the member value. -/
def memberStep (acc : JSVal × JSVal) (struct_member_element : JSVal) :
    JS (JSVal × JSVal) := do
  if ← struct_member_element.nameIs "name" then
    pure (.str (← innerText struct_member_element), acc.2)
  else if ← struct_member_element.nameIs "value" then
    let values ← struct_member_element.getField "values"
    pure (acc.1, ← values.getIndex 0)
  else pure acc

/-- Lines 126-142. -/
def structStep (struct_values : List (String × JSVal)) (struct_element : JSVal) :
    JS (List (String × JSVal)) := do
  if ← struct_element.nameIs "member" then
    let struct_member_elements ← struct_element.getField "values"
    let member ← (← struct_member_elements.elements).foldlM memberStep (.null, .null)
    setProp struct_values (← propertyKey member.1) member.2
  else pure struct_values

/-- Lines 118-145. -/
def structBranch (last_element : JSVal) : JS JSVal := do
  if ← last_element.nameIs "struct" then
    let struct_elements ← last_element.getField "values"
    pure (.obj (← (← struct_elements.elements).foldlM structStep []))
  else pure last_element

/-- Lines 147-161. -/
def dataBranch (last_element : JSVal) : JS JSVal := do
  if ← last_element.nameIs "data" then
    let struct_elements ← last_element.getField "values"
    pure (.arr (← (← struct_elements.elements).foldlM pushValue []))
  else pure last_element

/-- Lines 88-93. -/
def arrayBranch (last_element : JSVal) : JS JSVal := do
  if ← last_element.nameIs "array" then
    let values ← last_element.getField "values"
    values.getIndex 0
  else pure last_element

/-- Lines 72-161: what the popped frame is turned into. -/
def convert (last_element : JSVal) : JS JSVal := do
  let last_element ← scalarBranches last_element
  let last_element ← arrayBranch last_element
  let last_element ← paramsBranch last_element
  let last_element ← structBranch last_element
  dataBranch last_element

/-- Lines 69-165.  The handler does not read its `elem` argument.  Popping an
empty stack gives undefined, whose `name` cannot be read; so does
`stack[stack.length - 1]` once the root frame is gone. -/
def onEndElementNS (s : ResponseState) : JS ResponseState :=
  match s.stack with
  | [] => .error .typeError
  | last :: rest => do
    let last_element ← convert last.toVal
    match rest with
    | [] => .error .typeError
    | top :: below =>
      pure { stack := { top with values := top.values ++ [last_element] } :: below,
             current_raw_value := rest.length - 1 }

/-- One event. -/
def step (s : ResponseState) : Event → JS ResponseState
  | .startElement elem => .ok (onStartElementNS elem s)
  | .endElement _ => onEndElementNS s
  | .characters chars => onCharacters chars s

/-- Lines 57-59: the arguments `false` and
`stack[0]["values"][0]["values"][0][0]` of the callback. -/
def onEndDocument (s : ResponseState) : JS (JSVal × JSVal) :=
  match s.stack.getLast? with
  | none => .error .typeError
  | some root => do
    let v ← root.toVal.getField "values"
    let v ← v.getIndex 0
    let v ← v.getField "values"
    let v ← v.getIndex 0
    let v ← v.getIndex 0
    pure (.bool false, v)

end Response

/-- The events of a list, one after the other; a handler that throws ends the
parse. -/
def Response.run (s : ResponseState) (events : List Event) : JS ResponseState :=
  events.foldlM Response.step s

/-- The function `parseMethodResponse` on the events of a document: the list of
the calls `callback(error, value)` it makes, or the error that ends the parse
before any call. -/
def parseMethodResponse (events : List Event) : JS (List (JSVal × JSVal)) := do
  let s ← Response.run ResponseState.init events
  pure [← Response.onEndDocument s]

/-! ## `parseMethodCall` -/

/-- The callbacks handed to `deserializeParam`, with the variables they
capture.  A number is the heap address of the cell holding the variables of
the enclosing call.  The callback `deserializeParam` hands on to
`deserializeArrayParam` or `deserializeStructParam` (lines 308 and 314) only
forwards its value to the callback of `deserializeParam`, so it is represented
by that one. -/
inductive Cont
  /-- Lines 233-237, in the `deserializeParams` call with variables at `env`. -/
  | paramsPush (env : Nat)
  /-- Lines 241-244. -/
  | faultSet (env : Nat)
  /-- Lines 330-342, in the `deserializeArrayParam` call with `values` at
  `env` and callback `callback`. -/
  | arrayValue (env : Nat) (callback : Cont)
  /-- Lines 362-374, in the `deserializeStructParam` call with `struct` and
  `name` at `env` and callback `callback`. -/
  | structValue (env : Nat) (callback : Cont)
  deriving DecidableEq, Repr

/-- The variables a call captures in its listeners. -/
inductive Cell
  /-- The variables `fault` and `params` of `deserializeParams`. -/
  | params (fault : JSVal) (params : List JSVal)
  /-- The variable `values` of `deserializeArrayParam`. -/
  | array (values : List JSVal)
  /-- The variables `struct` and `name` of `deserializeStructParam`. -/
  | struct (struct : List (String × JSVal)) (name : JSVal)
  deriving DecidableEq, Repr

/-- The functions registered with `onStartElementNS`.  While none is
registered an event does nothing. -/
inductive StartListener
  /-- No listener registered. -/
  | unset
  /-- Line 205, of `deserializeMethod`. -/
  | method
  /-- The empty function of line 23. -/
  | ignore
  /-- The function `handleStartElement` of `deserializeParams`, line 230. -/
  | params (env : Nat)
  /-- Line 251, of `deserializeParam`. -/
  | param (callback : Cont)
  /-- The function `handleStartElement` of `deserializeArrayParam`, line 326. -/
  | array (env : Nat) (callback : Cont)
  /-- The function `handleStartElement` of `deserializeStructParam`, line 353. -/
  | struct (env : Nat) (callback : Cont)
  deriving DecidableEq, Repr

/-- The functions registered with `onEndElementNS`. -/
inductive EndListener
  /-- No listener registered. -/
  | unset
  /-- The empty function of line 200. -/
  | ignore
  /-- Line 296. -/
  | flat (callback : Cont)
  /-- Line 336. -/
  | array (env : Nat) (callback : Cont)
  /-- Line 368. -/
  | struct (env : Nat) (callback : Cont)
  deriving DecidableEq, Repr

/-- The functions registered with `onCharacters`. -/
inductive CharListener
  /-- No listener registered. -/
  | unset
  /-- The empty function of line 193. -/
  | ignore
  /-- Line 207. -/
  | method
  /-- Line 264, for the start element `element`. -/
  | flat (element : String) (callback : Cont)
  /-- Line 357. -/
  | name (env : Nat)
  deriving DecidableEq, Repr

/-- The functions registered with `onEndDocument`. -/
inductive DocListener
  /-- No listener registered. -/
  | unset
  /-- Line 219, in the `deserializeParams` call with variables at `env`, whose
  callback (line 26) holds the method name. -/
  | params (env : Nat) (method : JSVal)
  deriving DecidableEq, Repr

/-- The tokenizer with its four listeners, the captured variables, and the
calls `callback(error, method, params)` made so far. -/
structure CallState where
  heap : List Cell
  onStartElementNS : StartListener
  onEndElementNS : EndListener
  onCharacters : CharListener
  onEndDocument : DocListener
  calls : List (JSVal × JSVal × JSVal)
  deriving DecidableEq, Repr

namespace Call

/-- Lines 187-201. -/
def resetListeners (startElementListener : StartListener) (s : CallState) : CallState :=
  { s with onCharacters := .ignore, onStartElementNS := startElementListener,
           onEndElementNS := .ignore }

/-- Lines 203-212: `deserializeMethod` registers its start-element listener. -/
def deserializeMethod (s : CallState) : CallState :=
  { s with onStartElementNS := .method }

/-- Lines 214-228: `deserializeParams` creates `fault = null` and
`params = []` and registers its end-of-document and start-element listeners.
`method` is the method name held by its callback (line 26). -/
def deserializeParams (method : JSVal) (s : CallState) : CallState :=
  { s with heap := s.heap ++ [.params .null []],
           onEndDocument := .params s.heap.length method,
           onStartElementNS := .params s.heap.length }

/-- Lines 249-251: `deserializeParam` registers its start-element listener. -/
def deserializeParam (callback : Cont) (s : CallState) : CallState :=
  { s with onStartElementNS := .param callback }

/-- Lines 321-324: `deserializeArrayParam` creates `values = []` and registers
its start-element listener. -/
def deserializeArrayParam (callback : Cont) (s : CallState) : CallState :=
  { s with heap := s.heap ++ [.array []],
           onStartElementNS := .array s.heap.length callback }

/-- Lines 347-351: `deserializeStructParam` creates `struct = {}` and
`name = null` and registers its start-element listener. -/
def deserializeStructParam (callback : Cont) (s : CallState) : CallState :=
  { s with heap := s.heap ++ [.struct [] .null],
           onStartElementNS := .struct s.heap.length callback }

/-- Lines 18-21: the tokenizer is created without listeners and
`deserializeMethod` is called. -/
def init : CallState :=
  deserializeMethod
    { heap := [], onStartElementNS := .unset, onEndElementNS := .unset,
      onCharacters := .unset, onEndDocument := .unset, calls := [] }

/-- A call `callback(null, value, parser)` of a callback of `deserializeParam`:
the bodies of lines 233-237, 241-244, 330-342 and 362-374. -/
def fire (k : Cont) (value : JSVal) (s : CallState) : JS CallState :=
  match k with
  | .paramsPush env =>
    match s.heap[env]? with
    | some (.params fault params) =>
      .ok { resetListeners (.params env) s with
        heap := s.heap.set env (.params fault (params ++ [value])) }
    | _ => .error .unmodelled
  | .faultSet env =>
    match s.heap[env]? with
    | some (.params _ params) =>
      .ok { resetListeners (.params env) s with
        heap := s.heap.set env (.params value params) }
    | _ => .error .unmodelled
  | .arrayValue env callback =>
    match s.heap[env]? with
    | some (.array values) =>
      .ok { resetListeners (.array env callback) s with
        heap := s.heap.set env (.array (values ++ [value])),
        onEndElementNS := .array env callback }
    | _ => .error .unmodelled
  | .structValue env callback =>
    match s.heap[env]? with
    | some (.struct struct name) => do
      let key ← propertyKey name
      let struct ← setProp struct key value
      pure { resetListeners (.struct env callback) s with
        heap := s.heap.set env (.struct struct name),
        onEndElementNS := .struct env callback }
    | _ => .error .unmodelled

/-- Line 254. -/
def flatParams : List String :=
  ["boolean", "dateTime.iso8601", "double", "int", "i4", "string", "nil"]

/-- The start-element listeners: lines 205-211 (`method`), 230-246 (`params`),
251-318 (`param`), 326-344 (`array`) and 353-376 (`struct`). -/
def onStartElementNS (element : String) (s : CallState) : CallState :=
  match s.onStartElementNS with
  | .unset => s
  | .ignore => s
  | .method =>
    if element = "methodName" then { s with onCharacters := .method } else s
  | .params env =>
    if element = "param" then deserializeParam (.paramsPush env) s
    else if element = "fault" then deserializeParam (.faultSet env) s
    else s
  | .param callback =>
    if element ∈ flatParams then
      { s with onCharacters := .flat element callback, onEndElementNS := .flat callback }
    else if element = "array" then deserializeArrayParam callback s
    else if element = "struct" then deserializeStructParam callback s
    else s
  | .array env callback =>
    if element = "value" then deserializeParam (.arrayValue env callback) s else s
  | .struct env callback =>
    let s := if element = "name" then { s with onCharacters := .name env } else s
    if element = "value" then deserializeParam (.structValue env callback) s else s

/-- The end-element listeners: lines 296-304 (`flat`), 336-340 (`array`) and
368-372 (`struct`).  The listener of a flat element reads the name of the
element that ends. -/
def onEndElementNS (element : String) (s : CallState) : JS CallState :=
  match s.onEndElementNS with
  | .unset => .ok s
  | .ignore => .ok s
  | .flat callback =>
    fire callback (if element = "string" then .str "" else .null) s
  | .array env callback =>
    if element = "array" then
      match s.heap[env]? with
      | some (.array values) => fire callback (.arr values) s
      | _ => .error .unmodelled
    else .ok s
  | .struct env callback =>
    if element = "struct" then
      match s.heap[env]? with
      | some (.struct struct _) => fire callback (.obj struct) s
      | _ => .error .unmodelled
    else .ok s

/-- Lines 265-288: the coercion of the text of the flat element `element`.
Only the date decoder can throw. -/
def coerce (element chars : String) : JS JSVal :=
  if element = "boolean" then .ok (.bool (decide (chars = "1")))
  else if element = "dateTime.iso8601" then decodeIso8601 chars
  else if element = "double" then .ok (parseFloat chars)
  else if element = "i4" ∨ element = "int" then .ok (.num (parseInt chars 0))
  else if element = "string" then .ok (.str chars)
  else .ok .null

/-- The characters listeners: lines 207-209 with the callback of lines 21-29
(`method`), 264-290 (`flat`) and 357-359 (`name`). -/
def onCharacters (chars : String) (s : CallState) : JS CallState :=
  match s.onCharacters with
  | .unset => .ok s
  | .ignore => .ok s
  | .method => .ok (deserializeParams (.str chars) (resetListeners .ignore s))
  | .flat element callback =>
    match coerce element chars with
    | .ok param => fire callback param s
    | .error err => .error err
  | .name env =>
    match s.heap[env]? with
    | some (.struct struct _) => .ok { s with heap := s.heap.set env (.struct struct (.str chars)) }
    | _ => .error .unmodelled

/-- One event. -/
def step (s : CallState) : Event → JS CallState
  | .startElement element => .ok (onStartElementNS element s)
  | .endElement element => onEndElementNS element s
  | .characters chars => onCharacters chars s

/-- Lines 219-226 with the callback of line 26: at the end of the document
`callback(fault, method, null)` or `callback(null, method, params)`. -/
def onEndDocument (s : CallState) : JS CallState :=
  match s.onEndDocument with
  | .unset => .ok s
  | .params env method =>
    match s.heap[env]? with
    | some (.params fault params) =>
      if fault ≠ .null then .ok { s with calls := s.calls ++ [(fault, method, .null)] }
      else .ok { s with calls := s.calls ++ [(.null, method, .arr params)] }
    | _ => .error .unmodelled

end Call

/-- The events of a list, one after the other. -/
def Call.run (s : CallState) (events : List Event) : JS CallState :=
  events.foldlM Call.step s

/-- The function `parseMethodCall` on the events of a document: the list of the
calls `callback(error, method, params)` it makes. -/
def parseMethodCall (events : List Event) : JS (List (JSVal × JSVal × JSVal)) := do
  let s ← Call.run Call.init events
  let s ← Call.onEndDocument s
  pure s.calls

/-! ## Documents as event streams -/

/-- The events of an element `name` with content `inner`. -/
def element (name : String) (inner : List Event) : List Event :=
  .startElement name :: (inner ++ [.endElement name])

/-- The events of a text node: one characters event, and none for no text. -/
def text (t : String) : List Event :=
  if t = "" then [] else [.characters t]

/-- The events of a method call with method name `m` and the given param
values: `methodName`, then `params` with one `param` and `value` per entry. -/
def methodCallDoc (m : String) (params : List (List Event)) : List Event :=
  element "methodCall"
    (element "methodName" (text m) ++
      element "params" (params.flatMap (fun v => element "param" (element "value" v))))

/-- The events of a method response with the given param values. -/
def methodResponseDoc (params : List (List Event)) : List Event :=
  element "methodResponse"
    (element "params" (params.flatMap (fun v => element "param" (element "value" v))))

/-- The events of a fault response carrying the value `v`. -/
def faultDoc (v : List Event) : List Event :=
  element "methodResponse" (element "fault" (element "value" v))

/-- The events of a struct member: `name` first, then `value`. -/
def memberDoc (name : String) (v : List Event) : List Event :=
  element "member" (element "name" (text name) ++ element "value" v)

/-- The events of a scalar element `tag` with text `t`. -/
def scalarDoc (tag t : String) : List Event := element tag (text t)

/-- The integers a Number holds exactly. -/
def ExactInt (n : Int) : Prop := roundToDouble n.natAbs = some n.natAbs

instance (n : Int) : Decidable (ExactInt n) := by unfold ExactInt; infer_instance

/-- Trees with integer leaves and array nodes. -/
inductive Tree
  | int (n : Int)
  | array (children : List Tree)
  deriving Repr

mutual
/-- The events of a tree: an integer as `int` with its decimal text, an array
as `array`, `data` and one `value` per child. -/
def Tree.enc : Tree → List Event
  | .int n => element "int" (text (toString n))
  | .array children => element "array" (element "data" (Tree.encValues children))
/-- The `value` elements of the children of an array. -/
def Tree.encValues : List Tree → List Event
  | [] => []
  | c :: cs => element "value" (Tree.enc c) ++ Tree.encValues cs
end

mutual
/-- The JavaScript value a tree denotes. -/
def Tree.toJS : Tree → JSVal
  | .int n => .num (.int n)
  | .array children => .arr (Tree.toJSList children)
/-- The JavaScript values a list of trees denotes. -/
def Tree.toJSList : List Tree → List JSVal
  | [] => []
  | c :: cs => Tree.toJS c :: Tree.toJSList cs
end

mutual
/-- Every integer leaf of the tree is one a Number holds exactly. -/
def Tree.Exact : Tree → Prop
  | .int n => ExactInt n
  | .array children => Tree.ExactList children
/-- Every tree of the list is exact. -/
def Tree.ExactList : List Tree → Prop
  | [] => True
  | c :: cs => Tree.Exact c ∧ Tree.ExactList cs
end

mutual
/-- Every array of the tree has at least one child. -/
def Tree.NonEmpty : Tree → Prop
  | .int _ => True
  | .array children => children ≠ [] ∧ Tree.NonEmptyList children
/-- Every tree of the list has no empty array. -/
def Tree.NonEmptyList : List Tree → Prop
  | [] => True
  | c :: cs => Tree.NonEmpty c ∧ Tree.NonEmptyList cs
end

/-- The value of the last member called `k` in a member list. -/
def lastWrite (members : List (String × Int)) (k : String) : Option Int :=
  members.reverse.lookup k

/-- The events of a struct whose members carry integers. -/
def intStructDoc (members : List (String × Int)) : List Event :=
  element "struct"
    (members.flatMap (fun p => memberDoc p.1 (element "int" (text (toString p.2)))))

/-! ## Vocabulary of the proofs about `parseMethodResponse` -/

/-- The state in which `current_raw_value` is the last frame of the stack. -/
def Response.atTop (stack : List Frame) : ResponseState :=
  { stack := stack, current_raw_value := stack.length - 1 }

/-- The frame with one more entry in `values`. -/
def Frame.push (f : Frame) (vs : List JSVal) : Frame :=
  { f with values := f.values ++ vs }

/-- The events run without an error and leave the stack as it was, with the
values `vs` pushed on the `values` of its last frame. -/
def Response.Pushes (events : List Event) (vs : List JSVal) : Prop :=
  ∀ (top : Frame) (below : List Frame),
    Response.run (Response.atTop (top :: below)) events =
      .ok (Response.atTop (top.push vs :: below))

/-- The object a closed element `name` with converted children `values` and no
text of its own is left as, when no branch of the end-element handler converts
it. -/
def plainFrame (name : String) (values : List JSVal) : JSVal :=
  Frame.toVal { name := name, values := values, inner_content := [] }

/-- The object a closed `name` element with text `t` is left as. -/
def nameFrame (t : String) : JSVal :=
  Frame.toVal { name := "name", values := [], inner_content := if t = "" then [] else [t] }

/-- The result of assigning the members in order to an empty object. -/
def assignAll (members : List (String × Int)) (props : List (String × JSVal)) :
    List (String × JSVal) :=
  members.foldl (fun acc p => assignProp acc p.1 (.num (.int p.2))) props

/-! ## Vocabulary of the proofs about `parseMethodCall` -/

/-- The state between two params of a call named `m`, with the params `ps`
decoded so far; `cells` are the variables of the arrays and structs decoded so
far, which no listener refers to any more. -/
def Call.ready (m : String) (ps : List JSVal) (cells : List Cell) : CallState :=
  { heap := .params .null ps :: cells, onStartElementNS := .params 0,
    onEndElementNS := .ignore, onCharacters := .ignore,
    onEndDocument := .params 0 (.str m), calls := [] }

/-- The events, run between two params, add the param `v`. -/
def Call.Adds (events : List Event) (v : JSVal) : Prop :=
  ∀ (m : String) (ps : List JSVal) (cells : List Cell), ∃ cells1 : List Cell,
    Call.run (Call.ready m ps cells) events = .ok (Call.ready m (ps ++ [v]) cells1)

/-- The param a flat element `tag` with text `t` decodes to: the coercion of
its characters event, or the value of the end-element listener when it has no
text; the error when the coercion throws. -/
def Call.flatValue (tag t : String) : JS JSVal :=
  if t = "" then .ok (if tag = "string" then .str "" else .null) else Call.coerce tag t

/-- The params the flat elements `ps`, given as tag and text, decode to, or the
first error on the way. -/
def Call.flatValues : List (String × String) → JS (List JSVal)
  | [] => .ok []
  | p :: rest =>
    match Call.flatValue p.1 p.2 with
    | .error err => .error err
    | .ok v =>
      match Call.flatValues rest with
      | .error err => .error err
      | .ok vs => .ok (v :: vs)

/-- The state after a value of the array whose `values` live at `r` has been
decoded, with the heap `heap`. -/
def Call.arrayState (s : CallState) (heap : List Cell) (r : Nat) (k : Cont) : CallState :=
  { heap := heap, onStartElementNS := .array r k, onEndElementNS := .array r k,
    onCharacters := .ignore, onEndDocument := s.onEndDocument, calls := s.calls }


/-! ## Further documents -/

/-- The events of a struct member written `value` first, then `name`. -/
def memberDocValueFirst (name : String) (v : List Event) : List Event :=
  element "member" (element "value" v ++ element "name" (text name))

/-- The events of a text node the tokenizer delivers in the pieces `chunks`:
one characters event for each piece. -/
def chunkedText (chunks : List String) : List Event :=
  chunks.map .characters

/-- The text the pieces `chunks` make up. -/
def accumulated (chunks : List String) : String :=
  chunks.foldl (fun r s => r ++ s) ""

/-- The texts inserted around one param of a method call: after the start of
`param`, after the start of `value`, after the end of the scalar element, after
the end of `value` and after the end of `param`.  Each is a list of characters
events. -/
structure ParamGaps where
  afterParamStart : List String
  afterValueStart : List String
  afterScalar : List String
  afterValueEnd : List String
  afterParamEnd : List String
  deriving Repr

/-- The texts inserted at the top of a method call: before and after the start
of `methodCall`, after the end of `methodName`, after the start and after the
end of `params`, and after the end of `methodCall`. -/
structure EnvelopeGaps where
  beforeCall : List String
  afterCallStart : List String
  afterMethodName : List String
  afterParamsStart : List String
  afterParamsEnd : List String
  afterCallEnd : List String
  deriving Repr

/-- The events of the param holding the scalar element `tag` with text `t`,
with the texts `g` inserted. -/
def spacedParam (g : ParamGaps) (tag t : String) : List Event :=
  element "param" (chunkedText g.afterParamStart ++
    element "value" (chunkedText g.afterValueStart ++ scalarDoc tag t ++
      chunkedText g.afterScalar) ++
    chunkedText g.afterValueEnd) ++ chunkedText g.afterParamEnd

/-- The events of the method call `m` with the scalar params `params`, given
as tag and text, with texts inserted between the elements of the envelope. -/
def spacedCallDoc (m : String) (e : EnvelopeGaps)
    (params : List (ParamGaps × String × String)) : List Event :=
  chunkedText e.beforeCall ++
    element "methodCall" (chunkedText e.afterCallStart ++
      element "methodName" (text m) ++ chunkedText e.afterMethodName ++
      element "params" (chunkedText e.afterParamsStart ++
        params.flatMap (fun p => spacedParam p.1 p.2.1 p.2.2)) ++
      chunkedText e.afterParamsEnd) ++
    chunkedText e.afterCallEnd

/-- No text at any place around a param. -/
def ParamGaps.none : ParamGaps :=
  { afterParamStart := [], afterValueStart := [], afterScalar := [], afterValueEnd := [],
    afterParamEnd := [] }

/-- No text at any place of the envelope. -/
def EnvelopeGaps.none : EnvelopeGaps :=
  { beforeCall := [], afterCallStart := [], afterMethodName := [], afterParamsStart := [],
    afterParamsEnd := [], afterCallEnd := [] }

/-- A line break and two blanks at every place around a param. -/
def ParamGaps.indent : ParamGaps :=
  { afterParamStart := ["\n  "], afterValueStart := ["\n  "], afterScalar := ["\n  "],
    afterValueEnd := ["\n  "], afterParamEnd := ["\n", "  "] }

/-- A line break at every place of the envelope. -/
def EnvelopeGaps.lines : EnvelopeGaps :=
  { beforeCall := ["\n"], afterCallStart := ["\n"], afterMethodName := ["\n"],
    afterParamsStart := ["\n"], afterParamsEnd := ["\n"], afterCallEnd := ["\n"] }

/-! ## Well-nested event streams -/

/-- The elements open after `events`, innermost first, when `opened` were open
before and every end-element event closes the innermost open element; `none`
when an end-element event does not. -/
def openElements (opened : List String) : List Event → Option (List String)
  | [] => some opened
  | .startElement name :: events => openElements (name :: opened) events
  | .endElement name :: events =>
    match opened with
    | [] => none
    | innermost :: outer => if innermost = name then openElements outer events else none
  | .characters _ :: events => openElements opened events

/-! ## Method responses with text between the elements -/

/-- The texts inserted in a `value` element: before and after the element it
holds.  Each is a list of characters events. -/
structure ValueGaps where
  before : List String
  after : List String
  deriving Repr

/-- The texts inserted in a `member` element: before `name`, between `name`
and `value`, and after `value`. -/
structure MemberGaps where
  beforeName : List String
  afterName : List String
  afterValue : List String
  deriving Repr

mutual
/-- A value of a method response as it is written, with the texts inserted
between its elements.  A scalar is any element holding text only, delivered in
the pieces `chunks`; an array is `array` holding `data` holding `value`
elements; a struct is `struct` holding `member` elements, each a `name` with
its text in pieces and a `value`. -/
inductive SpacedValue
  | scalar (tag : String) (chunks : List String)
  | array (beforeData : List String) (items : SpacedItems) (afterData : List String)
  | struct (members : SpacedMembers)
/-- The content of a `data` element: the text `gap` before each `value` and
before the end of `data`. -/
inductive SpacedItems
  | done (gap : List String)
  | item (gap : List String) (inValue : ValueGaps) (v : SpacedValue) (rest : SpacedItems)
/-- The content of a `struct` element: the text `gap` before each `member` and
before the end of `struct`. -/
inductive SpacedMembers
  | done (gap : List String)
  | member (gap : List String) (inMember : MemberGaps) (name : List String)
      (inValue : ValueGaps) (v : SpacedValue) (rest : SpacedMembers)
end

/-- The inserted text `g` when `keep` holds, and no text otherwise. -/
def kept (keep : Bool) (g : List String) : List String :=
  if keep then g else []

/-- The events of a `value` element holding `inner`, with the texts `g`. -/
def spacedValueElement (keep : Bool) (g : ValueGaps) (inner : List Event) : List Event :=
  element "value" (chunkedText (kept keep g.before) ++ inner ++ chunkedText (kept keep g.after))

mutual
/-- The events of a value: with the inserted texts when `keep` holds, without
them otherwise. -/
def SpacedValue.enc (keep : Bool) : SpacedValue → List Event
  | .scalar tag chunks => element tag (chunkedText chunks)
  | .array beforeData items afterData =>
    element "array" (chunkedText (kept keep beforeData) ++
      element "data" (SpacedItems.enc keep items) ++ chunkedText (kept keep afterData))
  | .struct members => element "struct" (SpacedMembers.enc keep members)
/-- The events of the content of a `data` element. -/
def SpacedItems.enc (keep : Bool) : SpacedItems → List Event
  | .done gap => chunkedText (kept keep gap)
  | .item gap inValue v rest =>
    chunkedText (kept keep gap) ++ spacedValueElement keep inValue (SpacedValue.enc keep v) ++
      SpacedItems.enc keep rest
/-- The events of the content of a `struct` element. -/
def SpacedMembers.enc (keep : Bool) : SpacedMembers → List Event
  | .done gap => chunkedText (kept keep gap)
  | .member gap inMember name inValue v rest =>
    chunkedText (kept keep gap) ++
      element "member" (chunkedText (kept keep inMember.beforeName) ++
        element "name" (chunkedText name) ++ chunkedText (kept keep inMember.afterName) ++
        spacedValueElement keep inValue (SpacedValue.enc keep v) ++
        chunkedText (kept keep inMember.afterValue)) ++
      SpacedMembers.enc keep rest
end

/-- The texts inserted in the envelope of a method response: after the starts
of `methodResponse`, `params` and `param`, in the `value`, and after the ends
of `value`, `param` and `params`. -/
structure ResponseGaps where
  afterResponseStart : List String
  afterParamsStart : List String
  afterParamStart : List String
  inValue : ValueGaps
  afterValueEnd : List String
  afterParamEnd : List String
  afterParamsEnd : List String
  deriving Repr

/-- The events of the method response with the one param `v`. -/
def spacedResponseDoc (keep : Bool) (e : ResponseGaps) (v : SpacedValue) : List Event :=
  element "methodResponse" (chunkedText (kept keep e.afterResponseStart) ++
    element "params" (chunkedText (kept keep e.afterParamsStart) ++
      element "param" (chunkedText (kept keep e.afterParamStart) ++
        spacedValueElement keep e.inValue (v.enc keep) ++
        chunkedText (kept keep e.afterValueEnd)) ++
      chunkedText (kept keep e.afterParamEnd)) ++
    chunkedText (kept keep e.afterParamsEnd))

/-- The texts inserted in the envelope of a fault response: after the start of
`methodResponse`, in the `value`, and after the end of `fault`. -/
structure FaultGaps where
  afterResponseStart : List String
  inValue : ValueGaps
  afterFaultEnd : List String
  deriving Repr

/-- The events of the fault response carrying `v`. -/
def spacedFaultDoc (keep : Bool) (e : FaultGaps) (v : SpacedValue) : List Event :=
  element "methodResponse" (chunkedText (kept keep e.afterResponseStart) ++
    element "fault" (spacedValueElement keep e.inValue (v.enc keep)) ++
    chunkedText (kept keep e.afterFaultEnd))

/-! ## Vocabulary of the proofs about inserted text -/

/-- The frame with `vs` pushed on its `values` and `ts` on its
`inner_content`. -/
def Frame.grow (f : Frame) (vs : List JSVal) (ts : List String) : Frame :=
  { f with values := f.values ++ vs, inner_content := f.inner_content ++ ts }

/-- The events either throw the error of `r`, or run without an error and
leave the stack as it was, with the values of `r` pushed on the `values` and
the texts `ts` on the `inner_content` of its last frame. -/
def Response.Yields (events : List Event) (r : JS (List JSVal)) (ts : List String) : Prop :=
  ∀ (top : Frame) (below : List Frame),
    Response.run (Response.atTop (top :: below)) events =
      match r with
      | .ok vs => .ok (Response.atTop (top.grow vs ts :: below))
      | .error err => .error err

/-- The object a closed `value` element holding the value `r` and the texts
`ts` is left as. -/
def valueFrame (r : JSVal) (ts : List String) : JSVal :=
  Frame.toVal { name := "value", values := [r], inner_content := ts }

/-- The object a closed `member` element is left as: its name in the pieces
`name`, its value `r`, the texts `vts` in its `value` and its own texts
`mts`. -/
def memberFrame (name : List String) (r : JSVal) (vts mts : List String) : JSVal :=
  Frame.toVal { name := "member",
                values := [Frame.toVal { name := "name", values := [], inner_content := name },
                  valueFrame r vts],
                inner_content := mts }

mutual
/-- What the end-element handler makes of the elements of a value: the value
pushed on the enclosing frame, or the error thrown on the way. -/
def SpacedValue.sem : SpacedValue → JS JSVal
  | .scalar tag chunks =>
    Response.convert (Frame.toVal { name := tag, values := [], inner_content := chunks })
  | .array _ items _ =>
    match SpacedItems.sem items with
    | .error err => .error err
    | .ok rs => .ok (.arr rs)
  | .struct members =>
    match SpacedMembers.sem members with
    | .error err => .error err
    | .ok ms =>
      match ms.foldlM (fun acc m => setProp acc m.1 m.2) [] with
      | .error err => .error err
      | .ok props => Response.dataBranch (.obj props)
/-- The values of the items of a `data` element. -/
def SpacedItems.sem : SpacedItems → JS (List JSVal)
  | .done _ => .ok []
  | .item _ _ v rest =>
    match SpacedValue.sem v with
    | .error err => .error err
    | .ok r =>
      match SpacedItems.sem rest with
      | .error err => .error err
      | .ok rs => .ok (r :: rs)
/-- The names and values of the members of a `struct` element. -/
def SpacedMembers.sem : SpacedMembers → JS (List (String × JSVal))
  | .done _ => .ok []
  | .member _ _ name _ v rest =>
    match SpacedValue.sem v with
    | .error err => .error err
    | .ok r =>
      match SpacedMembers.sem rest with
      | .error err => .error err
      | .ok ms => .ok ((accumulated name, r) :: ms)
end

/-- The objects the `value` elements of a `data` element are left as. -/
def SpacedItems.frames (keep : Bool) : SpacedItems → JS (List JSVal)
  | .done _ => .ok []
  | .item _ inValue v rest =>
    match SpacedValue.sem v with
    | .error err => .error err
    | .ok r =>
      match SpacedItems.frames keep rest with
      | .error err => .error err
      | .ok fs => .ok (valueFrame r (kept keep inValue.before ++ kept keep inValue.after) :: fs)

/-- The texts pushed on the frame of a `data` element. -/
def SpacedItems.gaps (keep : Bool) : SpacedItems → List String
  | .done gap => kept keep gap
  | .item gap _ _ rest => kept keep gap ++ SpacedItems.gaps keep rest

/-- The objects the `member` elements of a `struct` element are left as. -/
def SpacedMembers.frames (keep : Bool) : SpacedMembers → JS (List JSVal)
  | .done _ => .ok []
  | .member _ inMember name inValue v rest =>
    match SpacedValue.sem v with
    | .error err => .error err
    | .ok r =>
      match SpacedMembers.frames keep rest with
      | .error err => .error err
      | .ok fs =>
        .ok (memberFrame name r (kept keep inValue.before ++ kept keep inValue.after)
          (kept keep inMember.beforeName ++ kept keep inMember.afterName ++
            kept keep inMember.afterValue) :: fs)

/-- The texts pushed on the frame of a `struct` element. -/
def SpacedMembers.gaps (keep : Bool) : SpacedMembers → List String
  | .done gap => kept keep gap
  | .member gap _ _ _ _ rest => kept keep gap ++ SpacedMembers.gaps keep rest

/-- The one value of `r` as a list. -/
def Response.single (r : JS JSVal) : JS (List JSVal) :=
  match r with
  | .error err => .error err
  | .ok v => .ok [v]

/-- The values of `ra` followed by those of `rb`, or the first error. -/
def Response.both (ra rb : JS (List JSVal)) : JS (List JSVal) :=
  match ra with
  | .error err => .error err
  | .ok va =>
    match rb with
    | .error err => .error err
    | .ok vb => .ok (va ++ vb)

/-- What the end of an element `tag` pushes when its content has pushed the
values of `r` and the texts `ts`. -/
def Response.closeElement (tag : String) (r : JS (List JSVal)) (ts : List String) :
    JS (List JSVal) :=
  match r with
  | .error err => .error err
  | .ok vs =>
    match Response.convert (Frame.toVal { name := tag, values := vs, inner_content := ts }) with
    | .error err => .error err
    | .ok v => .ok [v]

/-- The object of the `value` element holding the value of `r`. -/
def Response.inValue (r : JS JSVal) (ts : List String) : JS (List JSVal) :=
  match r with
  | .error err => .error err
  | .ok v => .ok [valueFrame v ts]

/-- The object a closed `param` element is left as: the value `r`, the texts
`vts` in its `value` and its own texts `pts`. -/
def paramFrame (r : JSVal) (vts pts : List String) : JSVal :=
  Frame.toVal { name := "param", values := [valueFrame r vts], inner_content := pts }

/-! ## The common value grammar of the two decoders -/

mutual
/-- Values built from integers, arrays and structs. -/
inductive Val
  | int (n : Int)
  | array (items : Vals)
  | struct (members : Members)
/-- The items of an array, in order. -/
inductive Vals
  | nil
  | cons (v : Val) (rest : Vals)
/-- The members of a struct, in order: name and value. -/
inductive Members
  | nil
  | cons (name : String) (v : Val) (rest : Members)
end

/-- Whether there is no item. -/
def Vals.isEmpty : Vals → Bool
  | .nil => true
  | .cons _ _ => false

/-- Whether there is no member. -/
def Members.isEmpty : Members → Bool
  | .nil => true
  | .cons _ _ _ => false

mutual
/-- The events of a value: an integer as `int` with its decimal text in one
characters event, an array as `array`, `data` and one `value` per item, a
struct as `struct` with one `member` per member, `name` before `value`; no text
between the elements. -/
def Val.enc : Val → List Event
  | .int n => element "int" (text (toString n))
  | .array items => element "array" (element "data" (Vals.enc items))
  | .struct members => element "struct" (Members.enc members)
/-- The `value` elements of the items of an array. -/
def Vals.enc : Vals → List Event
  | .nil => []
  | .cons v rest => element "value" (Val.enc v) ++ Vals.enc rest
/-- The `member` elements of the members of a struct. -/
def Members.enc : Members → List Event
  | .nil => []
  | .cons name v rest => memberDoc name (Val.enc v) ++ Members.enc rest
end

mutual
/-- Every array and every struct of the value has at least one entry, and no
member name is empty. -/
def Val.wellFormed : Val → Bool
  | .int _ => true
  | .array items => !Vals.isEmpty items && Vals.wellFormed items
  | .struct members => !Members.isEmpty members && Members.wellFormed members
/-- Every item is well formed. -/
def Vals.wellFormed : Vals → Bool
  | .nil => true
  | .cons v rest => Val.wellFormed v && Vals.wellFormed rest
/-- Every member has a name and a well-formed value. -/
def Members.wellFormed : Members → Bool
  | .nil => true
  | .cons name v rest => decide (name ≠ "") && Val.wellFormed v && Members.wellFormed rest
end

/-- The object with the entries `props` after the assignment `o[key] = v` of
an integer, an array or an object: as `setProp`, which does not fail on
these. -/
def putProp (props : List (String × JSVal)) (key : String) (v : JSVal) :
    List (String × JSVal) :=
  if key = "__proto__" then (if v.isObject then assignProp props key v else props)
  else assignProp props key v

mutual
/-- The JavaScript value a value denotes: the Number nearest to an integer, the
array of the items, the object the members make when assigned in order. -/
def Val.toJS : Val → JSVal
  | .int n => .num (toNumber (decide (n < 0)) n.natAbs)
  | .array items => .arr (Vals.toJS items)
  | .struct members => .obj (Members.toProps members [])
/-- The JavaScript values of the items. -/
def Vals.toJS : Vals → List JSVal
  | .nil => []
  | .cons v rest => Val.toJS v :: Vals.toJS rest
/-- The entries of the object `props` after the members are assigned. -/
def Members.toProps : Members → List (String × JSVal) → List (String × JSVal)
  | .nil, props => props
  | .cons name v rest, props => Members.toProps rest (putProp props name (Val.toJS v))
end

mutual
/-- The value as a response value without inserted text. -/
def Val.spaced : Val → SpacedValue
  | .int n => .scalar "int" [toString n]
  | .array items => .array [] (Vals.spaced items) []
  | .struct members => .struct (Members.spaced members)
/-- The items as the content of a `data` element. -/
def Vals.spaced : Vals → SpacedItems
  | .nil => .done []
  | .cons v rest =>
    .item [] { before := [], after := [] } (Val.spaced v) (Vals.spaced rest)
/-- The members as the content of a `struct` element. -/
def Members.spaced : Members → SpacedMembers
  | .nil => .done []
  | .cons name v rest =>
    .member [] { beforeName := [], afterName := [], afterValue := [] } [name]
      { before := [], after := [] } (Val.spaced v) (Members.spaced rest)
end

mutual
/-- The value holds numbers, arrays and objects only. -/
def JSVal.numeric : JSVal → Bool
  | .num _ => true
  | .arr items => JSVal.numericList items
  | .obj props => JSVal.numericProps props
  | _ => false
/-- Every value of the list is numeric. -/
def JSVal.numericList : List JSVal → Bool
  | [] => true
  | v :: rest => JSVal.numeric v && JSVal.numericList rest
/-- Every value of the entries is numeric. -/
def JSVal.numericProps : List (String × JSVal) → Bool
  | [] => true
  | p :: rest => JSVal.numeric p.2 && JSVal.numericProps rest
end

/-- An end-element listener that does nothing at the end of a `name`, `value`
or `member` element: any but that of a flat element. -/
def EndListener.quiet : EndListener → Bool
  | .flat _ => false
  | _ => true

/-- The state after a member of the struct whose variables live at `r` has
been decoded, with the heap `heap`. -/
def Call.structState (s : CallState) (heap : List Cell) (r : Nat) (k : Cont) : CallState :=
  { heap := heap, onStartElementNS := .struct r k, onEndElementNS := .struct r k,
    onCharacters := .ignore, onEndDocument := s.onEndDocument, calls := s.calls }

/-! ## Sample documents -/

/-- A line break and blanks at every place of the envelope of a response. -/
def ResponseGaps.lines : ResponseGaps :=
  { afterResponseStart := ["\n "], afterParamsStart := ["\n  "], afterParamStart := ["\n   "],
    inValue := { before := ["\n    "], after := ["\n   "] }, afterValueEnd := ["\n  "],
    afterParamEnd := ["\n "], afterParamsEnd := ["\n", "\n"] }

/-- A line break at every place of the envelope of a fault response. -/
def FaultGaps.lines : FaultGaps :=
  { afterResponseStart := ["\n"], inValue := { before := ["\n"], after := ["\n"] },
    afterFaultEnd := ["\n"] }

/-- The array of the `int` 41, delivered as `4` and `1`, and of the struct
with the one member `a` = `x`, with text at every place between the
elements. -/
def SpacedValue.sample : SpacedValue :=
  .array ["\n"]
    (.item [" "] { before := ["\t"], after := ["\t"] } (.scalar "int" ["4", "1"])
      (.item ["x"] { before := [], after := ["y", "z"] }
        (.struct
          (.member ["\n"] { beforeName := [" "], afterName := ["-"], afterValue := ["+"] } ["a"]
            { before := ["\n"], after := ["\n"] } (.scalar "string" ["x"]) (.done ["\n"])))
        (.done ["\n"])))
    ["\n"]

/-- The struct with the members `a`, the array of 1 and -2, and `b`, the
struct with the one member `c` = 3. -/
def Val.sample : Val :=
  .struct
    (.cons "a" (.array (.cons (.int 1) (.cons (.int (-2)) .nil)))
      (.cons "b" (.struct (.cons "c" (.int 3) .nil)) .nil))
/-! ## Decimal text and `parseInt` -/

theorem radixDigit_digitChar (d : Nat) (h : d < 10) :
    radixDigit 10 (Nat.digitChar d) = some d := by
  interval_cases d <;> rfl

theorem isWhiteSpace_digitChar (d : Nat) (h : d < 10) :
    isWhiteSpace (Nat.digitChar d) = false := by
  interval_cases d <;> rfl

theorem digitChar_ne_sign (d : Nat) (h : d < 10) :
    Nat.digitChar d ≠ '-' ∧ Nat.digitChar d ≠ '+' ∧
      Nat.digitChar d ≠ 'x' ∧ Nat.digitChar d ≠ 'X' := by
  interval_cases d <;> decide

theorem takeDigits_map_digitChar (ds : List Nat) (h : ∀ d ∈ ds, d < 10) :
    takeDigits 10 (ds.map Nat.digitChar) = ds := by
  induction ds with
  | nil => rfl
  | cons d ds ih =>
    simp only [List.map_cons, takeDigits, radixDigit_digitChar d (h d (List.mem_cons_self _ _))]
    rw [ih (fun x hx => h x (List.mem_cons_of_mem _ hx))]

theorem digitsValue_append (r : Nat) (ds : List Nat) (d : Nat) :
    digitsValue r (ds ++ [d]) = digitsValue r ds * r + d := by
  simp [digitsValue, List.foldl_append]

theorem toDigitsCore_spec (fuel : Nat) : ∀ (n : Nat) (cs : List Char), n < fuel →
    ∃ ds : List Nat, Nat.toDigitsCore 10 fuel n cs = ds.map Nat.digitChar ++ cs ∧
      (∀ d ∈ ds, d < 10) ∧ ds ≠ [] ∧ digitsValue 10 ds = n := by
  induction fuel with
  | zero => intro n cs h; omega
  | succ fuel ih =>
    intro n cs h
    simp only [Nat.toDigitsCore]
    by_cases h0 : n / 10 = 0
    · refine ⟨[n % 10], ?_, ?_, by simp, ?_⟩
      · simp [h0]
      · intro d hd; simp at hd; omega
      · simp [digitsValue]; omega
    · obtain ⟨ds, h1, h2, h3, h4⟩ := ih (n / 10) (Nat.digitChar (n % 10) :: cs) (by omega)
      refine ⟨ds ++ [n % 10], ?_, ?_, by simp, ?_⟩
      · simp [h0, h1]
      · intro d hd
        rcases List.mem_append.mp hd with hd | hd
        · exact h2 d hd
        · simp at hd; omega
      · rw [digitsValue_append, h4]; omega

theorem toDigits_spec (n : Nat) :
    ∃ ds : List Nat, Nat.toDigits 10 n = ds.map Nat.digitChar ∧
      (∀ d ∈ ds, d < 10) ∧ ds ≠ [] ∧ digitsValue 10 ds = n := by
  obtain ⟨ds, h1, h2, h3, h4⟩ := toDigitsCore_spec (n + 1) n [] (by omega)
  exact ⟨ds, by simpa [Nat.toDigits] using h1, h2, h3, h4⟩

theorem parseUnsigned_toDigits (neg : Bool) (n radix : Nat) (hr : radix = 0 ∨ radix = 10) :
    parseUnsigned neg (Nat.toDigits 10 n) radix = toNumber neg n := by
  obtain ⟨ds, h1, h2, h3, h4⟩ := toDigits_spec n
  obtain ⟨d, ds, rfl⟩ := List.exists_cons_of_ne_nil h3
  have hhex : hasHexStart (Nat.toDigits 10 n) = false := by
    rw [h1]
    cases ds with
    | nil => rfl
    | cons e es =>
      obtain ⟨_, _, m3, m4⟩ := digitChar_ne_sign e (h2 e (by simp))
      simp [hasHexStart, m3, m4]
  have htd : takeDigits 10 (Nat.toDigits 10 n) = d :: ds := by
    rw [h1]; exact takeDigits_map_digitChar (d :: ds) h2
  have hrad : ¬ (radix ≠ 0 ∧ (radix < 2 ∨ 36 < radix)) := by omega
  have hr10 : (if radix = 0 then 10 else radix) = 10 := by
    rcases hr with h | h <;> simp [h]
  simp only [parseUnsigned, hrad, if_false, hhex, Bool.and_false, Bool.false_eq_true, hr10,
    htd, h4]

/-- The decimal text of an integer parses, with radix 10 or without a radix, to
the Number nearest to it. -/
theorem parseInt_toString (n : Int) (radix : Nat) (hr : radix = 0 ∨ radix = 10) :
    parseInt (toString n) radix = toNumber (decide (n < 0)) n.natAbs := by
  cases n with
  | ofNat m =>
    obtain ⟨ds, h1, h2, h3, h4⟩ := toDigits_spec m
    obtain ⟨d, ds, rfl⟩ := List.exists_cons_of_ne_nil h3
    have hd := h2 d (List.mem_cons_self _ _)
    obtain ⟨n1, n2, _, _⟩ := digitChar_ne_sign d hd
    have e : (toString (Int.ofNat m)).toList = Nat.toDigits 10 m := rfl
    have hp := parseUnsigned_toDigits false m radix hr
    rw [h1] at hp e
    simp only [parseInt, e, List.map_cons, List.dropWhile_cons, isWhiteSpace_digitChar d hd,
      Bool.false_eq_true, if_false, n1, n2]
    simpa using hp
  | negSucc m =>
    have e : (toString (Int.negSucc m)).toList = '-' :: Nat.toDigits 10 (m + 1) := rfl
    have hm : isWhiteSpace '-' = false := by decide
    have hp := parseUnsigned_toDigits true (m + 1) radix hr
    simp only [parseInt, e, List.dropWhile_cons, hm, Bool.false_eq_true, if_false, if_true]
    simpa [Int.negSucc_lt_zero] using hp

theorem roundToDouble_small (m : Nat) (h : m ≤ 2 ^ 53) : roundToDouble m = some m := by
  have he : excessBits m m = 0 ∨ (excessBits m m = 1 ∧ m = 2 ^ 53) := by
    rcases Nat.lt_or_ge m (2 ^ 53) with h1 | h1
    · left
      cases m with
      | zero => rfl
      | succ k => simp [excessBits]; omega
    · right
      have : m = 2 ^ 53 := by omega
      subst this
      exact ⟨by decide, rfl⟩
  rcases he with he | ⟨he, rfl⟩
  · simp [roundToDouble, he, Nat.mod_one]
  · decide

/-- Every integer of absolute value up to `2 ^ 53` is held exactly. -/
theorem exactInt_of_le (n : Int) (h : n.natAbs ≤ 2 ^ 53) : ExactInt n :=
  roundToDouble_small _ h

/-- The decimal text of an exact integer parses to that integer. -/
theorem parseInt_exact (n : Int) (radix : Nat) (hr : radix = 0 ∨ radix = 10)
    (h : ExactInt n) : parseInt (toString n) radix = .int n := by
  rw [parseInt_toString n radix hr, toNumber, h]
  by_cases hn : n < 0
  · simp only [hn, decide_True, if_true]
    congr 1; omega
  · simp only [hn, decide_False, Bool.false_eq_true, if_false]
    congr 1; omega

theorem toString_int_ne_empty (n : Int) : toString n ≠ "" := by
  intro h
  have h2 : (toString n).toList = [] := by rw [h]; rfl
  cases n with
  | ofNat m =>
    obtain ⟨ds, h1, _, h3, _⟩ := toDigits_spec m
    have e : (toString (Int.ofNat m)).toList = Nat.toDigits 10 m := rfl
    rw [e, h1] at h2
    exact h3 (List.map_eq_nil_iff.mp h2)
  | negSucc m =>
    have e : (toString (Int.negSucc m)).toList = '-' :: Nat.toDigits 10 (m + 1) := rfl
    rw [e] at h2
    exact List.cons_ne_nil _ _ h2

theorem parseUnsigned_radix_absent (neg : Bool) (cs : List Char) (h : hasHexStart cs = false) :
    parseUnsigned neg cs 0 = parseUnsigned neg cs 10 := by
  simp [parseUnsigned, h]

/-- Without a radix `parseInt` reads base 10 unless the text has a
hexadecimal start. -/
theorem parseInt_radix_absent (t : String) (h : hexText t = false) :
    parseInt t 0 = parseInt t 10 := by
  unfold hexText at h
  unfold parseInt
  cases hc : t.toList.dropWhile isWhiteSpace with
  | nil => rfl
  | cons c cs =>
    rw [hc] at h
    simp only at h ⊢
    by_cases h1 : c = '-'
    · simp only [h1, true_or, if_true] at h ⊢
      exact parseUnsigned_radix_absent _ _ h
    · by_cases h2 : c = '+'
      · simp only [h1, h2, or_true, if_true, if_false] at h ⊢
        exact parseUnsigned_radix_absent _ _ h
      · simp only [h1, h2, or_self, if_false] at h ⊢
        exact parseUnsigned_radix_absent _ _ h

/-! ## `parseMethodResponse`: what the events of an element push on the stack -/

namespace Response

theorem run_append (s : ResponseState) (a b : List Event) :
    run s (a ++ b) = (run s a).bind (fun s1 => run s1 b) := by
  simp only [run, List.foldlM_append]
  rfl

theorem run_cons (s : ResponseState) (e : Event) (es : List Event) :
    run s (e :: es) = (step s e).bind (fun s1 => run s1 es) := by
  simp only [run, List.foldlM_cons]
  rfl

theorem run_nil (s : ResponseState) : run s [] = .ok s := rfl

theorem nameIs_frame (f : Frame) (n : String) :
    f.toVal.nameIs n = .ok (decide (f.name = n)) := by
  simp [Frame.toVal, JSVal.nameIs, JSVal.getField, List.lookup]

theorem pushes_nil : Pushes [] [] := by
  intro top below
  simp [run_nil, Frame.push]

theorem pushes_append {a b : List Event} {va vb : List JSVal}
    (ha : Pushes a va) (hb : Pushes b vb) : Pushes (a ++ b) (va ++ vb) := by
  intro top below
  rw [run_append, ha top below]
  simp only [Except.bind]
  rw [hb (top.push va) below]
  simp [Frame.push, List.append_assoc]

theorem pushes_element {tag : String} {inner : List Event} {vals : List JSVal} {v : JSVal}
    (hinner : Pushes inner vals)
    (hconv : convert (Frame.toVal { name := tag, values := vals, inner_content := [] }) = .ok v) :
    Pushes (element tag inner) [v] := by
  intro top below
  simp only [element, run_cons, step, Except.bind, onStartElementNS]
  have h := hinner { name := tag, values := [], inner_content := [] } (top :: below)
  simp only [atTop, List.length_cons, Nat.add_sub_cancel, Frame.push, List.nil_append] at h ⊢
  rw [run_append, h]
  simp only [Except.bind, run_cons, step, onEndElementNS, hconv, run_nil]
  rfl

end Response

namespace Response

theorem foldlM_joinStep (ss : List String) : ∀ acc : String,
    (ss.map JSVal.str).foldlM joinStep acc = .ok (ss.foldl (fun r s => r ++ s) acc) := by
  induction ss with
  | nil => intro acc; rfl
  | cons s ss ih =>
    intro acc
    simp only [List.map_cons, List.foldlM_cons, joinStep, List.foldl_cons]
    exact ih (acc ++ s)

theorem innerText_frame (f : Frame) :
    innerText f.toVal = .ok (f.inner_content.foldl (fun r s => r ++ s) "") := by
  simp only [innerText, Frame.toVal, JSVal.getField, List.lookup, bind, Except.bind]
  simp [JSVal.joinEmpty, foldlM_joinStep]

theorem nameIs_num (n : JSNum) (k : String) : (JSVal.num n).nameIs k = .ok false := rfl
theorem nameIs_str (s k : String) : (JSVal.str s).nameIs k = .ok false := rfl
theorem nameIs_bool (b : Bool) (k : String) : (JSVal.bool b).nameIs k = .ok false := rfl
theorem nameIs_arr (xs : List JSVal) (k : String) : (JSVal.arr xs).nameIs k = .ok false := by
  simp [JSVal.nameIs, JSVal.getField]

theorem nameIs_plainFrame (tag : String) (vals : List JSVal) (n : String) :
    (plainFrame tag vals).nameIs n = .ok (decide (tag = n)) :=
  nameIs_frame _ n

theorem getValues_frame (f : Frame) : f.toVal.getField "values" = .ok (.arr f.values) := by
  simp [Frame.toVal, JSVal.getField, List.lookup]

theorem getValues_plainFrame (tag : String) (vals : List JSVal) :
    (plainFrame tag vals).getField "values" = .ok (.arr vals) :=
  getValues_frame _

theorem convert_eq {a b c d e f : JSVal} (h1 : scalarBranches a = .ok b)
    (h2 : arrayBranch b = .ok c) (h3 : paramsBranch c = .ok d)
    (h4 : structBranch d = .ok e) (h5 : dataBranch e = .ok f) : convert a = .ok f := by
  simp only [convert, h1, h2, h3, h4, h5, bind, Except.bind]

theorem scalarBranches_skip {v : JSVal} (h1 : v.nameIs "string" = .ok false)
    (h2 : v.nameIs "boolean" = .ok false) (h3 : v.nameIs "int" = .ok false)
    (h4 : v.nameIs "i4" = .ok false) (h5 : v.nameIs "double" = .ok false)
    (h6 : v.nameIs "dateTime.iso8601" = .ok false) : scalarBranches v = .ok v := by
  simp only [scalarBranches, h1, h2, h3, h4, h5, h6, bind, Except.bind, pure, Except.pure,
    Bool.false_eq_true, if_false, Bool.or_false]

theorem arrayBranch_skip {v : JSVal} (h : v.nameIs "array" = .ok false) :
    arrayBranch v = .ok v := by
  simp only [arrayBranch, h, bind, Except.bind, pure, Except.pure, Bool.false_eq_true, if_false]

theorem paramsBranch_skip {v : JSVal} (h : v.nameIs "params" = .ok false) :
    paramsBranch v = .ok v := by
  simp only [paramsBranch, h, bind, Except.bind, pure, Except.pure, Bool.false_eq_true, if_false]

theorem structBranch_skip {v : JSVal} (h : v.nameIs "struct" = .ok false) :
    structBranch v = .ok v := by
  simp only [structBranch, h, bind, Except.bind, pure, Except.pure, Bool.false_eq_true, if_false]

theorem dataBranch_skip {v : JSVal} (h : v.nameIs "data" = .ok false) :
    dataBranch v = .ok v := by
  simp only [dataBranch, h, bind, Except.bind, pure, Except.pure, Bool.false_eq_true, if_false]

/-- A value that has no `name` goes through the branches after the scalar ones
unchanged. -/
theorem laterBranches_skip {v0 v : JSVal} (h0 : scalarBranches v0 = .ok v)
    (h : ∀ k, v.nameIs k = .ok false) : convert v0 = .ok v :=
  convert_eq h0 (arrayBranch_skip (h _)) (paramsBranch_skip (h _)) (structBranch_skip (h _))
    (dataBranch_skip (h _))

/-- A frame whose name is none of the converted ones is pushed as it is. -/
theorem convert_plain (f : Frame)
    (h : f.name ∉ ["string", "boolean", "int", "i4", "double", "dateTime.iso8601", "array",
      "params", "struct", "data"]) : convert f.toVal = .ok f.toVal := by
  simp only [List.mem_cons, List.mem_singleton, not_or, List.mem_nil_iff, not_false_eq_true,
    and_true] at h
  obtain ⟨h1, h2, h3, h4, h5, h6, h7, h8, h9, h10⟩ := h
  have e : ∀ n, f.name ≠ n → f.toVal.nameIs n = .ok false := by
    intro n hn; rw [nameIs_frame]; simp [hn]
  exact convert_eq
    (scalarBranches_skip (e _ h1) (e _ h2) (e _ h3) (e _ h4) (e _ h5) (e _ h6))
    (arrayBranch_skip (e _ h7)) (paramsBranch_skip (e _ h8)) (structBranch_skip (e _ h9))
    (dataBranch_skip (e _ h10))

theorem convert_int (f : Frame) (h : f.name = "int" ∨ f.name = "i4") :
    convert f.toVal =
      .ok (.num (parseInt (f.inner_content.foldl (fun r s => r ++ s) "") 10)) := by
  refine laterBranches_skip ?_ (nameIs_num _)
  rcases h with h | h <;>
  simp [scalarBranches, nameIs_frame, nameIs_num, innerText_frame, h, bind, Except.bind, pure,
    Except.pure]

theorem convert_string (f : Frame) (h : f.name = "string") :
    convert f.toVal = .ok (.str (f.inner_content.foldl (fun r s => r ++ s) "")) := by
  refine laterBranches_skip ?_ (nameIs_str _)
  simp [scalarBranches, nameIs_frame, nameIs_str, innerText_frame, h, bind, Except.bind, pure,
    Except.pure]

theorem convert_boolean (f : Frame) (h : f.name = "boolean") :
    convert f.toVal =
      .ok (.bool (decide (f.inner_content.foldl (fun r s => r ++ s) "" = "1"))) := by
  refine laterBranches_skip ?_ (nameIs_bool _)
  simp [scalarBranches, nameIs_frame, nameIs_bool, innerText_frame, h, bind, Except.bind, pure,
    Except.pure]

theorem foldl_text (t : String) :
    (if t = "" then [] else [t]).foldl (fun r s => r ++ s) "" = t := by
  by_cases h : t = ""
  · simp [h]
  · simp [h]

theorem pushes_scalar {tag t : String} {v : JSVal}
    (hconv : convert (Frame.toVal
      { name := tag, values := [], inner_content := if t = "" then [] else [t] }) = .ok v) :
    Pushes (scalarDoc tag t) [v] := by
  intro top below
  by_cases ht : t = ""
  · subst ht
    simp only [scalarDoc, text, if_true, element, List.nil_append, run_cons, step, Except.bind,
      onStartElementNS, onEndElementNS, run_nil] at hconv ⊢
    simp only [atTop, hconv]
    rfl
  · simp only [ht, if_false] at hconv
    simp only [scalarDoc, text, ht, if_false, element, List.singleton_append, run_cons, step,
      Except.bind, onStartElementNS, onEndElementNS, onCharacters, run_nil, atTop,
      List.length_cons]
    simp [List.modify, hconv, Frame.push]

end Response

namespace Response

theorem scalarBranches_plainFrame (tag : String) (vals : List JSVal)
    (h : tag ∉ ["string", "boolean", "int", "i4", "double", "dateTime.iso8601"]) :
    scalarBranches (plainFrame tag vals) = .ok (plainFrame tag vals) := by
  simp only [List.mem_cons, List.mem_singleton, not_or, List.mem_nil_iff, not_false_eq_true,
    and_true] at h
  obtain ⟨h1, h2, h3, h4, h5, h6⟩ := h
  have e : ∀ n, tag ≠ n → (plainFrame tag vals).nameIs n = .ok false := by
    intro n hn; rw [nameIs_plainFrame]; simp [hn]
  exact scalarBranches_skip (e _ h1) (e _ h2) (e _ h3) (e _ h4) (e _ h5) (e _ h6)

theorem pushValue_value (acc : List JSVal) (v : JSVal) :
    pushValue acc (plainFrame "value" [v]) = .ok (acc ++ [v]) := by
  simp only [pushValue, nameIs_plainFrame, getValues_plainFrame, bind, Except.bind, pure,
    Except.pure, decide_True, if_true, JSVal.getIndex, List.getD_cons_zero]

theorem foldlM_pushValue (vs : List JSVal) : ∀ acc : List JSVal,
    (vs.map (fun v => plainFrame "value" [v])).foldlM pushValue acc = .ok (acc ++ vs) := by
  induction vs with
  | nil => intro acc; simp only [List.map_nil, List.foldlM_nil, List.append_nil]; rfl
  | cons v vs ih =>
    intro acc
    simp only [List.map_cons, List.foldlM_cons, pushValue_value, bind, Except.bind]
    rw [ih (acc ++ [v])]
    simp

theorem convert_data (vs : List JSVal) :
    convert (plainFrame "data" (vs.map (fun v => plainFrame "value" [v]))) = .ok (.arr vs) := by
  refine convert_eq (scalarBranches_plainFrame _ _ (by decide))
    (arrayBranch_skip (by rw [nameIs_plainFrame]; rfl))
    (paramsBranch_skip (by rw [nameIs_plainFrame]; rfl))
    (structBranch_skip (by rw [nameIs_plainFrame]; rfl)) ?_
  simp only [dataBranch, nameIs_plainFrame, getValues_plainFrame, bind, Except.bind, pure,
    Except.pure, decide_True, if_true, JSVal.elements, foldlM_pushValue, List.nil_append]

theorem convert_array (xs : List JSVal) :
    convert (plainFrame "array" [.arr xs]) = .ok (.arr xs) := by
  refine convert_eq (c := .arr xs) (scalarBranches_plainFrame _ _ (by decide)) ?_
    (paramsBranch_skip (nameIs_arr _ _)) (structBranch_skip (nameIs_arr _ _))
    (dataBranch_skip (nameIs_arr _ _))
  simp only [arrayBranch, nameIs_plainFrame, getValues_plainFrame, bind, Except.bind, pure,
    Except.pure, decide_True, if_true, JSVal.getIndex, List.getD_cons_zero]

theorem pushParam_param (acc : List JSVal) (v : JSVal) :
    pushParam acc (plainFrame "param" [plainFrame "value" [v]]) = .ok (acc ++ [v]) := by
  simp only [pushParam, nameIs_plainFrame, getValues_plainFrame, bind, Except.bind, pure,
    Except.pure, decide_True, if_true, JSVal.elements, List.foldlM_cons, pushValue_value,
    List.foldlM_nil]

theorem foldlM_pushParam (vs : List JSVal) : ∀ acc : List JSVal,
    (vs.map (fun v => plainFrame "param" [plainFrame "value" [v]])).foldlM pushParam acc =
      .ok (acc ++ vs) := by
  induction vs with
  | nil => intro acc; simp only [List.map_nil, List.foldlM_nil, List.append_nil]; rfl
  | cons v vs ih =>
    intro acc
    simp only [List.map_cons, List.foldlM_cons, pushParam_param, bind, Except.bind]
    rw [ih (acc ++ [v])]
    simp

theorem convert_params (vs : List JSVal) :
    convert (plainFrame "params" (vs.map (fun v => plainFrame "param" [plainFrame "value" [v]])))
      = .ok (.arr vs) := by
  refine convert_eq (c := plainFrame "params" _) (d := .arr vs)
    (scalarBranches_plainFrame _ _ (by decide))
    (arrayBranch_skip (by rw [nameIs_plainFrame]; rfl)) ?_
    (structBranch_skip (nameIs_arr _ _)) (dataBranch_skip (nameIs_arr _ _))
  simp only [paramsBranch, nameIs_plainFrame, getValues_plainFrame, bind, Except.bind, pure,
    Except.pure, decide_True, if_true, JSVal.elements, foldlM_pushParam, List.nil_append]

end Response

namespace Response

theorem convert_plainFrame (tag : String) (vals : List JSVal)
    (h : tag ∉ ["string", "boolean", "int", "i4", "double", "dateTime.iso8601", "array",
      "params", "struct", "data"]) : convert (plainFrame tag vals) = .ok (plainFrame tag vals) :=
  convert_plain _ h

theorem pushes_int (tag : String) (h : tag = "int" ∨ tag = "i4") (t : String) :
    Pushes (scalarDoc tag t) [.num (parseInt t 10)] := by
  refine pushes_scalar ?_
  rw [convert_int _ h, foldl_text]

theorem pushes_value {inner : List Event} {v : JSVal} (h : Pushes inner [v]) :
    Pushes (element "value" inner) [plainFrame "value" [v]] :=
  pushes_element h (convert_plainFrame "value" [v] (by decide))

mutual
theorem pushes_tree : ∀ t : Tree, t.Exact → Pushes t.enc [t.toJS]
  | .int n, h => by
    have := pushes_int "int" (Or.inl rfl) (toString n)
    rw [parseInt_exact n 10 (Or.inr rfl) h] at this
    exact this
  | .array cs, h => by
    have h1 := pushes_trees cs h
    exact pushes_element (pushes_element h1 (convert_data _)) (convert_array _)
theorem pushes_trees : ∀ cs : List Tree, Tree.ExactList cs →
    Pushes (Tree.encValues cs) ((Tree.toJSList cs).map (fun v => plainFrame "value" [v]))
  | [], _ => pushes_nil
  | c :: cs, h => by
    have h1 := pushes_value (pushes_tree c h.1)
    have h2 := pushes_trees cs h.2
    exact pushes_append h1 h2
end

theorem pushes_paramList {docs : List (List Event)} {vals : List JSVal}
    (h : List.Forall₂ (fun d v => Pushes d [v]) docs vals) :
    Pushes (docs.flatMap (fun v => element "param" (element "value" v)))
      (vals.map (fun v => plainFrame "param" [plainFrame "value" [v]])) := by
  induction h with
  | nil => exact pushes_nil
  | cons hd _ ih =>
    simp only [List.flatMap_cons, List.map_cons]
    exact pushes_append
      (pushes_element (pushes_value hd) (convert_plainFrame "param" _ (by decide))) ih

/-- A response whose param values decode to `vals` reports the first of
them, or undefined when there is none. -/
theorem response_of_pushes {docs : List (List Event)} {vals : List JSVal}
    (h : List.Forall₂ (fun d v => Pushes d [v]) docs vals) :
    parseMethodResponse (methodResponseDoc docs) =
      .ok [(.bool false, vals.getD 0 .undefined)] := by
  have h1 : Pushes (methodResponseDoc docs) [plainFrame "methodResponse" [.arr vals]] :=
    pushes_element (pushes_element (pushes_paramList h) (convert_params vals))
      (convert_plainFrame "methodResponse" _ (by decide))
  have h2 := h1 { name := "root", values := [], inner_content := [] } []
  have e : atTop [{ name := "root", values := [], inner_content := [] }] = ResponseState.init :=
    rfl
  rw [e] at h2
  simp only [parseMethodResponse, h2, bind, Except.bind]
  simp [onEndDocument, atTop, Frame.push, getValues_frame, plainFrame, JSVal.getIndex, pure,
    Except.pure, bind, Except.bind]

end Response

namespace Response

theorem nameFrame_nameIs (name k : String) :
    (nameFrame name).nameIs k = .ok (decide ("name" = k)) :=
  nameIs_frame _ k

theorem pushes_name (name : String) : Pushes (element "name" (text name)) [nameFrame name] :=
  @pushes_scalar "name" name _
    (convert_plain _ (show "name" ∉ ["string", "boolean", "int", "i4", "double",
      "dateTime.iso8601", "array", "params", "struct", "data"] by decide))

theorem pushes_member {name : String} {inner : List Event} {v : JSVal} (h : Pushes inner [v]) :
    Pushes (memberDoc name inner)
      [plainFrame "member" [nameFrame name, plainFrame "value" [v]]] :=
  pushes_element (pushes_append (pushes_name name) (pushes_value h))
    (convert_plainFrame "member" _ (by decide))

theorem innerText_nameFrame (name : String) : innerText (nameFrame name) = .ok name := by
  rw [nameFrame, innerText_frame, foldl_text]

theorem structStep_member (acc : List (String × JSVal)) (name : String) (v : JSVal) :
    structStep acc (plainFrame "member" [nameFrame name, plainFrame "value" [v]]) =
      setProp acc name v := by
  simp only [structStep, nameIs_plainFrame, getValues_plainFrame, bind, Except.bind, pure,
    Except.pure, decide_True, if_true, JSVal.elements, List.foldlM_cons, List.foldlM_nil,
    memberStep, nameFrame_nameIs, innerText_nameFrame, JSVal.getIndex,
    List.getD_cons_zero, propertyKey]
  rfl

end Response

namespace Response

theorem lookup_replace (props : List (String × JSVal)) (key k : String) (v : JSVal) :
    (props.map (fun p => if p.1 = key then (key, v) else p)).lookup k =
      if k = key then (props.lookup k).map (fun _ => v) else props.lookup k := by
  induction props with
  | nil => simp
  | cons p ps ih =>
    obtain ⟨a, b⟩ := p
    by_cases ha : a = key
    · subst ha
      by_cases hk : k = a
      · subst hk; simp
      · have hka : (k == a) = false := by simpa using hk
        simp only [List.map_cons, if_true]
        rw [List.lookup_cons, List.lookup_cons, hka, ih]
    · by_cases hk : k = a
      · subst hk
        have : ¬ k = key := ha
        simp [ha, this]
      · have hka : (k == a) = false := by simpa using hk
        simp only [List.map_cons, ha, if_false]
        rw [List.lookup_cons, List.lookup_cons, hka, ih]

theorem lookup_isSome_of_any (props : List (String × JSVal)) (key : String) :
    (props.lookup key).isSome = props.any (fun p => p.1 == key) := by
  induction props with
  | nil => simp
  | cons p ps ih =>
    obtain ⟨a, b⟩ := p
    simp only [List.lookup_cons, List.any_cons]
    by_cases hk : key = a
    · subst hk; simp
    · have hka : (key == a) = false := by simpa using hk
      have hak : (a == key) = false := by simpa using fun h => hk h.symm
      simp [hka, hak, ih]

theorem lookup_assignProp (props : List (String × JSVal)) (key k : String) (v : JSVal) :
    (assignProp props key v).lookup k = if k = key then some v else props.lookup k := by
  have hs := lookup_isSome_of_any props key
  unfold assignProp
  split
  · rename_i h
    rw [lookup_replace]
    by_cases hk : k = key
    · subst hk
      rw [h] at hs
      obtain ⟨x, hx⟩ := Option.isSome_iff_exists.mp hs
      simp [hx]
    · simp [hk]
  · rename_i h
    rw [List.lookup_append]
    by_cases hk : k = key
    · subst hk
      have : props.lookup k = none := by
        rw [← Option.not_isSome_iff_eq_none, hs]
        exact h
      simp [this]
    · have hka : (k == key) = false := by simpa using hk
      simp [List.lookup_cons, hka, hk]

end Response

namespace Response

/-- The member objects a struct frame holds when its members carry integers. -/
theorem foldlM_structStep (ms : List (String × Int)) (h : ∀ p ∈ ms, p.1 ≠ "__proto__") :
    ∀ acc : List (String × JSVal),
      (ms.map (fun p => plainFrame "member"
          [nameFrame p.1, plainFrame "value" [.num (.int p.2)]])).foldlM structStep acc =
        .ok (assignAll ms acc) := by
  induction ms with
  | nil => intro acc; rfl
  | cons p ms ih =>
    intro acc
    have hp : p.1 ≠ "__proto__" := h p (List.mem_cons_self _ _)
    simp only [List.map_cons, List.foldlM_cons, structStep_member, setProp, hp, if_false, bind,
      Except.bind]
    exact ih (fun q hq => h q (List.mem_cons_of_mem _ hq)) _

theorem value_of_mem_assignProp {props : List (String × JSVal)} {key : String} {v : JSVal}
    {q : String × JSVal} (hq : q ∈ assignProp props key v) : q ∈ props ∨ q.2 = v := by
  unfold assignProp at hq
  split at hq
  · obtain ⟨p, hp, rfl⟩ := List.mem_map.mp hq
    by_cases h : p.1 = key
    · right; simp [h]
    · left; simpa [h] using hp
  · rcases List.mem_append.mp hq with h | h
    · exact Or.inl h
    · right; simp at h; rw [h]

theorem values_assignAll (ms : List (String × Int)) : ∀ acc : List (String × JSVal),
    (∀ q ∈ acc, ∃ n, q.2 = .num n) → ∀ q ∈ assignAll ms acc, ∃ n, q.2 = .num n := by
  induction ms with
  | nil => intro acc h; exact h
  | cons p ms ih =>
    intro acc h
    refine ih _ ?_
    intro q hq
    rcases value_of_mem_assignProp hq with h1 | h1
    · exact h q h1
    · exact ⟨_, h1⟩

theorem protoField_of_nums {props : List (String × JSVal)}
    (h : ∀ q ∈ props, ∃ n, q.2 = .num n) (key : String) :
    protoField props key = .ok .undefined := by
  induction props with
  | nil => simp [protoField]
  | cons p rest ih =>
    obtain ⟨n, hn⟩ := h p (List.mem_cons_self _ _)
    rw [protoField, ih (fun q hq => h q (List.mem_cons_of_mem _ hq)), hn]
    simp [JSVal.isObject]

theorem nameIs_obj_of_nums {props : List (String × JSVal)}
    (h : ∀ q ∈ props, ∃ n, q.2 = .num n) (k : String) :
    (JSVal.obj props).nameIs k = .ok false := by
  simp only [JSVal.nameIs, JSVal.getField]
  cases hl : props.lookup "name" with
  | none => simp [protoField_of_nums h]
  | some x =>
    obtain ⟨l1, l2, rfl, _⟩ := List.lookup_eq_some_iff.mp hl
    obtain ⟨n, hn⟩ := h ("name", x) (by simp)
    simp only at hn
    simp [hn]

end Response

namespace Response

theorem convert_intStruct (ms : List (String × Int)) (h : ∀ p ∈ ms, p.1 ≠ "__proto__") :
    convert (plainFrame "struct" (ms.map (fun p => plainFrame "member"
      [nameFrame p.1, plainFrame "value" [.num (.int p.2)]]))) = .ok (.obj (assignAll ms [])) := by
  refine convert_eq (c := plainFrame "struct" _) (d := plainFrame "struct" _)
    (e := .obj (assignAll ms []))
    (scalarBranches_plainFrame _ _ (by decide))
    (arrayBranch_skip (by rw [nameIs_plainFrame]; rfl))
    (paramsBranch_skip (by rw [nameIs_plainFrame]; rfl)) ?_
    (dataBranch_skip (nameIs_obj_of_nums (values_assignAll ms [] (by simp)) _))
  simp only [structBranch, nameIs_plainFrame, getValues_plainFrame, bind, Except.bind, pure,
    Except.pure, decide_True, if_true, JSVal.elements, foldlM_structStep ms h]

theorem pushes_members (ms : List (String × Int)) (h : ∀ p ∈ ms, ExactInt p.2) :
    Pushes (ms.flatMap (fun p => memberDoc p.1 (element "int" (text (toString p.2)))))
      (ms.map (fun p => plainFrame "member"
        [nameFrame p.1, plainFrame "value" [.num (.int p.2)]])) := by
  induction ms with
  | nil => exact pushes_nil
  | cons p ms ih =>
    simp only [List.flatMap_cons, List.map_cons]
    have h1 := pushes_tree (.int p.2) (h p (List.mem_cons_self _ _))
    exact pushes_append (pushes_member h1) (ih (fun q hq => h q (List.mem_cons_of_mem _ hq)))

theorem pushes_intStruct (ms : List (String × Int))
    (h : ∀ p ∈ ms, p.1 ≠ "__proto__" ∧ ExactInt p.2) :
    Pushes (intStructDoc ms) [.obj (assignAll ms [])] :=
  pushes_element (pushes_members ms (fun p hp => (h p hp).2))
    (convert_intStruct ms (fun p hp => (h p hp).1))

theorem lookup_assignAll (ms : List (String × Int)) (k : String) :
    ∀ acc : List (String × JSVal), (assignAll ms acc).lookup k =
      ((lastWrite ms k).map (fun n => JSVal.num (.int n))).or (acc.lookup k) := by
  induction ms with
  | nil => intro acc; simp [assignAll, lastWrite]
  | cons p ms ih =>
    intro acc
    have e : assignAll (p :: ms) acc = assignAll ms (assignProp acc p.1 (.num (.int p.2))) := rfl
    have hl : lastWrite (p :: ms) k = (lastWrite ms k).or (if k = p.1 then some p.2 else none) := by
      simp only [lastWrite, List.reverse_cons, List.lookup_append]
      congr 1
      obtain ⟨a, b⟩ := p
      by_cases hk : k = a
      · subst hk; simp
      · have hka : (k == a) = false := by simpa using hk
        simp [List.lookup_cons, hka, hk]
    rw [e, ih, lookup_assignProp, hl]
    cases lastWrite ms k with
    | some n => simp
    | none =>
      by_cases hk : k = p.1
      · simp [hk]
      · simp [hk]

theorem keys_assignProp (props : List (String × JSVal)) (key : String) (v : JSVal)
    (h : (props.map Prod.fst).Nodup) : ((assignProp props key v).map Prod.fst).Nodup := by
  unfold assignProp
  split
  · have e : (props.map (fun p => if p.1 = key then (key, v) else p)).map Prod.fst =
        props.map Prod.fst := by
      rw [List.map_map]
      apply List.map_congr_left
      intro p _
      by_cases hp : p.1 = key
      · simp [hp]
      · simp [hp]
    rw [e]; exact h
  · rename_i hany
    rw [List.map_append, List.nodup_append]
    refine ⟨h, by simp, ?_⟩
    intro a ha hb
    obtain ⟨p, hp, rfl⟩ := List.mem_map.mp ha
    have hk : p.1 = key := by simpa using hb
    exact hany (List.any_eq_true.mpr ⟨p, hp, by simpa using hk⟩)

theorem keys_assignAll (ms : List (String × Int)) : ∀ acc : List (String × JSVal),
    (acc.map Prod.fst).Nodup → ((assignAll ms acc).map Prod.fst).Nodup := by
  induction ms with
  | nil => intro acc h; exact h
  | cons p ms ih => intro acc h; exact ih _ (keys_assignProp acc p.1 _ h)

end Response
/-! ## `parseMethodCall`: what the events of a param add -/

namespace Call

theorem call_run_append (s : CallState) (a b : List Event) :
    run s (a ++ b) = (run s a).bind (fun s1 => run s1 b) := by
  simp only [run, List.foldlM_append]
  rfl

theorem call_run_cons (s : CallState) (e : Event) (es : List Event) :
    run s (e :: es) = (step s e).bind (fun s1 => run s1 es) := by
  simp only [run, List.foldlM_cons]
  rfl

theorem call_run_nil (s : CallState) : run s [] = .ok s := rfl

theorem adds_flat (tag t : String) (v : JSVal) (h : tag ∈ flatParams)
    (hfv : flatValue tag t = .ok v) :
    Adds (element "param" (element "value" (scalarDoc tag t))) v := by
  intro m ps cells
  refine ⟨cells, ?_⟩
  have hv : ("value" ∈ flatParams) = False := by decide
  by_cases ht : t = ""
  · subst ht
    simp only [flatValue, if_true, Except.ok.injEq] at hfv
    subst hfv
    simp [element, scalarDoc, text, call_run_cons, call_run_nil, step, onStartElementNS,
      onEndElementNS, ready, Except.bind, hv, h, fire, resetListeners, deserializeParam]
  · simp only [flatValue, ht, if_false] at hfv
    simp [element, scalarDoc, text, ht, call_run_cons, call_run_nil, step, onStartElementNS,
      onEndElementNS, onCharacters, ready, Except.bind, hv, h, fire, resetListeners, hfv,
      deserializeParam]

theorem run_params {docs : List (List Event)} {vals : List JSVal}
    (h : List.Forall₂ (fun d v => Adds (element "param" (element "value" d)) v) docs vals) :
    ∀ (m : String) (ps : List JSVal) (cells : List Cell), ∃ cells1 : List Cell,
      run (ready m ps cells) (docs.flatMap (fun v => element "param" (element "value" v))) =
        .ok (ready m (ps ++ vals) cells1) := by
  induction h with
  | nil => intro m ps cells; exact ⟨cells, by simp [call_run_nil]⟩
  | @cons d v ds vs hd _ ih =>
    intro m ps cells
    obtain ⟨c1, h1⟩ := hd m ps cells
    obtain ⟨c2, h2⟩ := ih m (ps ++ [v]) c1
    refine ⟨c2, ?_⟩
    rw [List.append_assoc, List.singleton_append] at h2
    simp only [List.flatMap_cons, call_run_append, h1, Except.bind, h2]

theorem run_head (m : String) :
    run init [.startElement "methodCall", .startElement "methodName", .characters m,
      .endElement "methodName", .startElement "params"] = .ok (ready m [] []) := by
  simp [call_run_cons, call_run_nil, step, onStartElementNS, onEndElementNS, onCharacters, init,
    ready, Except.bind, resetListeners, deserializeMethod, deserializeParams]

theorem run_tail (m : String) (ps : List JSVal) (cells : List Cell) :
    run (ready m ps cells) [.endElement "params", .endElement "methodCall"] =
      .ok (ready m ps cells) := by
  simp [call_run_cons, call_run_nil, step, onEndElementNS, ready, Except.bind]

/-- A call with a method name and params that decode to `vals` reports the
name and `vals`, once, with a null error. -/
theorem call_of_adds {m : String} (hm : m ≠ "") {docs : List (List Event)} {vals : List JSVal}
    (h : List.Forall₂ (fun d v => Adds (element "param" (element "value" d)) v) docs vals) :
    parseMethodCall (methodCallDoc m docs) = .ok [(.null, .str m, .arr vals)] := by
  have e : methodCallDoc m docs =
      [.startElement "methodCall", .startElement "methodName", .characters m,
        .endElement "methodName", .startElement "params"] ++
      (docs.flatMap (fun v => element "param" (element "value" v)) ++
        [.endElement "params", .endElement "methodCall"]) := by
    simp [methodCallDoc, element, text, hm]
  obtain ⟨cells, h1⟩ := run_params h m [] []
  rw [parseMethodCall, e, call_run_append, run_head m]
  simp only [Except.bind, call_run_append, h1, List.nil_append, run_tail, bind]
  simp [onEndDocument, ready, pure, Except.pure]

end Call
/-! ## `parseMethodCall`: nested arrays -/

namespace Call

/-- A callback reads the heap only: the listeners it finds do not matter. -/
theorem fire_congr (k : Cont) (v : JSVal) (s t : CallState) (hh : s.heap = t.heap)
    (hd : s.onEndDocument = t.onEndDocument) (hc : s.calls = t.calls) :
    fire k v s = fire k v t := by
  cases k <;> simp only [fire, resetListeners, hh, hd, hc]

theorem fire_listeners (k : Cont) (v : JSVal) (s : CallState) (a : StartListener)
    (b : EndListener) (c : CharListener) :
    fire k v { heap := s.heap, onStartElementNS := a, onEndElementNS := b, onCharacters := c,
               onEndDocument := s.onEndDocument, calls := s.calls } = fire k v s :=
  fire_congr k v _ s rfl rfl rfl

/-- After a callback the end of an element other than `array` and `struct`
changes nothing. -/
theorem end_after_fire {k : Cont} {v : JSVal} {s s2 : CallState} (h : fire k v s = .ok s2)
    (element : String) (h1 : element ≠ "array") (h2 : element ≠ "struct") :
    onEndElementNS element s2 = .ok s2 := by
  cases k with
  | paramsPush env =>
    simp only [fire] at h
    split at h
    · injection h with h; subst h; rfl
    · exact absurd h (by simp)
  | faultSet env =>
    simp only [fire] at h
    split at h
    · injection h with h; subst h; rfl
    · exact absurd h (by simp)
  | arrayValue env callback =>
    simp only [fire] at h
    split at h
    · injection h with h; subst h; simp [onEndElementNS, h1]
    · exact absurd h (by simp)
  | structValue env callback =>
    simp only [fire] at h
    split at h
    · cases hk : propertyKey ‹JSVal› with
      | error e => simp [hk, bind, Except.bind] at h
      | ok key =>
        cases hp : setProp ‹List (String × JSVal)› key v with
        | error e => simp [hk, hp, bind, Except.bind] at h
        | ok st =>
          simp only [hk, hp, bind, Except.bind, pure, Except.pure] at h
          injection h with h; subst h; simp [onEndElementNS, h2]
    · exact absurd h (by simp)

theorem run_int_leaf (n : Int) (hn : ExactInt n) (s : CallState) (k : Cont)
    (hs : s.onStartElementNS = .param k) :
    run s (Tree.int n).enc = fire k (.num (.int n)) s := by
  have hne := toString_int_ne_empty n
  have hf : ("int" ∈ flatParams) = True := by decide
  have hc : coerce "int" (toString n) = .ok (.num (.int n)) := by
    simp [coerce, parseInt_exact n 0 (Or.inl rfl) hn]
  simp only [Tree.enc, element, text, hne, if_false, List.singleton_append, call_run_cons,
    call_run_nil, step, onStartElementNS, hs, hf, if_true, Except.bind, onCharacters, hc]
  rw [fire_listeners]
  cases hfire : fire k (.num (.int n)) s with
  | error e => rfl
  | ok s2 =>
    simp only [end_after_fire hfire "int" (by decide) (by decide)]

theorem fire_arrayValue (s : CallState) (r : Nat) (k : Cont) (v : JSVal) (done : List JSVal)
    (cells : List Cell) (hr : s.heap[r]? = some (.array done)) :
    fire (.arrayValue r k) v { s with heap := s.heap ++ cells } =
      .ok (arrayState s (s.heap.set r (.array (done ++ [v])) ++ cells) r k) := by
  have hlt : r < s.heap.length := by
    obtain ⟨h, _⟩ := List.getElem?_eq_some.mp hr
    exact h
  have h1 : (s.heap ++ cells)[r]? = some (.array done) := by
    rw [List.getElem?_append_left hlt, hr]
  simp only [fire, h1, resetListeners, arrayState, List.set_append_left _ _ hlt]

theorem start_param_array (s : CallState) (k : Cont) (hs : s.onStartElementNS = .param k) :
    onStartElementNS "array" s = deserializeArrayParam k s := by
  have ha : ("array" ∈ flatParams) = False := by decide
  simp only [onStartElementNS, hs, ha, if_false, if_true]

theorem start_array_other (s : CallState) (r : Nat) (k : Cont) (element : String)
    (hs : s.onStartElementNS = .array r k) (h : element ≠ "value") :
    onStartElementNS element s = s := by
  simp only [onStartElementNS, hs, h, if_false]

theorem start_array_value (s : CallState) (r : Nat) (k : Cont)
    (hs : s.onStartElementNS = .array r k) :
    onStartElementNS "value" s = deserializeParam (.arrayValue r k) s := by
  simp only [onStartElementNS, hs, if_true]

theorem end_array_other (s : CallState) (r : Nat) (k : Cont) (element : String)
    (hs : s.onEndElementNS = .array r k) (h : element ≠ "array") :
    onEndElementNS element s = .ok s := by
  simp only [onEndElementNS, hs, h, if_false]

theorem end_array_array (s : CallState) (r : Nat) (k : Cont) (vs : List JSVal)
    (hs : s.onEndElementNS = .array r k) (hr : s.heap[r]? = some (.array vs)) :
    onEndElementNS "array" s = fire k (.arr vs) s := by
  simp only [onEndElementNS, hs, if_true, hr]

mutual
theorem run_tree : ∀ t : Tree, t.NonEmpty → t.Exact → ∀ (s : CallState) (k : Cont),
    s.onStartElementNS = .param k →
    ∃ cells : List Cell, run s t.enc = fire k t.toJS { s with heap := s.heap ++ cells }
  | .int n, _, he, s, k, hs => by
    refine ⟨[], ?_⟩
    rw [run_int_leaf n he s k hs]
    exact fire_congr k _ _ _ (by simp) rfl rfl
  | .array cs, hne, he, s, k, hs => by
    obtain ⟨hcs, hne1⟩ := hne
    have e : (Tree.array cs).enc = .startElement "array" :: .startElement "data" ::
        (Tree.encValues cs ++ [.endElement "data", .endElement "array"]) := by
      simp [Tree.enc, element]
    have hr : (deserializeArrayParam k s).heap[s.heap.length]? = some (.array []) := by
      simp [deserializeArrayParam]
    obtain ⟨cells, h2⟩ := run_trees cs hne1 he hcs (deserializeArrayParam k s) s.heap.length k []
      rfl hr
    refine ⟨.array (Tree.toJSList cs) :: cells, ?_⟩
    have hheap : (deserializeArrayParam k s).heap.set s.heap.length
        (.array ([] ++ Tree.toJSList cs)) ++ cells =
        s.heap ++ .array (Tree.toJSList cs) :: cells := by
      simp [deserializeArrayParam]
    rw [hheap] at h2
    have hr3 : (arrayState (deserializeArrayParam k s)
        (s.heap ++ .array (Tree.toJSList cs) :: cells) s.heap.length k).heap[s.heap.length]? =
        some (.array (Tree.toJSList cs)) := by
      simp only [arrayState]
      rw [List.getElem?_append_right (Nat.le_refl _)]
      simp
    rw [e, call_run_cons, step, start_param_array s k hs]
    simp only [Except.bind]
    rw [call_run_cons, step, start_array_other _ s.heap.length k "data" rfl (by decide)]
    simp only [Except.bind]
    rw [call_run_append, h2]
    simp only [Except.bind]
    rw [call_run_cons, step, end_array_other _ s.heap.length k "data" rfl (by decide)]
    simp only [Except.bind]
    rw [call_run_cons, step, end_array_array _ s.heap.length k _ rfl hr3]
    have hfc : fire k (.arr (Tree.toJSList cs)) (arrayState (deserializeArrayParam k s)
        (s.heap ++ .array (Tree.toJSList cs) :: cells) s.heap.length k) =
        fire k (Tree.array cs).toJS { s with heap := s.heap ++ .array (Tree.toJSList cs) :: cells } :=
      fire_congr k _ _ _ rfl rfl rfl
    rw [hfc]
    cases fire k (Tree.array cs).toJS
      { s with heap := s.heap ++ .array (Tree.toJSList cs) :: cells } with
    | error e => rfl
    | ok s2 => rfl
theorem run_trees : ∀ cs : List Tree, Tree.NonEmptyList cs → Tree.ExactList cs → cs ≠ [] →
    ∀ (s : CallState) (r : Nat) (k : Cont) (done : List JSVal),
    s.onStartElementNS = .array r k → s.heap[r]? = some (.array done) →
    ∃ cells : List Cell, run s (Tree.encValues cs) =
      .ok (arrayState s (s.heap.set r (.array (done ++ Tree.toJSList cs)) ++ cells) r k)
  | [], _, _, h, _, _, _, _, _, _ => absurd rfl h
  | c :: cs, hne, he, _, s, r, k, done, hs, hr => by
    have hlt : r < s.heap.length := by
      obtain ⟨h, _⟩ := List.getElem?_eq_some.mp hr
      exact h
    obtain ⟨c1, h1⟩ := run_tree c hne.1 he.1 (deserializeParam (.arrayValue r k) s)
      (.arrayValue r k) rfl
    have hf := fire_arrayValue s r k c.toJS done c1 hr
    have h1a : run (deserializeParam (.arrayValue r k) s) c.enc =
        .ok (arrayState s (s.heap.set r (.array (done ++ [c.toJS])) ++ c1) r k) := by
      rw [h1, ← hf]
      exact fire_congr _ _ _ _ rfl rfl rfl
    have hv : run s (element "value" c.enc) =
        .ok (arrayState s (s.heap.set r (.array (done ++ [c.toJS])) ++ c1) r k) := by
      rw [element, call_run_cons, step, start_array_value s r k hs]
      simp only [Except.bind]
      rw [call_run_append, h1a]
      simp only [Except.bind]
      rw [call_run_cons, step, end_array_other _ r k "value" rfl (by decide)]
      rfl
    by_cases hcs : cs = []
    · subst hcs
      refine ⟨c1, ?_⟩
      simp only [Tree.encValues, List.append_nil, hv, Tree.toJSList]
    · have hr2 : (arrayState s (s.heap.set r (.array (done ++ [c.toJS])) ++ c1) r k).heap[r]? =
          some (.array (done ++ [c.toJS])) := by
        simp only [arrayState]
        rw [List.getElem?_append_left (by simpa using hlt)]
        simp [hlt]
      obtain ⟨c2, h2⟩ := run_trees cs hne.2 he.2 hcs
        (arrayState s (s.heap.set r (.array (done ++ [c.toJS])) ++ c1) r k) r k
        (done ++ [c.toJS]) rfl hr2
      refine ⟨c1 ++ c2, ?_⟩
      have hl : r < (s.heap.set r (Cell.array (done ++ [c.toJS]))).length := by simpa using hlt
      rw [Tree.encValues, call_run_append, hv]
      simp only [Except.bind]
      rw [h2]
      simp only [arrayState, Tree.toJSList, List.set_append_left _ _ hl, List.set_set,
        List.append_assoc, List.singleton_append]
end

theorem adds_tree (t : Tree) (hne : t.NonEmpty) (he : t.Exact) :
    Adds (element "param" (element "value" t.enc)) t.toJS := by
  intro m ps cells
  obtain ⟨c1, h1⟩ := run_tree t hne he
    (deserializeParam (.paramsPush 0) (ready m ps cells)) (.paramsPush 0) rfl
  refine ⟨cells ++ c1, ?_⟩
  have hp : onStartElementNS "param" (ready m ps cells) =
      deserializeParam (.paramsPush 0) (ready m ps cells) := by
    simp [onStartElementNS, ready]
  have hv : onStartElementNS "value" (deserializeParam (.paramsPush 0) (ready m ps cells)) =
      deserializeParam (.paramsPush 0) (ready m ps cells) := by
    have hvf : ("value" ∈ flatParams) = False := by decide
    simp [onStartElementNS, deserializeParam, hvf]
  have hf : fire (.paramsPush 0) t.toJS
      { deserializeParam (.paramsPush 0) (ready m ps cells) with
        heap := (deserializeParam (.paramsPush 0) (ready m ps cells)).heap ++ c1 } =
      .ok (ready m (ps ++ [t.toJS]) (cells ++ c1)) := by
    simp [fire, deserializeParam, ready, resetListeners]
  rw [hf] at h1
  simp only [element, List.cons_append, call_run_cons, step, hp, hv, Except.bind, call_run_append,
    h1, call_run_nil, List.nil_append]
  simp [onEndElementNS, ready]

theorem forall₂_adds_tree (ts : List Tree) (h : ∀ t ∈ ts, t.NonEmpty ∧ t.Exact) :
    List.Forall₂ (fun d v => Adds (element "param" (element "value" d)) v)
      (ts.map Tree.enc) (ts.map Tree.toJS) := by
  induction ts with
  | nil => exact List.Forall₂.nil
  | cons t ts ih =>
    exact List.Forall₂.cons
      (adds_tree t (h t (List.mem_cons_self _ _)).1 (h t (List.mem_cons_self _ _)).2)
      (ih (fun u hu => h u (List.mem_cons_of_mem _ hu)))

/-- The params of a method call that are trees of arrays over exact integers,
every array with at least one value, are decoded in document order. -/
theorem call_nonempty_array_trees (m : String) (ts : List Tree) (hm : m ≠ "")
    (h : ∀ t ∈ ts, t.NonEmpty ∧ t.Exact) :
    parseMethodCall (methodCallDoc m (ts.map Tree.enc)) =
      .ok [(.null, .str m, .arr (ts.map Tree.toJS))] :=
  call_of_adds hm (forall₂_adds_tree ts h)

end Call

/-! ## The claims -/

theorem adds_exactInt (tag : String) (h : tag = "int" ∨ tag = "i4") (n : Int) (hn : ExactInt n) :
    Call.Adds (element "param" (element "value" (scalarDoc tag (toString n))))
      (.num (.int n)) := by
  have hf : tag ∈ Call.flatParams := by rcases h with rfl | rfl <;> decide
  have h2 : Call.flatValue tag (toString n) = .ok (.num (.int n)) := by
    rcases h with rfl | rfl <;>
    simp [Call.flatValue, toString_int_ne_empty, Call.coerce, parseInt_exact n 0 (Or.inl rfl) hn]
  exact Call.adds_flat tag (toString n) _ hf h2

theorem forall₂_adds_exactInt (ns : List Int) (h : ∀ n ∈ ns, ExactInt n) :
    List.Forall₂ (fun d v => Call.Adds (element "param" (element "value" d)) v)
      (ns.map (fun n => scalarDoc "i4" (toString n))) (ns.map (fun n => JSVal.num (.int n))) := by
  induction ns with
  | nil => exact List.Forall₂.nil
  | cons n ns ih =>
    exact List.Forall₂.cons (adds_exactInt "i4" (Or.inr rfl) n (h n (List.mem_cons_self _ _)))
      (ih (fun k hk => h k (List.mem_cons_of_mem _ hk)))

/-- C1, counterexample: for the method call with the one param
`<i4>9007199254740993</i4>` the callback gets the param 9007199254740992, the
nearest Number, and so not the list of the integers written in the document. -/
theorem C1_counterexample :
    parseMethodCall (methodCallDoc "examples.getStateName"
        [scalarDoc "i4" (toString (9007199254740993 : Int))]) =
      .ok [(.null, .str "examples.getStateName", .arr [.num (.int 9007199254740992)])] ∧
    parseMethodCall (methodCallDoc "examples.getStateName"
        [scalarDoc "i4" (toString (9007199254740993 : Int))]) ≠
      .ok [(.null, .str "examples.getStateName", .arr [.num (.int 9007199254740993)])] := by
  decide

/-- C1, amended: for every non-empty method name `m` and every list of
integers that a Number holds exactly, `parseMethodCall` on the events of the
method call with one `i4` param per integer calls the callback exactly once,
with a null error, the method name `m` and the integers in document order. -/
theorem C1_method_call_integers (m : String) (ns : List Int) (hm : m ≠ "")
    (hns : ∀ n ∈ ns, ExactInt n) :
    parseMethodCall (methodCallDoc m (ns.map (fun n => scalarDoc "i4" (toString n)))) =
      .ok [(.null, .str m, .arr (ns.map (fun n => .num (.int n))))] :=
  Call.call_of_adds hm (forall₂_adds_exactInt ns hns)

/-- C1, witness: the call of `examples.getStateName` with the params 41 and -7. -/
theorem C1_method_call_integers_witness :
    "examples.getStateName" ≠ "" ∧ (∀ n ∈ [(41 : Int), -7], ExactInt n) ∧
    parseMethodCall (methodCallDoc "examples.getStateName"
        ([(41 : Int), -7].map (fun n => scalarDoc "i4" (toString n)))) =
      .ok [(.null, .str "examples.getStateName",
        .arr ([(41 : Int), -7].map (fun n => .num (.int n))))] :=
  ⟨by decide, by decide,
    C1_method_call_integers "examples.getStateName" [41, -7] (by decide) (by decide)⟩

/-- C2, counterexample: the response whose value is the array holding
9007199254740993 decodes to the array holding 9007199254740992, not to the
tree that was encoded. -/
theorem C2_counterexample :
    parseMethodResponse (methodResponseDoc [(Tree.array [.int 9007199254740993]).enc]) =
      .ok [(.bool false, .arr [.num (.int 9007199254740992)])] ∧
    parseMethodResponse (methodResponseDoc [(Tree.array [.int 9007199254740993]).enc]) ≠
      .ok [(.bool false, (Tree.array [.int 9007199254740993]).toJS)] := by
  decide

/-- C2, amended: for every finite tree of arrays (empty ones included, any
depth) whose leaves are integers that a Number holds exactly,
`parseMethodResponse` on the response carrying the encoded tree calls the
callback once with the value the tree denotes. -/
theorem C2_response_nested_arrays (t : Tree) (h : t.Exact) :
    parseMethodResponse (methodResponseDoc [t.enc]) = .ok [(.bool false, t.toJS)] :=
  Response.response_of_pushes
    (List.Forall₂.cons (Response.pushes_tree t h) List.Forall₂.nil)

/-- C2, witness: the array holding one empty array decodes to `[[]]`. -/
theorem C2_response_nested_arrays_witness :
    (Tree.array [.array []]).Exact ∧
    parseMethodResponse (methodResponseDoc [(Tree.array [.array []]).enc]) =
      .ok [(.bool false, .arr [.arr []])] :=
  ⟨by simp [Tree.Exact, Tree.ExactList],
    C2_response_nested_arrays (.array [.array []]) (by simp [Tree.Exact, Tree.ExactList])⟩

/-- C3: on the fault response with faultCode 4 and faultString
"Too many params." the callback is called with the error argument false, as
for a success, and with undefined as the value: the fault struct is lost. -/
theorem C3_fault_value_lost :
    parseMethodResponse (faultDoc (element "struct"
        (memberDoc "faultCode" (scalarDoc "int" "4") ++
          memberDoc "faultString" (scalarDoc "string" "Too many params.")))) =
      .ok [(.bool false, .undefined)] := by
  decide

/-- C4, counterexample: a struct whose one member `x` carries
9007199254740993 decodes to the object that maps `x` to 9007199254740992, the
nearest Number; and a struct whose one member is called `__proto__` and carries
1 decodes to the object without any key. -/
theorem C4_counterexample :
    parseMethodResponse (methodResponseDoc [intStructDoc [("x", 9007199254740993)]]) =
      .ok [(.bool false, .obj [("x", .num (.int 9007199254740992))])] ∧
    parseMethodResponse (methodResponseDoc [intStructDoc [("__proto__", 1)]]) =
      .ok [(.bool false, .obj [])] := by
  decide

theorem lastWrite_isSome (ms : List (String × Int)) (k : String) :
    (lastWrite ms k).isSome ↔ k ∈ ms.map Prod.fst := by
  induction ms with
  | nil => simp [lastWrite]
  | cons p ms ih =>
    obtain ⟨a, b⟩ := p
    have hl : lastWrite ((a, b) :: ms) k = (lastWrite ms k).or (if k = a then some b else none) := by
      simp only [lastWrite, List.reverse_cons, List.lookup_append]
      congr 1
      by_cases hk : k = a
      · subst hk; simp
      · have hka : (k == a) = false := by simpa using hk
        simp [List.lookup_cons, hka, hk]
    rw [hl]
    cases hw : lastWrite ms k with
    | some n =>
      have : k ∈ ms.map Prod.fst := ih.mp (by rw [hw]; rfl)
      simp only [List.map_cons, List.mem_cons, this, or_true, iff_true]
      rfl
    | none =>
      have hn : ¬ k ∈ ms.map Prod.fst := fun h => by
        have := ih.mpr h
        rw [hw] at this
        exact absurd this (by simp)
      by_cases hk : k = a
      · simp [hk]
      · simp [hk, hn]

/-- C4, amended: for every list of members with integer values that a Number
holds exactly and names other than `__proto__`, `parseMethodResponse` on the
response whose value is the struct with those members in that order reports an
object whose keys are exactly the names that occur, each once, and in which
every name maps to the value of its last occurrence. -/
theorem C4_struct_last_write_wins (ms : List (String × Int))
    (h : ∀ p ∈ ms, p.1 ≠ "__proto__" ∧ ExactInt p.2) :
    ∃ props : List (String × JSVal),
      parseMethodResponse (methodResponseDoc [intStructDoc ms]) =
        .ok [(.bool false, .obj props)] ∧
      (props.map Prod.fst).Nodup ∧
      (∀ k, (props.lookup k).isSome ↔ k ∈ ms.map Prod.fst) ∧
      (∀ k, props.lookup k = (lastWrite ms k).map (fun n => JSVal.num (.int n))) := by
  have hl : ∀ k, (assignAll ms []).lookup k =
      (lastWrite ms k).map (fun n => JSVal.num (.int n)) := by
    intro k
    rw [Response.lookup_assignAll]
    simp
  refine ⟨assignAll ms [], ?_, Response.keys_assignAll ms [] (by simp), ?_, hl⟩
  · exact Response.response_of_pushes
      (List.Forall₂.cons (Response.pushes_intStruct ms h) List.Forall₂.nil)
  · intro k
    rw [hl, Option.isSome_map']
    exact lastWrite_isSome ms k

/-- C4, witness: two members called `x` with the values 1 and 2. -/
theorem C4_struct_last_write_wins_witness :
    (∀ p ∈ [("x", (1 : Int)), ("x", 2)], p.1 ≠ "__proto__" ∧ ExactInt p.2) ∧
    (∃ props : List (String × JSVal),
      parseMethodResponse (methodResponseDoc [intStructDoc [("x", 1), ("x", 2)]]) =
        .ok [(.bool false, .obj props)] ∧
      (props.map Prod.fst).Nodup ∧
      (∀ k, (props.lookup k).isSome ↔ k ∈ [("x", (1 : Int)), ("x", 2)].map Prod.fst) ∧
      (∀ k, props.lookup k =
        (lastWrite [("x", 1), ("x", 2)] k).map (fun n => JSVal.num (.int n)))) ∧
    parseMethodResponse (methodResponseDoc [intStructDoc [("x", 1), ("x", 2)]]) =
      .ok [(.bool false, .obj [("x", .num (.int 2))])] :=
  ⟨by decide, C4_struct_last_write_wins [("x", 1), ("x", 2)] (by decide), by decide⟩

/-- C5, counterexample: on the response with the two params 1 and 2 the
callback is called with the error argument false and the value 1: no error is
reported and the first param is reported as the result. -/
theorem C5_counterexample :
    parseMethodResponse (methodResponseDoc [(Tree.int 1).enc, (Tree.int 2).enc]) =
      .ok [(.bool false, .num (.int 1))] := by
  decide

/-- C5, amended: for every pair of values `V1`, `V2` (trees of arrays over
integers that a Number holds exactly), `parseMethodResponse` on the response
with the two params `V1` and `V2` reports no error: it calls the callback once
with the error argument false and the decoded `V1` as the value. -/
theorem C5_two_params_first_wins (t1 t2 : Tree) (h1 : t1.Exact) (h2 : t2.Exact) :
    parseMethodResponse (methodResponseDoc [t1.enc, t2.enc]) =
      .ok [(.bool false, t1.toJS)] :=
  Response.response_of_pushes
    (List.Forall₂.cons (Response.pushes_tree t1 h1)
      (List.Forall₂.cons (Response.pushes_tree t2 h2) List.Forall₂.nil))

/-- C5, witness: the params `[7, []]` and `2`. -/
theorem C5_two_params_first_wins_witness :
    (Tree.array [.int 7, .array []]).Exact ∧ (Tree.int 2).Exact ∧
    parseMethodResponse
        (methodResponseDoc [(Tree.array [.int 7, .array []]).enc, (Tree.int 2).enc]) =
      .ok [(.bool false, (Tree.array [.int 7, .array []]).toJS)] :=
  ⟨by simp [Tree.Exact, Tree.ExactList]; decide, by simp [Tree.Exact]; decide,
    C5_two_params_first_wins (.array [.int 7, .array []]) (.int 2)
      (by simp [Tree.Exact, Tree.ExactList]; decide) (by simp [Tree.Exact]; decide)⟩

/-- C6, counterexample: the text `12abc` in an `int` element of a response is
reported as the number 12 with the error argument false, and the text `abc` in
an `i4` param of a call is reported as the Number NaN with a null error. -/
theorem C6_counterexample :
    parseMethodResponse (methodResponseDoc [scalarDoc "int" "12abc"]) =
      .ok [(.bool false, .num (.int 12))] ∧
    parseMethodCall (methodCallDoc "m" [scalarDoc "i4" "abc"]) =
      .ok [(.null, .str "m", .arr [.num .nan])] := by
  decide

/-- C6, amended: for every text `t`, decoding `<int>t</int>` or `<i4>t</i4>`
reports no error.  `parseMethodResponse` calls the callback with the error
argument false and the Number `parseInt(t, 10)`; `parseMethodCall` calls it
with a null error and, when `t` has no hexadecimal start, the same Number as
param, or null when the element has no text.  `parseInt` reads the longest run
of digits after white space and a sign and gives NaN when there is none. -/
theorem C6_integer_text_is_parsed_leniently (tag t m : String)
    (htag : tag = "int" ∨ tag = "i4") (hm : m ≠ "") :
    parseMethodResponse (methodResponseDoc [scalarDoc tag t]) =
      .ok [(.bool false, .num (parseInt t 10))] ∧
    (hexText t = false →
      parseMethodCall (methodCallDoc m [scalarDoc tag t]) =
        .ok [(.null, .str m, .arr [if t = "" then .null else .num (parseInt t 10)])]) := by
  constructor
  · exact Response.response_of_pushes
      (List.Forall₂.cons (Response.pushes_int tag htag t) List.Forall₂.nil)
  · intro hx
    have hf : tag ∈ Call.flatParams := by rcases htag with rfl | rfl <;> decide
    have h2 : Call.flatValue tag t = .ok (if t = "" then .null else .num (parseInt t 10)) := by
      rw [← parseInt_radix_absent t hx]
      rcases htag with rfl | rfl <;> by_cases ht : t = "" <;>
        simp [Call.flatValue, ht, Call.coerce]
    exact Call.call_of_adds hm
      (List.Forall₂.cons (Call.adds_flat tag t _ hf h2) List.Forall₂.nil)

/-- C6, witness: the text `abc` in an `int` element gives NaN in both decoders. -/
theorem C6_integer_text_is_parsed_leniently_witness :
    ("int" = "int" ∨ "int" = "i4") ∧ "m" ≠ "" ∧ hexText "abc" = false ∧
    parseMethodResponse (methodResponseDoc [scalarDoc "int" "abc"]) =
      .ok [(.bool false, .num (parseInt "abc" 10))] ∧
    parseMethodCall (methodCallDoc "m" [scalarDoc "int" "abc"]) =
      .ok [(.null, .str "m", .arr [if "abc" = "" then .null else .num (parseInt "abc" 10)])] ∧
    parseInt "abc" 10 = .nan :=
  ⟨by decide, by decide, by decide,
    (C6_integer_text_is_parsed_leniently "int" "abc" "m" (by decide) (by decide)).1,
    (C6_integer_text_is_parsed_leniently "int" "abc" "m" (by decide) (by decide)).2 (by decide),
    by decide⟩

theorem run_without_methodName (events : List Event)
    (h : ∀ e ∈ events, e ≠ .startElement "methodName") :
    Call.run Call.init events = .ok Call.init := by
  induction events with
  | nil => rfl
  | cons e es ih =>
    have he : Call.step Call.init e = .ok Call.init := by
      cases e with
      | startElement name =>
        have hn : name ≠ "methodName" := fun hn => h _ (List.mem_cons_self _ _) (by rw [hn])
        simp [Call.step, Call.onStartElementNS, Call.init, Call.deserializeMethod, hn]
      | endElement name => rfl
      | characters t => rfl
    rw [Call.call_run_cons, he]
    exact ih (fun e he => h e (List.mem_cons_of_mem _ he))

/-- C7, counterexample: on a method call without a `methodName` element the
callback is never called, so no error is reported; and on a method call whose
`methodName` element has no text the callback is called with a null error and
the text 41 of the first param as the method name. -/
theorem C7_counterexample :
    parseMethodCall (element "methodCall"
        (element "params" (element "param" (element "value" (scalarDoc "i4" "41"))))) =
      .ok [] ∧
    parseMethodCall (methodCallDoc "" [scalarDoc "i4" "41"]) =
      .ok [(.null, .str "41", .arr [])] := by
  decide

/-- C7, amended: for every event stream without a `methodName` start element,
`parseMethodCall` never calls the callback: it reports neither an error nor a
method name. -/
theorem C7_no_methodName_no_callback (events : List Event)
    (h : ∀ e ∈ events, e ≠ .startElement "methodName") :
    parseMethodCall events = .ok [] := by
  rw [parseMethodCall, run_without_methodName events h]
  rfl

/-- C7, witness: a method call that starts with `params`. -/
theorem C7_no_methodName_no_callback_witness :
    (∀ e ∈ element "methodCall" (element "params"
        (element "param" (element "value" (scalarDoc "i4" "41")))),
      e ≠ .startElement "methodName") ∧
    parseMethodCall (element "methodCall" (element "params"
        (element "param" (element "value" (scalarDoc "i4" "41"))))) = .ok [] :=
  ⟨by decide, C7_no_methodName_no_callback _ (by decide)⟩

/-- C8: on the response whose value is `<nil/>` the callback is called with
the frame object of the element, `{name: "nil", values: [], inner_content: []}`,
not with null. -/
theorem C8_nil_is_a_frame_object :
    parseMethodResponse (methodResponseDoc [scalarDoc "nil" ""]) =
      .ok [(.bool false, .obj [("name", .str "nil"), ("values", .arr []),
        ("inner_content", .arr [])])] := by
  decide

theorem forall₂_adds_flat (ps : List (String × String)) (h : ∀ p ∈ ps, p.1 ∈ Call.flatParams) :
    ∀ vs : List JSVal, Call.flatValues ps = .ok vs →
      List.Forall₂ (fun d v => Call.Adds (element "param" (element "value" d)) v)
        (ps.map (fun p => scalarDoc p.1 p.2)) vs := by
  induction ps with
  | nil =>
    intro vs hv
    simp only [Call.flatValues, Except.ok.injEq] at hv
    subst hv
    exact List.Forall₂.nil
  | cons p ps ih =>
    intro vs hv
    simp only [Call.flatValues] at hv
    cases h1 : Call.flatValue p.1 p.2 with
    | error err => simp [h1] at hv
    | ok v =>
      cases h2 : Call.flatValues ps with
      | error err => simp [h1, h2] at hv
      | ok rest =>
        simp only [h1, h2, Except.ok.injEq] at hv
        subst hv
        exact List.Forall₂.cons (Call.adds_flat p.1 p.2 v (h p (List.mem_cons_self _ _)) h1)
          (ih (fun q hq => h q (List.mem_cons_of_mem _ hq)) rest h2)

/-- C9: an empty `string` element (start element, then end element, no
characters event) decodes to the empty string: it is the value
`parseMethodResponse` reports for a response carrying it, and the param
`parseMethodCall` reports for it, at any place among the scalar params of a
call with a method name, when the params before it decode to `vb` and those
after it to `va`.  A param the date decoder is called for is not among them:
the embedding does not follow that call. -/
theorem C9_empty_string_element (m : String) (before after : List (String × String))
    (vb va : List JSVal) (hm : m ≠ "") (hb : ∀ p ∈ before, p.1 ∈ Call.flatParams)
    (ha : ∀ p ∈ after, p.1 ∈ Call.flatParams) (hvb : Call.flatValues before = .ok vb)
    (hva : Call.flatValues after = .ok va) :
    parseMethodResponse
        (methodResponseDoc [[.startElement "string", .endElement "string"]]) =
      .ok [(.bool false, .str "")] ∧
    parseMethodCall (methodCallDoc m
        (before.map (fun p => scalarDoc p.1 p.2) ++
          [[.startElement "string", .endElement "string"]] ++
          after.map (fun p => scalarDoc p.1 p.2))) =
      .ok [(.null, .str m, .arr (vb ++ [.str ""] ++ va))] := by
  constructor
  · decide
  · have h1 := Call.adds_flat "string" "" (.str "") (by decide) (by decide)
    have h2 : List.Forall₂ (fun d v => Call.Adds (element "param" (element "value" d)) v)
        [[Event.startElement "string", Event.endElement "string"]] [JSVal.str ""] :=
      List.Forall₂.cons h1 List.Forall₂.nil
    exact Call.call_of_adds hm
      (List.rel_append (List.rel_append (forall₂_adds_flat before hb vb hvb) h2)
        (forall₂_adds_flat after ha va hva))

/-- C9, witness: the empty string between the params `<i4>41</i4>` and
`<boolean>1</boolean>` of the call named `m`. -/
theorem C9_empty_string_element_witness :
    "m" ≠ "" ∧ (∀ p ∈ [("i4", "41")], p.1 ∈ Call.flatParams) ∧
    (∀ p ∈ [("boolean", "1")], p.1 ∈ Call.flatParams) ∧
    Call.flatValues [("i4", "41")] = .ok [.num (.int 41)] ∧
    Call.flatValues [("boolean", "1")] = .ok [.bool true] ∧
    parseMethodResponse
        (methodResponseDoc [[.startElement "string", .endElement "string"]]) =
      .ok [(.bool false, .str "")] ∧
    parseMethodCall (methodCallDoc "m"
        ([("i4", "41")].map (fun p => scalarDoc p.1 p.2) ++
          [[.startElement "string", .endElement "string"]] ++
          [("boolean", "1")].map (fun p => scalarDoc p.1 p.2))) =
      .ok [(.null, .str "m", .arr ([.num (.int 41)] ++ [.str ""] ++ [.bool true]))] :=
  ⟨by decide, by decide, by decide, by decide, by decide,
    (C9_empty_string_element "m" [("i4", "41")] [("boolean", "1")] [.num (.int 41)]
      [.bool true] (by decide) (by decide) (by decide) (by decide) (by decide)).1,
    (C9_empty_string_element "m" [("i4", "41")] [("boolean", "1")] [.num (.int 41)]
      [.bool true] (by decide) (by decide) (by decide) (by decide) (by decide)).2⟩

/-- C10: on the method call whose one param is the array holding one empty
array, `parseMethodCall` reports no param at all: the callback gets the params
`[]`, not `[[[]]]`.  With a further param 5 the callback still gets `[]`. -/
theorem C10_empty_array_param_lost :
    parseMethodCall (methodCallDoc "m" [(Tree.array [.array []]).enc]) =
      .ok [(.null, .str "m", .arr [])] ∧
    parseMethodCall (methodCallDoc "m" [(Tree.array [.array []]).enc, (Tree.int 5).enc]) =
      .ok [(.null, .str "m", .arr [])] := by
  decide


/-! ## Text between the elements of a method call -/

namespace Call

theorem run_chars_ignore (s : CallState) (h : s.onCharacters = .ignore) (g : List String) :
    run s (chunkedText g) = .ok s := by
  induction g with
  | nil => rfl
  | cons c cs ih =>
    rw [chunkedText, List.map_cons, call_run_cons]
    simp only [step, onCharacters, h, Except.bind]
    exact ih

theorem run_chars_unset (s : CallState) (h : s.onCharacters = .unset) (g : List String) :
    run s (chunkedText g) = .ok s := by
  induction g with
  | nil => rfl
  | cons c cs ih =>
    rw [chunkedText, List.map_cons, call_run_cons]
    simp only [step, onCharacters, h, Except.bind]
    exact ih

theorem run_spacedParam (g : ParamGaps) (tag t : String) (h : tag ∈ flatParams)
    (m : String) (ps : List JSVal) (cells : List Cell) :
    run (ready m ps cells) (spacedParam g tag t) =
      (flatValue tag t).bind (fun v => .ok (ready m (ps ++ [v]) cells)) := by
  have hv : ("value" ∈ flatParams) = False := by decide
  by_cases ht : t = ""
  · subst ht
    simp [spacedParam, element, scalarDoc, text, call_run_cons, call_run_nil, call_run_append,
      run_chars_ignore, step, onStartElementNS, onEndElementNS, ready, Except.bind, hv, h, fire,
      resetListeners, flatValue, deserializeParam]
  · cases hc : coerce tag t with
    | error err =>
      simp [spacedParam, element, scalarDoc, text, ht, call_run_cons, call_run_nil,
        call_run_append, run_chars_ignore, step, onStartElementNS, onEndElementNS, onCharacters,
        ready, Except.bind, hv, h, flatValue, deserializeParam, hc]
    | ok v =>
      simp [spacedParam, element, scalarDoc, text, ht, call_run_cons, call_run_nil,
        call_run_append, run_chars_ignore, step, onStartElementNS, onEndElementNS, onCharacters,
        ready, Except.bind, hv, h, fire, resetListeners, flatValue, deserializeParam, hc]

theorem run_spacedParams (params : List (ParamGaps × String × String))
    (h : ∀ p ∈ params, p.2.1 ∈ flatParams) :
    ∀ (m : String) (ps : List JSVal) (cells : List Cell),
      run (ready m ps cells) (params.flatMap (fun p => spacedParam p.1 p.2.1 p.2.2)) =
        (flatValues (params.map Prod.snd)).bind (fun vs => .ok (ready m (ps ++ vs) cells)) := by
  induction params with
  | nil => intro m ps cells; simp [call_run_nil, flatValues, Except.bind]
  | cons p rest ih =>
    intro m ps cells
    have h1 := run_spacedParam p.1 p.2.1 p.2.2 (h p (List.mem_cons_self _ _)) m ps cells
    simp only [List.flatMap_cons, call_run_append, h1, List.map_cons, flatValues]
    cases hv : flatValue p.2.1 p.2.2 with
    | error err => rfl
    | ok v =>
      have h2 := ih (fun q hq => h q (List.mem_cons_of_mem _ hq)) m (ps ++ [v]) cells
      simp only [Except.bind, h2]
      cases flatValues (rest.map Prod.snd) with
      | error err => rfl
      | ok vs => simp

theorem run_spacedHead (m : String) (hm : m ≠ "") (e : EnvelopeGaps) :
    run init (chunkedText e.beforeCall ++ ([.startElement "methodCall"] ++
      (chunkedText e.afterCallStart ++ (element "methodName" (text m) ++
        (chunkedText e.afterMethodName ++ ([.startElement "params"] ++
          chunkedText e.afterParamsStart)))))) = .ok (ready m [] []) := by
  simp [call_run_cons, call_run_nil, call_run_append, run_chars_ignore, run_chars_unset, element,
    text, hm, step, onStartElementNS, onEndElementNS, onCharacters, init, ready, Except.bind,
    resetListeners, deserializeMethod, deserializeParams]

theorem run_spacedTail (m : String) (ps : List JSVal) (cells : List Cell) (e : EnvelopeGaps) :
    run (ready m ps cells) ([.endElement "params"] ++ (chunkedText e.afterParamsEnd ++
      ([.endElement "methodCall"] ++ chunkedText e.afterCallEnd))) =
      .ok (ready m ps cells) := by
  simp [call_run_cons, call_run_nil, call_run_append, run_chars_ignore, step, onEndElementNS,
    ready, Except.bind]

theorem spacedCallDoc_eq (m : String) (e : EnvelopeGaps)
    (params : List (ParamGaps × String × String)) :
    spacedCallDoc m e params =
      (chunkedText e.beforeCall ++ ([.startElement "methodCall"] ++
        (chunkedText e.afterCallStart ++ (element "methodName" (text m) ++
          (chunkedText e.afterMethodName ++ ([.startElement "params"] ++
            chunkedText e.afterParamsStart)))))) ++
      (params.flatMap (fun p => spacedParam p.1 p.2.1 p.2.2) ++
        ([.endElement "params"] ++ (chunkedText e.afterParamsEnd ++
          ([.endElement "methodCall"] ++ chunkedText e.afterCallEnd)))) := by
  simp [spacedCallDoc, element, List.append_assoc]

/-- A call with a method name and flat params, with or without text between
the elements of its envelope, reports the name and what the params decode to,
once, with a null error; or it ends with the error of the first param whose
decoding throws. -/
theorem call_flat (m : String) (hm : m ≠ "") (e : EnvelopeGaps)
    (params : List (ParamGaps × String × String))
    (hp : ∀ p ∈ params, p.2.1 ∈ flatParams) :
    parseMethodCall (spacedCallDoc m e params) =
      (flatValues (params.map Prod.snd)).bind
        (fun vs => .ok [(.null, .str m, .arr vs)]) := by
  rw [parseMethodCall, spacedCallDoc_eq, call_run_append, run_spacedHead m hm e]
  simp only [Except.bind, bind]
  rw [call_run_append, run_spacedParams params hp]
  cases flatValues (params.map Prod.snd) with
  | error err => rfl
  | ok vs =>
    simp only [Except.bind, List.nil_append, run_spacedTail]
    simp [onEndDocument, ready, pure, Except.pure]

theorem methodCallDoc_eq_spaced (m : String) (ps : List (String × String)) :
    methodCallDoc m (ps.map (fun p => scalarDoc p.1 p.2)) =
      spacedCallDoc m EnvelopeGaps.none (ps.map (fun p => (ParamGaps.none, p))) := by
  have e : ∀ l : List (String × String),
      (l.map (fun p => scalarDoc p.1 p.2)).flatMap
          (fun v => element "param" (element "value" v)) =
        (l.map (fun p => (ParamGaps.none, p))).flatMap
          (fun p => spacedParam p.1 p.2.1 p.2.2) := by
    intro l
    induction l with
    | nil => rfl
    | cons p l ih =>
      simp only [List.map_cons, List.flatMap_cons, ih]
      simp [spacedParam, ParamGaps.none, chunkedText]
  simp [methodCallDoc, spacedCallDoc, EnvelopeGaps.none, chunkedText, e]

end Call

/-! ## The stack of `parseMethodResponse` on well-nested streams -/

namespace Response

theorem names_modify (stack : List Frame) (chars : String) (i : Nat) :
    (stack.modify (fun f => { f with inner_content := f.inner_content ++ [chars] }) i).map
      Frame.name = stack.map Frame.name := by
  induction stack generalizing i with
  | nil => cases i <;> rfl
  | cons f fs ih =>
    cases i with
    | zero => rfl
    | succ j => simp only [List.modify_succ_cons, List.map_cons, ih]

theorem stack_of_names {stack : List Frame} {n : String} {rest : List String}
    (h : stack.map Frame.name = (n :: rest) ++ ["root"]) :
    ∃ last top below, stack = last :: top :: below ∧ last.name = n ∧
      (top :: below).map Frame.name = rest ++ ["root"] := by
  match stack, h with
  | last :: top :: below, h =>
    simp only [List.map_cons, List.cons_append, List.cons.injEq] at h
    exact ⟨last, top, below, rfl, h.1, by simp only [List.map_cons]; exact h.2⟩
  | [last], h =>
    simp only [List.map_cons, List.map_nil, List.cons_append, List.cons.injEq] at h
    have h2 := h.2
    cases rest <;> simp at h2

theorem tracks_open_elements : ∀ (events : List Event) (opened : List String)
    (s : ResponseState), s.stack.map Frame.name = opened ++ ["root"] →
    s.current_raw_value = s.stack.length - 1 → ∀ (opened2 : List String) (s2 : ResponseState),
    openElements opened events = some opened2 → run s events = .ok s2 →
    s2.stack.map Frame.name = opened2 ++ ["root"] ∧
      s2.current_raw_value = s2.stack.length - 1 := by
  intro events
  induction events with
  | nil =>
    intro opened s hn hc opened2 s2 ho hr
    simp only [openElements, Option.some.injEq] at ho
    simp only [run_nil, Except.ok.injEq] at hr
    subst ho; subst hr
    exact ⟨hn, hc⟩
  | cons e es ih =>
    intro opened s hn hc opened2 s2 ho hr
    rw [run_cons] at hr
    cases e with
    | startElement name =>
      simp only [openElements] at ho
      simp only [step, Except.bind] at hr
      refine ih (name :: opened) (onStartElementNS name s) ?_ ?_ opened2 s2 ho hr
      · simp [onStartElementNS, hn]
      · simp [onStartElementNS]
    | characters chars =>
      simp only [openElements] at ho
      have hlen : s.current_raw_value < s.stack.length := by
        have : s.stack.length = opened.length + 1 := by
          have := congrArg List.length hn
          simpa using this
        omega
      simp only [step, onCharacters, hlen, if_true, Except.bind] at hr
      refine ih opened _ ?_ ?_ opened2 s2 ho hr
      · simp only [names_modify, hn]
      · simp [hc]
    | endElement name =>
      cases opened with
      | nil => simp [openElements] at ho
      | cons innermost outer =>
        simp only [openElements] at ho
        split at ho
        · obtain ⟨last, top, below, hs, _, hrest⟩ := stack_of_names hn
          simp only [step, onEndElementNS, hs, bind, Except.bind, pure, Except.pure] at hr
          cases hconv : convert last.toVal with
          | error err => simp [hconv] at hr
          | ok v =>
            simp only [hconv] at hr
            refine ih outer _ ?_ ?_ opened2 s2 ho hr
            · simpa using hrest
            · simp
        · simp at ho

end Response

/-! ## `parseMethodResponse`: text between the elements -/

namespace Response

theorem grow_nil (f : Frame) : f.grow [] [] = f := by
  cases f
  simp [Frame.grow]

theorem grow_grow (f : Frame) (va vb : List JSVal) (ta tb : List String) :
    (f.grow va ta).grow vb tb = f.grow (va ++ vb) (ta ++ tb) := by
  simp [Frame.grow, List.append_assoc]

theorem yields_congr {events : List Event} {r r2 : JS (List JSVal)} {ts ts2 : List String}
    (h : Yields events r ts) (hr : r = r2) (ht : ts = ts2) : Yields events r2 ts2 := by
  subst hr; subst ht; exact h

theorem yields_chars (g : List String) : Yields (chunkedText g) (.ok []) g := by
  induction g with
  | nil =>
    intro top below
    simp [chunkedText, run_nil, grow_nil]
  | cons c cs ih =>
    intro top below
    have h := ih { top with inner_content := top.inner_content ++ [c] } below
    simp only [chunkedText, List.map_cons, run_cons, step, onCharacters, atTop, List.length_cons,
      Nat.add_sub_cancel, Nat.lt_succ_self, if_true, Nat.sub_self, List.modify_zero_cons,
      Except.bind] at h ⊢
    rw [h]
    simp [Frame.grow, List.append_assoc]

theorem yields_append {a b : List Event} {ra rb : JS (List JSVal)} {ta tb : List String}
    (ha : Yields a ra ta) (hb : Yields b rb tb) : Yields (a ++ b) (both ra rb) (ta ++ tb) := by
  intro top below
  rw [run_append, ha top below]
  cases ra with
  | error err => rfl
  | ok va =>
    simp only [Except.bind]
    rw [hb (top.grow va ta) below]
    cases rb with
    | error err => rfl
    | ok vb => simp only [both, grow_grow]

theorem yields_element {tag : String} {inner : List Event} {r : JS (List JSVal)}
    {ts : List String} (hinner : Yields inner r ts) :
    Yields (element tag inner) (closeElement tag r ts) [] := by
  intro top below
  simp only [element, run_cons, step, Except.bind, onStartElementNS]
  have h := hinner { name := tag, values := [], inner_content := [] } (top :: below)
  simp only [atTop, List.length_cons, Nat.add_sub_cancel] at h ⊢
  rw [run_append, h]
  cases r with
  | error err => rfl
  | ok vs =>
    simp only [Except.bind, run_cons, step, onEndElementNS, Frame.grow, List.nil_append, bind,
      closeElement]
    cases convert (Frame.toVal { name := tag, values := vs, inner_content := ts }) with
    | error err => rfl
    | ok v =>
      simp only [run_nil, pure, Except.pure, List.append_nil, List.length_cons,
        Nat.add_sub_cancel]

theorem yields_between {inner : List Event} {r : JS (List JSVal)} (g1 g2 : List String)
    (h : Yields inner r []) : Yields (chunkedText g1 ++ inner ++ chunkedText g2) r (g1 ++ g2) := by
  refine yields_congr (yields_append (yields_append (yields_chars g1) h) (yields_chars g2)) ?_ ?_
  · cases r <;> simp [both]
  · simp

theorem scalarBranches_tag (tag : String) (vs : List JSVal) (ts : List String)
    (h : tag ∉ ["string", "boolean", "int", "i4", "double", "dateTime.iso8601"]) :
    scalarBranches (Frame.toVal { name := tag, values := vs, inner_content := ts }) =
      .ok (Frame.toVal { name := tag, values := vs, inner_content := ts }) := by
  simp only [List.mem_cons, List.mem_singleton, not_or, List.mem_nil_iff, not_false_eq_true,
    and_true] at h
  obtain ⟨h1, h2, h3, h4, h5, h6⟩ := h
  have e : ∀ n, tag ≠ n →
      (Frame.toVal { name := tag, values := vs, inner_content := ts }).nameIs n = .ok false := by
    intro n hn; rw [nameIs_frame]; simp [hn]
  exact scalarBranches_skip (e _ h1) (e _ h2) (e _ h3) (e _ h4) (e _ h5) (e _ h6)

theorem convert_tag (tag : String) (vs : List JSVal) (ts : List String)
    (h : tag ∉ ["string", "boolean", "int", "i4", "double", "dateTime.iso8601", "array",
      "params", "struct", "data"]) :
    convert (Frame.toVal { name := tag, values := vs, inner_content := ts }) =
      .ok (Frame.toVal { name := tag, values := vs, inner_content := ts }) :=
  convert_plain _ h

theorem yields_valueElement (keep : Bool) (g : ValueGaps) {inner : List Event} {r : JS JSVal}
    (h : Yields inner (single r) []) :
    Yields (spacedValueElement keep g inner)
      (inValue r (kept keep g.before ++ kept keep g.after)) [] := by
  refine yields_congr (yields_element (yields_between _ _ h)) ?_ rfl
  cases r with
  | error err => rfl
  | ok v =>
    simp only [single, closeElement, inValue]
    rw [convert_tag "value" _ _ (by decide)]
    rfl

theorem pushValue_valueFrame (acc : List JSVal) (r : JSVal) (ts : List String) :
    pushValue acc (valueFrame r ts) = .ok (acc ++ [r]) := by
  simp only [pushValue, valueFrame, nameIs_frame, getValues_frame, bind, Except.bind, pure,
    Except.pure, decide_True, if_true, JSVal.getIndex, List.getD_cons_zero]

theorem foldlM_pushValue_frames (keep : Bool) : ∀ (items : SpacedItems) (acc : List JSVal),
    (items.frames keep).bind (fun fs => fs.foldlM pushValue acc) =
      items.sem.bind (fun rs => .ok (acc ++ rs))
  | .done gap, acc => by
    simp [SpacedItems.frames, SpacedItems.sem, Except.bind, pure, Except.pure]
  | .item gap g v rest, acc => by
    simp only [SpacedItems.frames, SpacedItems.sem]
    cases hv : v.sem with
    | error err => rfl
    | ok r =>
      have ih := foldlM_pushValue_frames keep rest (acc ++ [r])
      cases hf : rest.frames keep with
      | error err =>
        simp only [hf, Except.bind] at ih
        cases hs : rest.sem with
        | error err2 => simp only [hs] at ih; simp only [Except.bind, ih]
        | ok rs => simp [hs] at ih
      | ok fs =>
        simp only [hf, Except.bind] at ih
        simp only [Except.bind, List.foldlM_cons, pushValue_valueFrame, bind, ih]
        cases hs : rest.sem with
        | error err2 => rfl
        | ok rs => simp

theorem convert_dataFrame (fs : List JSVal) (ts : List String) :
    convert (Frame.toVal { name := "data", values := fs, inner_content := ts }) =
      (fs.foldlM pushValue []).bind (fun rs => .ok (.arr rs)) := by
  simp only [convert, scalarBranches_tag "data" fs ts (by decide), bind, Except.bind]
  rw [arrayBranch_skip (by rw [nameIs_frame]; rfl)]
  simp only []
  rw [paramsBranch_skip (by rw [nameIs_frame]; rfl)]
  simp only []
  rw [structBranch_skip (by rw [nameIs_frame]; rfl)]
  simp only [dataBranch, nameIs_frame, getValues_frame, bind, Except.bind, pure, Except.pure,
    decide_True, if_true, JSVal.elements]

theorem convert_arrayFrame (rs : List JSVal) (ts : List String) :
    convert (Frame.toVal { name := "array", values := [.arr rs], inner_content := ts }) =
      .ok (.arr rs) := by
  refine convert_eq (c := .arr rs) (scalarBranches_tag "array" _ _ (by decide)) ?_
    (paramsBranch_skip (nameIs_arr _ _)) (structBranch_skip (nameIs_arr _ _))
    (dataBranch_skip (nameIs_arr _ _))
  simp only [arrayBranch, nameIs_frame, getValues_frame, bind, Except.bind, pure,
    Except.pure, decide_True, if_true, JSVal.getIndex, List.getD_cons_zero]

theorem foldl_accumulated (name : List String) :
    List.foldl (fun r s => r ++ s) "" name = accumulated name := rfl

theorem structStep_memberFrame (acc : List (String × JSVal)) (name : List String) (r : JSVal)
    (vts mts : List String) :
    structStep acc (memberFrame name r vts mts) = setProp acc (accumulated name) r := by
  simp only [structStep, memberFrame, valueFrame, nameIs_frame, getValues_frame, bind,
    Except.bind, pure, Except.pure, decide_True, if_true, JSVal.elements, List.foldlM_cons,
    List.foldlM_nil, memberStep, innerText_frame, JSVal.getIndex, List.getD_cons_zero,
    propertyKey, foldl_accumulated]
  rfl

theorem frames_error (keep : Bool) : ∀ (members : SpacedMembers),
    (members.frames keep).bind (fun _ => .ok ()) = members.sem.bind (fun _ => .ok ())
  | .done gap => rfl
  | .member gap g name vg v rest => by
    have ih := frames_error keep rest
    simp only [SpacedMembers.frames, SpacedMembers.sem]
    cases hv : v.sem with
    | error err => rfl
    | ok r =>
      cases hf : rest.frames keep <;> cases hs : rest.sem <;>
        simp_all [Except.bind]

theorem foldlM_structStep_frames (keep : Bool) :
    ∀ (members : SpacedMembers) (acc : List (String × JSVal)),
    (members.frames keep).bind (fun fs => fs.foldlM structStep acc) =
      members.sem.bind (fun ms => ms.foldlM (fun acc m => setProp acc m.1 m.2) acc)
  | .done gap, acc => by
    simp [SpacedMembers.frames, SpacedMembers.sem, Except.bind, pure, Except.pure]
  | .member gap g name vg v rest, acc => by
    have he := frames_error keep rest
    simp only [SpacedMembers.frames, SpacedMembers.sem]
    cases hv : v.sem with
    | error err => rfl
    | ok r =>
      cases hf : rest.frames keep with
      | error err =>
        cases hs : rest.sem with
        | error err2 =>
          simp only [hf, hs, Except.bind, Except.error.injEq] at he
          simp only [Except.bind, he]
        | ok ms => simp [hf, hs, Except.bind] at he
      | ok fs =>
        cases hs : rest.sem with
        | error err2 => simp [hf, hs, Except.bind] at he
        | ok ms =>
          simp only [Except.bind, List.foldlM_cons, structStep_memberFrame, bind]
          cases hp : setProp acc (accumulated name) r with
          | error e => rfl
          | ok props =>
            have ih := foldlM_structStep_frames keep rest props
            simp only [hf, hs, Except.bind] at ih
            exact ih

theorem convert_structFrame (fs : List JSVal) (ts : List String) :
    convert (Frame.toVal { name := "struct", values := fs, inner_content := ts }) =
      (fs.foldlM structStep []).bind (fun props => dataBranch (.obj props)) := by
  simp only [convert, scalarBranches_tag "struct" fs ts (by decide), bind, Except.bind]
  rw [arrayBranch_skip (by rw [nameIs_frame]; rfl)]
  simp only []
  rw [paramsBranch_skip (by rw [nameIs_frame]; rfl)]
  simp only [structBranch, nameIs_frame, getValues_frame, bind, Except.bind, pure, Except.pure,
    decide_True, if_true, JSVal.elements]
  cases fs.foldlM structStep [] <;> rfl

end Response

namespace Response

theorem data_result (keep : Bool) (items : SpacedItems) (ts : List String) :
    closeElement "data" (items.frames keep) ts =
      items.sem.bind (fun rs => .ok [.arr rs]) := by
  have h := foldlM_pushValue_frames keep items []
  cases hf : items.frames keep with
  | error err =>
    cases hs : items.sem with
    | error err2 =>
      simp only [hf, hs, Except.bind, Except.error.injEq] at h
      simp only [h, closeElement, Except.bind]
    | ok rs => simp [hf, hs, Except.bind] at h
  | ok fs =>
    simp only [hf, Except.bind] at h
    simp only [closeElement, convert_dataFrame, h]
    cases hs : items.sem with
    | error err2 => rfl
    | ok rs => simp [Except.bind]

theorem struct_result (keep : Bool) (members : SpacedMembers) (ts : List String) :
    closeElement "struct" (members.frames keep) ts =
      single (SpacedValue.sem (.struct members)) := by
  have h := foldlM_structStep_frames keep members []
  have he := frames_error keep members
  simp only [SpacedValue.sem]
  cases hf : members.frames keep with
  | error err =>
    cases hs : members.sem with
    | error err2 =>
      simp only [hf, hs, Except.bind, Except.error.injEq] at he
      simp only [he, single, closeElement]
    | ok ms => simp [hf, hs, Except.bind] at he
  | ok fs =>
    simp only [hf, Except.bind] at h
    simp only [closeElement, convert_structFrame, h]
    cases hs : members.sem with
    | error err2 => rfl
    | ok ms =>
      simp only [Except.bind]
      cases ms.foldlM (fun acc m => setProp acc m.1 m.2) [] with
      | error err3 => rfl
      | ok props =>
        simp only [single]

mutual
theorem yields_value (keep : Bool) : ∀ v : SpacedValue, Yields (v.enc keep) (single v.sem) []
  | .scalar tag chunks => by
    refine yields_congr (@yields_element tag _ _ _ (yields_chars chunks)) ?_ rfl
    simp only [SpacedValue.sem, single, closeElement]
  | .array b items a => by
    have hd := yields_congr (@yields_element "data" _ _ _ (yields_items keep items))
      (data_result keep items _) rfl
    refine yields_congr
      (@yields_element "array" _ _ _ (yields_between (kept keep b) (kept keep a) hd)) ?_ rfl
    simp only [SpacedValue.sem, single]
    cases items.sem with
    | error err => rfl
    | ok rs => simp only [Except.bind, closeElement, convert_arrayFrame]
  | .struct members => by
    exact yields_congr (@yields_element "struct" _ _ _ (yields_members keep members))
      (struct_result keep members _) rfl
theorem yields_items (keep : Bool) : ∀ items : SpacedItems,
    Yields (items.enc keep) (items.frames keep) (items.gaps keep)
  | .done gap => yields_chars _
  | .item gap g v rest => by
    refine yields_congr
      (yields_append (yields_append (yields_chars (kept keep gap))
        (yields_valueElement keep g (yields_value keep v))) (yields_items keep rest)) ?_ ?_
    · simp only [SpacedItems.frames]
      cases v.sem with
      | error err => rfl
      | ok r => cases SpacedItems.frames keep rest <;> rfl
    · simp [SpacedItems.gaps]
theorem yields_members (keep : Bool) : ∀ members : SpacedMembers,
    Yields (members.enc keep) (members.frames keep) (members.gaps keep)
  | .done gap => yields_chars _
  | .member gap g name vg v rest => by
    have hn : Yields (element "name" (chunkedText name))
        (.ok [Frame.toVal { name := "name", values := [], inner_content := name }]) [] := by
      refine yields_congr (@yields_element "name" _ _ _ (yields_chars name)) ?_ rfl
      simp only [closeElement, convert_tag "name" _ _ (by decide)]
    have hm := @yields_element "member" _ _ _
      (yields_append (yields_append (yields_append (yields_append
        (yields_chars (kept keep g.beforeName)) hn) (yields_chars (kept keep g.afterName)))
        (yields_valueElement keep vg (yields_value keep v)))
        (yields_chars (kept keep g.afterValue)))
    refine yields_congr
      (yields_append (yields_append (yields_chars (kept keep gap)) hm) (yields_members keep rest))
      ?_ ?_
    · simp only [SpacedMembers.frames]
      cases v.sem with
      | error err => rfl
      | ok r =>
        simp only [both, inValue, closeElement, List.nil_append, List.append_nil,
          List.singleton_append, convert_tag "member" _ _ (by decide)]
        cases SpacedMembers.frames keep rest <;> rfl
    · simp [SpacedMembers.gaps]
end

end Response

namespace Response

theorem convert_paramsFrame (r : JSVal) (vts pts ts : List String) :
    convert (Frame.toVal
      { name := "params", values := [paramFrame r vts pts], inner_content := ts }) =
      .ok (.arr [r]) := by
  refine convert_eq (d := .arr [r]) (scalarBranches_tag "params" _ _ (by decide))
    (arrayBranch_skip (by rw [nameIs_frame]; rfl)) ?_
    (structBranch_skip (nameIs_arr _ _)) (dataBranch_skip (nameIs_arr _ _))
  simp only [paramsBranch, pushParam, paramFrame, nameIs_frame, getValues_frame, bind,
    Except.bind, pure, Except.pure, decide_True, if_true, JSVal.elements, List.foldlM_cons,
    List.foldlM_nil, pushValue_valueFrame, List.nil_append]

theorem init_eq_atTop :
    ResponseState.init = atTop [{ name := "root", values := [], inner_content := [] }] := rfl

theorem endDocument_response (values : List JSVal) (ts : List String) :
    onEndDocument (atTop [Frame.grow { name := "root", values := [], inner_content := [] }
      [Frame.toVal { name := "methodResponse", values := values, inner_content := ts }] []]) =
      ((values.getD 0 .undefined).getIndex 0).bind (fun v => .ok (.bool false, v)) := by
  simp only [onEndDocument, atTop, List.getLast?_singleton, getValues_frame, bind, Except.bind,
    Frame.grow, List.nil_append]
  rfl

/-- The response with the one param `v` reports what the elements of `v`
decode to, with or without the inserted texts. -/
theorem spaced_response (keep : Bool) (e : ResponseGaps) (v : SpacedValue) :
    parseMethodResponse (spacedResponseDoc keep e v) =
      v.sem.bind (fun r => .ok [(.bool false, r)]) := by
  have h := @yields_element "methodResponse" _ _ _
    (yields_between (kept keep e.afterResponseStart) (kept keep e.afterParamsEnd)
      (@yields_element "params" _ _ _
        (yields_between (kept keep e.afterParamsStart) (kept keep e.afterParamEnd)
          (@yields_element "param" _ _ _
            (yields_between (kept keep e.afterParamStart) (kept keep e.afterValueEnd)
              (yields_valueElement keep e.inValue (yields_value keep v)))))))
  have h2 := h { name := "root", values := [], inner_content := [] } []
  rw [← init_eq_atTop] at h2
  simp only [parseMethodResponse, spacedResponseDoc, h2, bind]
  cases v.sem with
  | error err => rfl
  | ok r =>
    have hp := convert_paramsFrame r (kept keep e.inValue.before ++ kept keep e.inValue.after)
      (kept keep e.afterParamStart ++ kept keep e.afterValueEnd)
      (kept keep e.afterParamsStart ++ kept keep e.afterParamEnd)
    rw [paramFrame] at hp
    simp only [inValue, closeElement, convert_tag "param" _ _ (by decide), hp,
      convert_tag "methodResponse" _ _ (by decide), Except.bind, endDocument_response]
    rfl

/-- The fault response carrying `v` reports undefined, with or without the
inserted texts, unless the elements of `v` make the handler throw. -/
theorem spaced_fault (keep : Bool) (e : FaultGaps) (v : SpacedValue) :
    parseMethodResponse (spacedFaultDoc keep e v) =
      v.sem.bind (fun _ => .ok [(.bool false, .undefined)]) := by
  have h := @yields_element "methodResponse" _ _ _
    (yields_between (kept keep e.afterResponseStart) (kept keep e.afterFaultEnd)
      (@yields_element "fault" _ _ _
        (yields_valueElement keep e.inValue (yields_value keep v))))
  have h2 := h { name := "root", values := [], inner_content := [] } []
  rw [← init_eq_atTop] at h2
  simp only [parseMethodResponse, spacedFaultDoc, h2, bind]
  cases v.sem with
  | error err => rfl
  | ok r =>
    simp only [inValue, closeElement, convert_tag "fault" _ _ (by decide),
      convert_tag "methodResponse" _ _ (by decide), Except.bind, endDocument_response]
    rfl

theorem spacedResponseDoc_plain (e : ResponseGaps) (v : SpacedValue) :
    spacedResponseDoc false e v = methodResponseDoc [v.enc false] := by
  simp [spacedResponseDoc, methodResponseDoc, spacedValueElement, kept, chunkedText]

theorem spacedFaultDoc_plain (e : FaultGaps) (v : SpacedValue) :
    spacedFaultDoc false e v = faultDoc (v.enc false) := by
  simp [spacedFaultDoc, faultDoc, spacedValueElement, kept, chunkedText]

end Response

/-! ## The common value grammar: `parseMethodResponse` -/

namespace Response

theorem numericProps_iff (props : List (String × JSVal)) :
    JSVal.numericProps props = true ↔ ∀ q ∈ props, q.2.numeric = true := by
  induction props with
  | nil => simp [JSVal.numericProps]
  | cons p rest ih => simp [JSVal.numericProps, ih]

theorem numeric_of_lookup {props : List (String × JSVal)} {key : String} {x : JSVal}
    (h : JSVal.numericProps props = true) (hl : props.lookup key = some x) :
    x.numeric = true := by
  obtain ⟨l1, l2, rfl, _⟩ := List.lookup_eq_some_iff.mp hl
  exact (numericProps_iff _).mp h (key, x) (by simp)

mutual
theorem getField_numeric : ∀ (v : JSVal), v.numeric = true → ∀ key : String, key ≠ "values" →
    ∃ x, v.getField key = .ok x ∧ (x = .undefined ∨ x.numeric = true)
  | .num n, _, key, _ => ⟨.undefined, rfl, Or.inl rfl⟩
  | .arr items, _, key, hk => ⟨.undefined, by simp [JSVal.getField, hk], Or.inl rfl⟩
  | .obj props, h, key, hk => by
    simp only [JSVal.numeric] at h
    simp only [JSVal.getField]
    cases hl : props.lookup key with
    | some x => exact ⟨x, rfl, Or.inr (numeric_of_lookup h hl)⟩
    | none => exact protoField_numeric props h key hk
  | .undefined, h, _, _ => by simp [JSVal.numeric] at h
  | .null, h, _, _ => by simp [JSVal.numeric] at h
  | .bool _, h, _, _ => by simp [JSVal.numeric] at h
  | .double _, h, _, _ => by simp [JSVal.numeric] at h
  | .str _, h, _, _ => by simp [JSVal.numeric] at h
  | .date _, h, _, _ => by simp [JSVal.numeric] at h
theorem protoField_numeric : ∀ (props : List (String × JSVal)),
    JSVal.numericProps props = true → ∀ key : String, key ≠ "values" →
    ∃ x, protoField props key = .ok x ∧ (x = .undefined ∨ x.numeric = true)
  | [], _, key, _ => ⟨.undefined, by simp [protoField], Or.inl rfl⟩
  | p :: rest, h, key, hk => by
    simp only [JSVal.numericProps, Bool.and_eq_true] at h
    rw [protoField]
    by_cases hp : p.1 = "__proto__"
    · simp only [hp, if_true]
      by_cases ho : p.2.isObject = true
      · simp only [ho, if_true]
        exact getField_numeric p.2 h.1 key hk
      · simp only [ho, Bool.false_eq_true, if_false]
        exact ⟨.undefined, rfl, Or.inl rfl⟩
    · simp only [hp, if_false]
      exact protoField_numeric rest h.2 key hk
end

theorem nameIs_numeric {v : JSVal} (h : v.numeric = true) (k : String) :
    v.nameIs k = .ok false := by
  obtain ⟨x, hx, hn⟩ := getField_numeric v h "name" (by decide)
  simp only [JSVal.nameIs, hx]
  rcases hn with rfl | hn
  · rfl
  · cases x <;> simp [JSVal.numeric] at hn ⊢

theorem setProp_numeric (props : List (String × JSVal)) (key : String) {v : JSVal}
    (h : v.numeric = true) : setProp props key v = .ok (putProp props key v) := by
  cases v <;> simp [JSVal.numeric] at h <;>
    by_cases hk : key = "__proto__" <;> simp [setProp, putProp, hk, JSVal.isObject]

theorem numericProps_putProp {props : List (String × JSVal)} {key : String} {v : JSVal}
    (hp : JSVal.numericProps props = true) (hv : v.numeric = true) :
    JSVal.numericProps (putProp props key v) = true := by
  have ha : JSVal.numericProps (assignProp props key v) = true := by
    rw [numericProps_iff] at hp ⊢
    intro q hq
    rcases value_of_mem_assignProp hq with h1 | h1
    · exact hp q h1
    · rw [h1]; exact hv
  unfold putProp
  split
  · split
    · exact ha
    · exact hp
  · exact ha

mutual
theorem toJS_numeric : ∀ v : Val, v.toJS.numeric = true
  | .int n => rfl
  | .array items => by
    simp only [Val.toJS, JSVal.numeric]
    exact toJSList_numeric items
  | .struct members => by
    simp only [Val.toJS, JSVal.numeric]
    exact toProps_numeric members [] rfl
theorem toJSList_numeric : ∀ items : Vals, JSVal.numericList items.toJS = true
  | .nil => rfl
  | .cons v rest => by
    simp only [Vals.toJS, JSVal.numericList, Bool.and_eq_true]
    exact ⟨toJS_numeric v, toJSList_numeric rest⟩
theorem toProps_numeric : ∀ (members : Members) (props : List (String × JSVal)),
    JSVal.numericProps props = true → JSVal.numericProps (members.toProps props) = true
  | .nil, props, h => h
  | .cons name v rest, props, h => by
    simp only [Members.toProps]
    exact toProps_numeric rest _ (numericProps_putProp h (toJS_numeric v))
end

mutual
theorem enc_spaced : ∀ v : Val, v.wellFormed = true → v.spaced.enc false = v.enc
  | .int n, _ => by
    simp [Val.spaced, SpacedValue.enc, Val.enc, chunkedText, text, toString_int_ne_empty]
  | .array items, h => by
    simp only [Val.wellFormed, Bool.and_eq_true] at h
    simp [Val.spaced, SpacedValue.enc, Val.enc, chunkedText, kept, encItems_spaced items h.2]
  | .struct members, h => by
    simp only [Val.wellFormed, Bool.and_eq_true] at h
    simp [Val.spaced, SpacedValue.enc, Val.enc, encMembers_spaced members h.2]
theorem encItems_spaced : ∀ items : Vals, items.wellFormed = true →
    items.spaced.enc false = items.enc
  | .nil, _ => by simp [Vals.spaced, SpacedItems.enc, Vals.enc, chunkedText, kept]
  | .cons v rest, h => by
    simp only [Vals.wellFormed, Bool.and_eq_true] at h
    simp [Vals.spaced, SpacedItems.enc, Vals.enc, chunkedText, kept, spacedValueElement,
      enc_spaced v h.1, encItems_spaced rest h.2]
theorem encMembers_spaced : ∀ members : Members, members.wellFormed = true →
    members.spaced.enc false = members.enc
  | .nil, _ => by simp [Members.spaced, SpacedMembers.enc, Members.enc, chunkedText, kept]
  | .cons name v rest, h => by
    simp only [Members.wellFormed, Bool.and_eq_true, decide_eq_true_eq] at h
    simp [Members.spaced, SpacedMembers.enc, Members.enc, chunkedText, kept, spacedValueElement,
      memberDoc, text, h.1.1, enc_spaced v h.1.2, encMembers_spaced rest h.2]
end

theorem accumulated_single (name : String) : accumulated [name] = name := by
  simp [accumulated]

mutual
theorem sem_spaced : ∀ v : Val, v.spaced.sem = .ok v.toJS
  | .int n => by
    have h := convert_int { name := "int", values := [], inner_content := [toString n] }
      (Or.inl rfl)
    simp only [Val.spaced, SpacedValue.sem, Val.toJS, h, List.foldl_cons, List.foldl_nil]
    have e : "" ++ toString n = toString n := by simp
    rw [e, parseInt_toString n 10 (Or.inr rfl)]
  | .array items => by
    simp only [Val.spaced, SpacedValue.sem, semItems_spaced items, Val.toJS]
  | .struct members => by
    obtain ⟨l, hl, hf⟩ := semMembers_spaced members
    simp only [Val.spaced, SpacedValue.sem, hl, hf [], Val.toJS]
    exact dataBranch_skip (nameIs_numeric (toJS_numeric (.struct members)) _)
theorem semItems_spaced : ∀ items : Vals, items.spaced.sem = .ok items.toJS
  | .nil => rfl
  | .cons v rest => by
    simp only [Vals.spaced, SpacedItems.sem, sem_spaced v, semItems_spaced rest, Vals.toJS]
theorem semMembers_spaced : ∀ members : Members,
    ∃ l : List (String × JSVal), members.spaced.sem = .ok l ∧
      ∀ acc, l.foldlM (fun acc m => setProp acc m.1 m.2) acc = .ok (members.toProps acc)
  | .nil => ⟨[], rfl, fun _ => rfl⟩
  | .cons name v rest => by
    obtain ⟨l, hl, hf⟩ := semMembers_spaced rest
    refine ⟨(name, v.toJS) :: l, ?_, ?_⟩
    · simp only [Members.spaced, SpacedMembers.sem, sem_spaced v, hl, accumulated_single]
    · intro acc
      simp only [List.foldlM_cons, setProp_numeric acc name (toJS_numeric v), bind, Except.bind,
        hf, Members.toProps]
end

/-- The response carrying a well-formed value reports the value it denotes. -/
theorem response_val (v : Val) (h : v.wellFormed = true) :
    parseMethodResponse (methodResponseDoc [v.enc]) = .ok [(.bool false, v.toJS)] := by
  have h1 := spaced_response false
    { afterResponseStart := [], afterParamsStart := [], afterParamStart := [],
      inValue := { before := [], after := [] }, afterValueEnd := [], afterParamEnd := [],
      afterParamsEnd := [] } v.spaced
  rw [spacedResponseDoc_plain, enc_spaced v h, sem_spaced] at h1
  exact h1

end Response

/-! ## The common value grammar: `parseMethodCall` -/

namespace Call

theorem run_int_val (n : Int) (s : CallState) (k : Cont)
    (hs : s.onStartElementNS = .param k) :
    run s (Val.int n).enc = fire k (Val.int n).toJS s := by
  have hne := toString_int_ne_empty n
  have hf : ("int" ∈ flatParams) = True := by decide
  have hc : coerce "int" (toString n) = .ok (Val.int n).toJS := by
    simp [coerce, parseInt_toString n 0 (Or.inl rfl), Val.toJS]
  simp only [Val.enc, element, text, hne, if_false, List.singleton_append, call_run_cons,
    call_run_nil, step, onStartElementNS, hs, hf, if_true, Except.bind, onCharacters, hc]
  rw [fire_listeners]
  cases hfire : fire k (Val.int n).toJS s with
  | error e => rfl
  | ok s2 =>
    simp only [end_after_fire hfire "int" (by decide) (by decide)]

theorem end_quiet (s : CallState) (element : String) (hq : s.onEndElementNS.quiet = true)
    (h1 : element ≠ "array") (h2 : element ≠ "struct") : onEndElementNS element s = .ok s := by
  cases he : s.onEndElementNS with
  | unset => simp only [onEndElementNS, he]
  | ignore => simp only [onEndElementNS, he]
  | flat cb => simp [he, EndListener.quiet] at hq
  | array env cb => simp only [onEndElementNS, he, h1, if_false]
  | struct env cb => simp only [onEndElementNS, he, h2, if_false]

theorem run_item (s : CallState) (r : Nat) (k : Cont) (done : List JSVal) (v : List Event)
    (x : JSVal) (c1 : List Cell) (hs : s.onStartElementNS = .array r k)
    (hr : s.heap[r]? = some (.array done))
    (hv : run (deserializeParam (.arrayValue r k) s) v =
      fire (.arrayValue r k) x
        { deserializeParam (.arrayValue r k) s with
          heap := (deserializeParam (.arrayValue r k) s).heap ++ c1 }) :
    run s (element "value" v) =
      .ok (arrayState s (s.heap.set r (.array (done ++ [x])) ++ c1) r k) := by
  have hf := fire_arrayValue s r k x done c1 hr
  have h1a : run (deserializeParam (.arrayValue r k) s) v =
      .ok (arrayState s (s.heap.set r (.array (done ++ [x])) ++ c1) r k) := by
    rw [hv, ← hf]
    exact fire_congr _ _ _ _ rfl rfl rfl
  rw [element, call_run_cons, step, start_array_value s r k hs]
  simp only [Except.bind]
  rw [call_run_append, h1a]
  simp only [Except.bind]
  rw [call_run_cons, step, end_array_other _ r k "value" rfl (by decide)]
  rfl

theorem run_array (s : CallState) (k : Cont) (items : List Event) (xs : List JSVal)
    (cells : List Cell) (hs : s.onStartElementNS = .param k)
    (hi : run (deserializeArrayParam k s) items =
      .ok (arrayState (deserializeArrayParam k s)
        ((deserializeArrayParam k s).heap.set s.heap.length (.array ([] ++ xs)) ++ cells)
        s.heap.length k)) :
    run s (element "array" (element "data" items)) =
      fire k (.arr xs) { s with heap := s.heap ++ .array xs :: cells } := by
  have e : element "array" (element "data" items) = .startElement "array" ::
      .startElement "data" :: (items ++ [.endElement "data", .endElement "array"]) := by
    simp [element]
  have hheap : (deserializeArrayParam k s).heap.set s.heap.length (.array ([] ++ xs)) ++ cells =
      s.heap ++ .array xs :: cells := by
    simp [deserializeArrayParam]
  rw [hheap] at hi
  have hr3 : (arrayState (deserializeArrayParam k s) (s.heap ++ .array xs :: cells)
      s.heap.length k).heap[s.heap.length]? = some (.array xs) := by
    simp only [arrayState]
    rw [List.getElem?_append_right (Nat.le_refl _)]
    simp
  rw [e, call_run_cons, step, start_param_array s k hs]
  simp only [Except.bind]
  rw [call_run_cons, step, start_array_other _ s.heap.length k "data" rfl (by decide)]
  simp only [Except.bind]
  rw [call_run_append, hi]
  simp only [Except.bind]
  rw [call_run_cons, step, end_array_other _ s.heap.length k "data" rfl (by decide)]
  simp only [Except.bind]
  rw [call_run_cons, step, end_array_array _ s.heap.length k _ rfl hr3]
  have hfc : fire k (.arr xs) (arrayState (deserializeArrayParam k s)
      (s.heap ++ .array xs :: cells) s.heap.length k) =
      fire k (.arr xs) { s with heap := s.heap ++ .array xs :: cells } :=
    fire_congr k _ _ _ rfl rfl rfl
  rw [hfc]
  cases fire k (.arr xs) { s with heap := s.heap ++ .array xs :: cells } with
  | error e => rfl
  | ok s2 => rfl

theorem fire_structValue (s : CallState) (r : Nat) (k : Cont) (v : JSVal)
    (props : List (String × JSVal)) (name : String) (cells : List Cell)
    (hv : v.numeric = true) (hr : s.heap[r]? = some (.struct props (.str name))) :
    fire (.structValue r k) v { s with heap := s.heap ++ cells } =
      .ok (structState s
        (s.heap.set r (.struct (putProp props name v) (.str name)) ++ cells) r k) := by
  have hlt : r < s.heap.length := by
    obtain ⟨h, _⟩ := List.getElem?_eq_some.mp hr
    exact h
  have h1 : (s.heap ++ cells)[r]? = some (.struct props (.str name)) := by
    rw [List.getElem?_append_left hlt, hr]
  simp only [fire, h1, propertyKey, Response.setProp_numeric props name hv, bind, Except.bind,
    pure, Except.pure, resetListeners, structState, List.set_append_left _ _ hlt]

theorem start_param_struct (s : CallState) (k : Cont) (hs : s.onStartElementNS = .param k) :
    onStartElementNS "struct" s = deserializeStructParam k s := by
  have ha : ("struct" ∈ flatParams) = False := by decide
  simp only [onStartElementNS, hs, ha, if_false, if_true]
  rfl

theorem end_struct_other (s : CallState) (r : Nat) (k : Cont) (element : String)
    (hs : s.onEndElementNS = .struct r k) (h : element ≠ "struct") :
    onEndElementNS element s = .ok s := by
  simp only [onEndElementNS, hs, h, if_false]

theorem end_struct_struct (s : CallState) (r : Nat) (k : Cont) (props : List (String × JSVal))
    (name : JSVal) (hs : s.onEndElementNS = .struct r k)
    (hr : s.heap[r]? = some (.struct props name)) :
    onEndElementNS "struct" s = fire k (.obj props) s := by
  simp only [onEndElementNS, hs, if_true, hr]

theorem start_struct_other (s : CallState) (r : Nat) (k : Cont) (element : String)
    (hs : s.onStartElementNS = .struct r k) (h1 : element ≠ "name") (h2 : element ≠ "value") :
    onStartElementNS element s = s := by
  simp only [onStartElementNS, hs, h1, h2, if_false]

theorem start_struct_name (s : CallState) (r : Nat) (k : Cont)
    (hs : s.onStartElementNS = .struct r k) :
    onStartElementNS "name" s = { s with onCharacters := .name r } := by
  have hn : ("name" = "value") = False := by decide
  simp only [onStartElementNS, hs, hn, if_false, if_true]

theorem start_struct_value (s : CallState) (r : Nat) (k : Cont)
    (hs : s.onStartElementNS = .struct r k) :
    onStartElementNS "value" s = deserializeParam (.structValue r k) s := by
  have hn : ("value" = "name") = False := by decide
  simp only [onStartElementNS, hs, hn, if_false, if_true]

theorem chars_name (s : CallState) (r : Nat) (props : List (String × JSVal)) (name0 : JSVal)
    (chars : String) (hc : s.onCharacters = .name r)
    (hr : s.heap[r]? = some (.struct props name0)) :
    onCharacters chars s =
      .ok { s with heap := s.heap.set r (.struct props (.str chars)) } := by
  simp only [onCharacters, hc, hr]

theorem run_member (s : CallState) (r : Nat) (k : Cont) (props : List (String × JSVal))
    (name0 : JSVal) (name : String) (v : List Event) (x : JSVal) (c1 : List Cell)
    (hs : s.onStartElementNS = .struct r k) (hq : s.onEndElementNS.quiet = true)
    (hr : s.heap[r]? = some (.struct props name0)) (hne : name ≠ "")
    (hx : x.numeric = true)
    (hv : run (deserializeParam (.structValue r k)
        { s with onCharacters := .name r,
                 heap := s.heap.set r (.struct props (.str name)) }) v =
      fire (.structValue r k) x
        { s with onCharacters := .name r,
                 onStartElementNS := .param (.structValue r k),
                 heap := s.heap.set r (.struct props (.str name)) ++ c1 }) :
    run s (memberDoc name v) =
      .ok (structState s
        (s.heap.set r (.struct (putProp props name x) (.str name)) ++ c1) r k) := by
  have hlt : r < s.heap.length := by
    obtain ⟨h, _⟩ := List.getElem?_eq_some.mp hr
    exact h
  have e : memberDoc name v = .startElement "member" :: .startElement "name" ::
      .characters name :: .endElement "name" :: .startElement "value" ::
      (v ++ [.endElement "value", .endElement "member"]) := by
    simp [memberDoc, element, text, hne]
  have hf := fire_structValue
    { s with heap := s.heap.set r (.struct props (.str name)) } r k x props name c1 hx
    (by simp [hlt])
  simp only [List.set_set] at hf
  have hv2 : run (deserializeParam (.structValue r k)
        { s with onCharacters := .name r,
                 heap := s.heap.set r (.struct props (.str name)) }) v =
      .ok (structState s
        (s.heap.set r (.struct (putProp props name x) (.str name)) ++ c1) r k) := by
    rw [hv]
    refine Eq.trans (fire_congr _ _ _ _ rfl rfl rfl) (Eq.trans hf ?_)
    rfl
  rw [e, call_run_cons, step, start_struct_other s r k "member" hs (by decide) (by decide)]
  simp only [Except.bind]
  rw [call_run_cons, step, start_struct_name s r k hs]
  simp only [Except.bind]
  rw [call_run_cons, step, chars_name { s with onCharacters := .name r } r props name0 name rfl hr]
  simp only [Except.bind]
  rw [call_run_cons, step,
    end_quiet { s with onCharacters := .name r,
                       heap := s.heap.set r (.struct props (.str name)) }
      "name" hq (by decide) (by decide)]
  simp only [Except.bind]
  rw [call_run_cons, step,
    start_struct_value { s with onCharacters := .name r,
                                heap := s.heap.set r (.struct props (.str name)) } r k hs]
  simp only [Except.bind]
  rw [call_run_append, hv2]
  simp only [Except.bind, call_run_cons, call_run_nil]
  rw [step, end_struct_other _ r k "value" rfl (by decide)]
  simp only [Except.bind]
  rw [step, end_struct_other _ r k "member" rfl (by decide)]

theorem run_struct (s : CallState) (k : Cont) (members : List Event)
    (props : List (String × JSVal)) (nameLast : JSVal) (cells : List Cell)
    (hs : s.onStartElementNS = .param k)
    (hm : run (deserializeStructParam k s) members =
      .ok (structState (deserializeStructParam k s)
        ((deserializeStructParam k s).heap.set s.heap.length (.struct props nameLast) ++ cells)
        s.heap.length k)) :
    run s (element "struct" members) =
      fire k (.obj props) { s with heap := s.heap ++ .struct props nameLast :: cells } := by
  have hheap : (deserializeStructParam k s).heap.set s.heap.length (.struct props nameLast) ++
      cells = s.heap ++ .struct props nameLast :: cells := by
    simp [deserializeStructParam]
  rw [hheap] at hm
  have hr3 : (structState (deserializeStructParam k s) (s.heap ++ .struct props nameLast :: cells)
      s.heap.length k).heap[s.heap.length]? = some (.struct props nameLast) := by
    simp only [structState]
    rw [List.getElem?_append_right (Nat.le_refl _)]
    simp
  rw [element, call_run_cons, step, start_param_struct s k hs]
  simp only [Except.bind]
  rw [call_run_append, hm]
  simp only [Except.bind]
  rw [call_run_cons, step, end_struct_struct _ s.heap.length k _ _ rfl hr3]
  have hfc : fire k (.obj props) (structState (deserializeStructParam k s)
      (s.heap ++ .struct props nameLast :: cells) s.heap.length k) =
      fire k (.obj props) { s with heap := s.heap ++ .struct props nameLast :: cells } :=
    fire_congr k _ _ _ rfl rfl rfl
  rw [hfc]
  cases fire k (.obj props) { s with heap := s.heap ++ .struct props nameLast :: cells } with
  | error e => rfl
  | ok s2 => rfl

end Call

namespace Call

mutual
theorem run_val : ∀ v : Val, v.wellFormed = true → ∀ (s : CallState) (k : Cont),
    s.onStartElementNS = .param k → s.onEndElementNS.quiet = true →
    ∃ cells : List Cell, run s v.enc = fire k v.toJS { s with heap := s.heap ++ cells }
  | .int n, _, s, k, hs, _ => by
    refine ⟨[], ?_⟩
    rw [run_int_val n s k hs]
    exact fire_congr k _ _ _ (by simp) rfl rfl
  | .array items, h, s, k, hs, hq => by
    simp only [Val.wellFormed, Bool.and_eq_true, Bool.not_eq_true'] at h
    have hr : (deserializeArrayParam k s).heap[s.heap.length]? = some (.array []) := by
      simp [deserializeArrayParam]
    obtain ⟨cells, h2⟩ := run_vals items h.2 h.1 (deserializeArrayParam k s) s.heap.length k []
      rfl hq hr
    refine ⟨.array items.toJS :: cells, ?_⟩
    rw [Val.enc, Val.toJS]
    exact run_array s k items.enc items.toJS cells hs h2
  | .struct members, h, s, k, hs, hq => by
    simp only [Val.wellFormed, Bool.and_eq_true, Bool.not_eq_true'] at h
    have hr : (deserializeStructParam k s).heap[s.heap.length]? = some (.struct [] .null) := by
      simp [deserializeStructParam]
    obtain ⟨cells, nameLast, h2⟩ := run_members members h.2 h.1 (deserializeStructParam k s)
      s.heap.length k [] .null rfl hq hr
    refine ⟨.struct (members.toProps []) nameLast :: cells, ?_⟩
    rw [Val.enc, Val.toJS]
    exact run_struct s k members.enc (members.toProps []) nameLast cells hs h2
theorem run_vals : ∀ items : Vals, items.wellFormed = true → items.isEmpty = false →
    ∀ (s : CallState) (r : Nat) (k : Cont) (done : List JSVal),
    s.onStartElementNS = .array r k → s.onEndElementNS.quiet = true →
    s.heap[r]? = some (.array done) →
    ∃ cells : List Cell, run s items.enc =
      .ok (arrayState s (s.heap.set r (.array (done ++ items.toJS)) ++ cells) r k)
  | .nil, _, h, _, _, _, _, _, _, _ => by simp [Vals.isEmpty] at h
  | .cons v rest, h, _, s, r, k, done, hs, hq, hr => by
    simp only [Vals.wellFormed, Bool.and_eq_true] at h
    have hlt : r < s.heap.length := by
      obtain ⟨h, _⟩ := List.getElem?_eq_some.mp hr
      exact h
    obtain ⟨c1, h1⟩ := run_val v h.1 (deserializeParam (.arrayValue r k) s)
      (.arrayValue r k) rfl hq
    have hv := run_item s r k done v.enc v.toJS c1 hs hr h1
    by_cases hcs : rest.isEmpty = true
    · have hnil : rest = .nil := by
        cases rest with
        | nil => rfl
        | cons _ _ => simp [Vals.isEmpty] at hcs
      subst hnil
      refine ⟨c1, ?_⟩
      simp only [Vals.enc, List.append_nil, hv, Vals.toJS]
    · have hr2 : (arrayState s (s.heap.set r (.array (done ++ [v.toJS])) ++ c1) r k).heap[r]? =
          some (.array (done ++ [v.toJS])) := by
        simp only [arrayState]
        rw [List.getElem?_append_left (by simpa using hlt)]
        simp [hlt]
      obtain ⟨c2, h2⟩ := run_vals rest h.2 (by simpa using hcs)
        (arrayState s (s.heap.set r (.array (done ++ [v.toJS])) ++ c1) r k) r k
        (done ++ [v.toJS]) rfl rfl hr2
      refine ⟨c1 ++ c2, ?_⟩
      have hl : r < (s.heap.set r (Cell.array (done ++ [v.toJS]))).length := by simpa using hlt
      rw [Vals.enc, call_run_append, hv]
      simp only [Except.bind]
      rw [h2]
      simp only [arrayState, Vals.toJS, List.set_append_left _ _ hl, List.set_set,
        List.append_assoc, List.singleton_append]
theorem run_members : ∀ members : Members, members.wellFormed = true →
    members.isEmpty = false →
    ∀ (s : CallState) (r : Nat) (k : Cont) (props : List (String × JSVal)) (name0 : JSVal),
    s.onStartElementNS = .struct r k → s.onEndElementNS.quiet = true →
    s.heap[r]? = some (.struct props name0) →
    ∃ (cells : List Cell) (nameLast : JSVal), run s members.enc =
      .ok (structState s
        (s.heap.set r (.struct (members.toProps props) nameLast) ++ cells) r k)
  | .nil, _, h, _, _, _, _, _, _, _, _ => by simp [Members.isEmpty] at h
  | .cons name v rest, h, _, s, r, k, props, name0, hs, hq, hr => by
    simp only [Members.wellFormed, Bool.and_eq_true, decide_eq_true_eq] at h
    have hlt : r < s.heap.length := by
      obtain ⟨h, _⟩ := List.getElem?_eq_some.mp hr
      exact h
    obtain ⟨c1, h1⟩ := run_val v h.1.2
      (deserializeParam (.structValue r k)
        { s with onCharacters := .name r, heap := s.heap.set r (.struct props (.str name)) })
      (.structValue r k) rfl hq
    have hv := run_member s r k props name0 name v.enc v.toJS c1 hs hq hr h.1.1
      (Response.toJS_numeric v) h1
    by_cases hcs : rest.isEmpty = true
    · have hnil : rest = .nil := by
        cases rest with
        | nil => rfl
        | cons _ _ _ => simp [Members.isEmpty] at hcs
      subst hnil
      refine ⟨c1, .str name, ?_⟩
      simp only [Members.enc, List.append_nil, hv, Members.toProps]
    · have hr2 : (structState s
          (s.heap.set r (.struct (putProp props name v.toJS) (.str name)) ++ c1) r k).heap[r]? =
          some (.struct (putProp props name v.toJS) (.str name)) := by
        simp only [structState]
        rw [List.getElem?_append_left (by simpa using hlt)]
        simp [hlt]
      obtain ⟨c2, nameLast, h2⟩ := run_members rest h.2 (by simpa using hcs)
        (structState s (s.heap.set r (.struct (putProp props name v.toJS) (.str name)) ++ c1) r k)
        r k (putProp props name v.toJS) (.str name) rfl rfl hr2
      refine ⟨c1 ++ c2, nameLast, ?_⟩
      have hl : r < (s.heap.set r
          (Cell.struct (putProp props name v.toJS) (.str name))).length := by simpa using hlt
      rw [Members.enc, call_run_append, hv]
      simp only [Except.bind]
      rw [h2]
      simp only [structState, Members.toProps, List.set_append_left _ _ hl, List.set_set,
        List.append_assoc]
end

theorem adds_val (v : Val) (h : v.wellFormed = true) :
    Adds (element "param" (element "value" v.enc)) v.toJS := by
  intro m ps cells
  obtain ⟨c1, h1⟩ := run_val v h
    (deserializeParam (.paramsPush 0) (ready m ps cells)) (.paramsPush 0) rfl rfl
  refine ⟨cells ++ c1, ?_⟩
  have hp : onStartElementNS "param" (ready m ps cells) =
      deserializeParam (.paramsPush 0) (ready m ps cells) := by
    simp [onStartElementNS, ready]
  have hv : onStartElementNS "value" (deserializeParam (.paramsPush 0) (ready m ps cells)) =
      deserializeParam (.paramsPush 0) (ready m ps cells) := by
    have hvf : ("value" ∈ flatParams) = False := by decide
    simp [onStartElementNS, deserializeParam, hvf]
  have hf : fire (.paramsPush 0) v.toJS
      { deserializeParam (.paramsPush 0) (ready m ps cells) with
        heap := (deserializeParam (.paramsPush 0) (ready m ps cells)).heap ++ c1 } =
      .ok (ready m (ps ++ [v.toJS]) (cells ++ c1)) := by
    simp [fire, deserializeParam, ready, resetListeners]
  rw [hf] at h1
  simp only [element, List.cons_append, call_run_cons, step, hp, hv, Except.bind, call_run_append,
    h1, call_run_nil, List.nil_append]
  simp [onEndElementNS, ready]

/-- The call whose one param is a well-formed value reports the value it
denotes. -/
theorem call_val (m : String) (hm : m ≠ "") (v : Val) (h : v.wellFormed = true) :
    parseMethodCall (methodCallDoc m [v.enc]) = .ok [(.null, .str m, .arr [v.toJS])] :=
  call_of_adds hm (List.Forall₂.cons (adds_val v h) List.Forall₂.nil)

end Call

/-! ## Claims C11 to C20 -/

/-- C11: in a method call, a struct member written `value` first and `name`
second is not stored under its own name.  `parseMethodCall` assigns the value
when its element ends, under the name read so far: the one member `a` with
value 1 becomes the entry `null: 1`, and of the two members `a` = 1 and `b` = 2
the first goes under `null` and the second under `a`.  Written `name` first the
member gives `a: 1`, and `parseMethodResponse` gives `a: 1` for either order. -/
theorem C11_value_before_name_is_misfiled :
    parseMethodCall (methodCallDoc "m"
        [element "struct" (memberDocValueFirst "a" (scalarDoc "int" "1"))]) =
      .ok [(.null, .str "m", .arr [.obj [("null", .num (.int 1))]])] ∧
    parseMethodCall (methodCallDoc "m"
        [element "struct" (memberDocValueFirst "a" (scalarDoc "int" "1") ++
          memberDocValueFirst "b" (scalarDoc "int" "2"))]) =
      .ok [(.null, .str "m",
        .arr [.obj [("null", .num (.int 1)), ("a", .num (.int 2))]])] ∧
    parseMethodCall (methodCallDoc "m"
        [element "struct" (memberDoc "a" (scalarDoc "int" "1"))]) =
      .ok [(.null, .str "m", .arr [.obj [("a", .num (.int 1))]])] ∧
    parseMethodResponse (methodResponseDoc
        [element "struct" (memberDocValueFirst "a" (scalarDoc "int" "1"))]) =
      .ok [(.bool false, .obj [("a", .num (.int 1))])] := by
  decide

/-- C12: in a method call, a scalar whose text arrives in two characters
events is decoded from the first event alone.  The `int` delivered as `12` and
`34` gives 12, not 1234, and the `string` delivered as `ab` and `cd` gives
`ab`; in one event the same texts give 1234 and `abcd`, and
`parseMethodResponse` gives 1234 for the two events. -/
theorem C12_only_first_chunk_is_decoded :
    parseMethodCall (methodCallDoc "m" [element "int" (chunkedText ["12", "34"])]) =
      .ok [(.null, .str "m", .arr [.num (.int 12)])] ∧
    parseMethodCall (methodCallDoc "m" [element "int" (chunkedText [accumulated ["12", "34"]])]) =
      .ok [(.null, .str "m", .arr [.num (.int 1234)])] ∧
    parseMethodCall (methodCallDoc "m" [element "string" (chunkedText ["ab", "cd"])]) =
      .ok [(.null, .str "m", .arr [.str "ab"])] ∧
    parseMethodCall (methodCallDoc "m" [element "string" (chunkedText [accumulated ["ab", "cd"]])]) =
      .ok [(.null, .str "m", .arr [.str "abcd"])] ∧
    parseMethodResponse (methodResponseDoc [element "int" (chunkedText ["12", "34"])]) =
      .ok [(.bool false, .num (.int 1234))] := by
  decide

/-- C13: characters events inserted between the elements of the envelope of a
method call change nothing.  For a call with a non-empty method name `m` and
scalar params, given by tag and text, `parseMethodCall` has the same outcome on
the document with the texts `e` around `methodCall`, `methodName` and `params`
and the texts of `params` around each `param`, `value` and scalar element as on
the document without them.  When the params decode to `vs` that outcome is one
call of the callback with a null error, the name `m` and the params `vs`; when
the date decoder is called, which the embedding does not follow, it is
`JSError.unmodelled` on both documents.  The inserted texts are arbitrary,
whitespace included. -/
theorem C13_text_between_envelope_elements (m : String) (e : EnvelopeGaps)
    (params : List (ParamGaps × String × String)) (hm : m ≠ "")
    (hp : ∀ p ∈ params, p.2.1 ∈ Call.flatParams) :
    parseMethodCall (spacedCallDoc m e params) =
      parseMethodCall (methodCallDoc m (params.map (fun p => scalarDoc p.2.1 p.2.2))) ∧
    (∀ vs : List JSVal, Call.flatValues (params.map Prod.snd) = .ok vs →
      parseMethodCall (spacedCallDoc m e params) = .ok [(.null, .str m, .arr vs)]) := by
  have h1 := Call.call_flat m hm e params hp
  have h2 := Call.call_flat m hm EnvelopeGaps.none
    ((params.map Prod.snd).map (fun p => (ParamGaps.none, p)))
    (by
      intro q hq
      simp only [List.mem_map] at hq
      obtain ⟨p2, ⟨p, hmem, rfl⟩, rfl⟩ := hq
      exact hp p hmem)
  have e1 : params.map (fun p => scalarDoc p.2.1 p.2.2) =
      (params.map Prod.snd).map (fun p => scalarDoc p.1 p.2) := by
    simp [List.map_map, Function.comp]
  have e2 : ((params.map Prod.snd).map (fun p => (ParamGaps.none, p))).map Prod.snd =
      params.map Prod.snd := by
    simp [List.map_map, Function.comp]
  rw [e2, ← Call.methodCallDoc_eq_spaced, ← e1] at h2
  refine ⟨by rw [h1, h2], ?_⟩
  intro vs hvs
  rw [h1, hvs]
  rfl

/-- C13, witness: the call `m` with the params `<int>41</int>` and an empty
`string`, indented with line breaks and blanks. -/
theorem C13_text_between_envelope_elements_witness :
    "m" ≠ "" ∧
    (∀ p ∈ [(ParamGaps.indent, "int", "41"), (ParamGaps.indent, "string", "")],
      p.2.1 ∈ Call.flatParams) ∧
    Call.flatValues ([(ParamGaps.indent, "int", "41"), (ParamGaps.indent, "string", "")].map
      Prod.snd) = .ok [.num (.int 41), .str ""] ∧
    parseMethodCall (spacedCallDoc "m" EnvelopeGaps.lines
        [(ParamGaps.indent, "int", "41"), (ParamGaps.indent, "string", "")]) =
      parseMethodCall (methodCallDoc "m"
        ([(ParamGaps.indent, "int", "41"), (ParamGaps.indent, "string", "")].map
          (fun p => scalarDoc p.2.1 p.2.2))) ∧
    parseMethodCall (spacedCallDoc "m" EnvelopeGaps.lines
        [(ParamGaps.indent, "int", "41"), (ParamGaps.indent, "string", "")]) =
      .ok [(.null, .str "m", .arr [.num (.int 41), .str ""])] :=
  ⟨by decide, by decide, by decide,
    (C13_text_between_envelope_elements "m" EnvelopeGaps.lines
      [(ParamGaps.indent, "int", "41"), (ParamGaps.indent, "string", "")] (by decide)
      (by decide)).1,
    (C13_text_between_envelope_elements "m" EnvelopeGaps.lines
      [(ParamGaps.indent, "int", "41"), (ParamGaps.indent, "string", "")] (by decide)
      (by decide)).2 [.num (.int 41), .str ""] (by decide)⟩

/-- C14: the empty `boolean` element of a method call decodes to null, not to
false.  The end-element listener that `parseMethodCall` registers for an
element without text gives the empty string for `string` and null for every
other element, `boolean` included; `parseMethodResponse` gives false for the
same element.  With the texts `1` and `0` both decoders give true and
false. -/
theorem C14_empty_boolean_is_null :
    parseMethodCall (methodCallDoc "m" [scalarDoc "boolean" ""]) =
      .ok [(.null, .str "m", .arr [.null])] ∧
    parseMethodResponse (methodResponseDoc [scalarDoc "boolean" ""]) =
      .ok [(.bool false, .bool false)] ∧
    parseMethodCall (methodCallDoc "m" [scalarDoc "boolean" "1", scalarDoc "boolean" "0"]) =
      .ok [(.null, .str "m", .arr [.bool true, .bool false])] ∧
    parseMethodResponse (methodResponseDoc [scalarDoc "boolean" "1"]) =
      .ok [(.bool false, .bool true)] ∧
    parseMethodResponse (methodResponseDoc [scalarDoc "boolean" "0"]) =
      .ok [(.bool false, .bool false)] := by
  decide

/-- C15: the text `0x10` of an `int` or `i4` param is read in base 16 by
`parseMethodCall`, which calls `parseInt` without a radix: the param is 16.
`parseMethodResponse`, which passes the radix 10, gives 0 for the same
element. -/
theorem C15_hex_prefix_selects_base_16 :
    parseMethodCall (methodCallDoc "m" [scalarDoc "int" "0x10"]) =
      .ok [(.null, .str "m", .arr [.num (.int 16)])] ∧
    parseMethodCall (methodCallDoc "m" [scalarDoc "i4" "0x10"]) =
      .ok [(.null, .str "m", .arr [.num (.int 16)])] ∧
    parseMethodResponse (methodResponseDoc [scalarDoc "int" "0x10"]) =
      .ok [(.bool false, .num (.int 0))] ∧
    parseMethodResponse (methodResponseDoc [scalarDoc "i4" "0x10"]) =
      .ok [(.bool false, .num (.int 0))] ∧
    parseInt "0x10" 10 = .int 0 := by
  decide

/-- C16: whenever `parseMethodResponse` completes a parse, it calls the
callback once and the error argument of that call is the boolean `false`, not
null. -/
theorem C16_error_argument_is_false (events : List Event) (calls : List (JSVal × JSVal))
    (h : parseMethodResponse events = .ok calls) :
    ∃ value : JSVal, calls = [(.bool false, value)] ∧ (JSVal.bool false) ≠ .null := by
  simp only [parseMethodResponse, bind, Except.bind, pure, Except.pure] at h
  cases hr : Response.run ResponseState.init events with
  | error e => simp [hr] at h
  | ok s =>
    simp only [hr] at h
    cases hd : Response.onEndDocument s with
    | error e => simp [hd] at h
    | ok p =>
      simp only [hd, Except.ok.injEq] at h
      have hp : p.1 = .bool false := by
        simp only [Response.onEndDocument] at hd
        split at hd
        · simp at hd
        · simp only [bind, Except.bind, pure, Except.pure] at hd
          repeat' split at hd
          all_goals first
            | (simp at hd; done)
            | (injection hd with hd; rw [← hd])
      refine ⟨p.2, ?_, by decide⟩
      rw [← h, ← hp]

/-- C16, witness: the response carrying the `int` 41. -/
theorem C16_error_argument_is_false_witness :
    parseMethodResponse (methodResponseDoc [scalarDoc "int" "41"]) =
      .ok [(.bool false, .num (.int 41))] ∧
    ∃ value : JSVal, [(JSVal.bool false, JSVal.num (.int 41))] = [(.bool false, value)] ∧
      (JSVal.bool false) ≠ .null :=
  ⟨by decide,
    C16_error_argument_is_false (methodResponseDoc [scalarDoc "int" "41"])
      [(.bool false, .num (.int 41))] (by decide)⟩

/-- C17: a decoded struct with the member `name` = `data` is converted once
more by the branch for `data` elements of `parseMethodResponse`.  With the
second member `values` = `xyz` the response value is the empty array, not the
mapping of the two members; with the member `name` alone the handler throws a
TypeError.  With `name` = `x` the struct is passed on as it is. -/
theorem C17_struct_named_data_is_reinterpreted :
    parseMethodResponse (methodResponseDoc
        [element "struct" (memberDoc "name" (scalarDoc "string" "data") ++
          memberDoc "values" (scalarDoc "string" "xyz"))]) =
      .ok [(.bool false, .arr [])] ∧
    parseMethodResponse (methodResponseDoc
        [element "struct" (memberDoc "name" (scalarDoc "string" "data"))]) =
      .error .typeError ∧
    parseMethodResponse (methodResponseDoc
        [element "struct" (memberDoc "name" (scalarDoc "string" "x") ++
          memberDoc "values" (scalarDoc "string" "xyz"))]) =
      .ok [(.bool false, .obj [("name", .str "x"), ("values", .str "xyz")])] := by
  decide

/-- C18: the stack of `parseMethodResponse` follows the open elements.  When
the handlers have run without a throw over `events`, in which every end-element
event closes the innermost open element and which leave the elements `opened`
open, the names of the frames on the stack are those of the open elements above
the root frame: the stack has one frame more than there are open elements, its
bottom frame is the root frame, and `current_raw_value` is the top frame.  So a
characters event now never throws, and an end-element event closing the
innermost open element pops a frame above the root frame and pushes what
`convert` makes of it on the frame below, throwing only when `convert` does. -/
theorem C18_stack_tracks_open_elements (events : List Event) (opened : List String)
    (s : ResponseState) (hw : openElements [] events = some opened)
    (hr : Response.run ResponseState.init events = .ok s) :
    s.stack.map Frame.name = opened ++ ["root"] ∧
    s.stack.length = 1 + opened.length ∧
    s.stack.getLast?.map Frame.name = some "root" ∧
    s.current_raw_value = s.stack.length - 1 ∧
    (∀ chars : String, ∃ s2 : ResponseState, Response.step s (.characters chars) = .ok s2) ∧
    (∀ (name : String) (outer : List String), opened = name :: outer →
      ∃ (last top : Frame) (below : List Frame), s.stack = last :: top :: below ∧
        last.name = name ∧
        Response.step s (.endElement name) =
          match Response.convert last.toVal with
          | .ok v => .ok (Response.atTop (top.push [v] :: below))
          | .error err => .error err) := by
  obtain ⟨hn, hc⟩ := Response.tracks_open_elements events [] ResponseState.init rfl rfl opened s
    hw hr
  have hlen : s.stack.length = 1 + opened.length := by
    have := congrArg List.length hn
    simp at this
    omega
  refine ⟨hn, hlen, ?_, hc, ?_, ?_⟩
  · rw [← List.getLast?_map, hn]
    simp
  · intro chars
    have hlt : s.current_raw_value < s.stack.length := by omega
    simp only [Response.step, Response.onCharacters, hlt, if_true]
    exact ⟨_, rfl⟩
  · intro name outer ho
    subst ho
    obtain ⟨last, top, below, hs, hl, _⟩ := Response.stack_of_names hn
    refine ⟨last, top, below, hs, hl, ?_⟩
    simp only [Response.step, Response.onEndElementNS, hs, bind, Except.bind, pure, Except.pure]
    cases Response.convert last.toVal <;> rfl

/-- C18, witness: after the start of `methodResponse`, a whole `int` element
and the start of `params` with the text `x`, the stack holds the frames of
`params` and `methodResponse` above the root frame. -/
theorem C18_stack_tracks_open_elements_witness :
    openElements [] ([.startElement "methodResponse"] ++ scalarDoc "int" "41" ++
      [.startElement "params", .characters "x"]) = some ["params", "methodResponse"] ∧
    Response.run ResponseState.init ([.startElement "methodResponse"] ++ scalarDoc "int" "41" ++
      [.startElement "params", .characters "x"]) =
      .ok { stack := [{ name := "params", values := [], inner_content := ["x"] },
              { name := "methodResponse", values := [.num (.int 41)], inner_content := [] },
              { name := "root", values := [], inner_content := [] }],
            current_raw_value := 2 } ∧
    [Frame.name { name := "params", values := [], inner_content := ["x"] }, "methodResponse",
      "root"] = ["params", "methodResponse"] ++ ["root"] :=
  ⟨by decide, by decide,
    (C18_stack_tracks_open_elements
      ([.startElement "methodResponse"] ++ scalarDoc "int" "41" ++
        [.startElement "params", .characters "x"])
      ["params", "methodResponse"]
      { stack := [{ name := "params", values := [], inner_content := ["x"] },
          { name := "methodResponse", values := [.num (.int 41)], inner_content := [] },
          { name := "root", values := [], inner_content := [] }],
        current_raw_value := 2 }
      (by decide) (by decide)).1⟩

/-- C19: text inserted between the elements of a method response does not
change what `parseMethodResponse` reports.  For every value `v` written as
scalar elements (any element holding text only), `array` with `data` and
`value` elements, and `struct` with `member`, `name` and `value` elements, with
arbitrary characters events at every place where the innermost open element is
`methodResponse`, `params`, `param`, `value`, `array`, `data`, `struct` or
`member`, the outcome on the response with these events is the outcome on the
response without them: the same call of the callback, or the same throw.  The
same holds for a fault response.  Where the embedding does not follow the code
the outcome is `JSError.unmodelled` on both sides, and the equation says nothing
about the code there.  On the sample response with text at every such place the
callback gets the array of 41 and the struct `a` = `x`. -/
theorem C19_text_between_elements_is_ignored (e : ResponseGaps) (f : FaultGaps)
    (v : SpacedValue) :
    parseMethodResponse (spacedResponseDoc true e v) =
      parseMethodResponse (methodResponseDoc [v.enc false]) ∧
    parseMethodResponse (spacedFaultDoc true f v) =
      parseMethodResponse (faultDoc (v.enc false)) ∧
    parseMethodResponse (spacedResponseDoc true ResponseGaps.lines SpacedValue.sample) =
      .ok [(.bool false, .arr [.num (.int 41), .obj [("a", .str "x")]])] := by
  refine ⟨?_, ?_, by decide⟩
  · rw [← Response.spacedResponseDoc_plain e v, Response.spaced_response,
      Response.spaced_response]
  · rw [← Response.spacedFaultDoc_plain f v, Response.spaced_fault, Response.spaced_fault]

/-- C20: the two decoders agree on the common value grammar.  For every value
`v` built from integers, arrays and structs, every array and every struct with
at least one entry and no member name empty, written with `name` before `value`,
one characters event for each text and no text between the elements, and for
every non-empty method name `m`: the one param `parseMethodCall` reports for the
call carrying `v` and the value `parseMethodResponse` reports for the response
carrying `v` are the same value, the one `v` denotes. -/
theorem C20_decoders_agree_on_common_values (m : String) (v : Val) (hm : m ≠ "")
    (hv : v.wellFormed = true) :
    parseMethodCall (methodCallDoc m [v.enc]) = .ok [(.null, .str m, .arr [v.toJS])] ∧
    parseMethodResponse (methodResponseDoc [v.enc]) = .ok [(.bool false, v.toJS)] :=
  ⟨Call.call_val m hm v hv, Response.response_val v hv⟩

/-- C20, witness: the struct with the members `a`, the array of 1 and -2, and
`b`, the struct with the one member `c` = 3, in the call `m` and in a
response. -/
theorem C20_decoders_agree_on_common_values_witness :
    "m" ≠ "" ∧ Val.sample.wellFormed = true ∧
    (parseMethodCall (methodCallDoc "m" [Val.sample.enc]) =
        .ok [(.null, .str "m", .arr [Val.sample.toJS])] ∧
      parseMethodResponse (methodResponseDoc [Val.sample.enc]) =
        .ok [(.bool false, Val.sample.toJS)]) ∧
    Val.sample.toJS =
      .obj [("a", .arr [.num (.int 1), .num (.int (-2))]), ("b", .obj [("c", .num (.int 3))])] :=
  ⟨by decide, by decide,
    C20_decoders_agree_on_common_values "m" Val.sample (by decide) (by decide), by decide⟩

end XmlRpc
